import Mathlib

/-!
# raspicoVNA: FIR filter, window, power conversion and bar-graph rasteriser

A shallow embedding of `fft_vga_display_complete.c`.

* C `float` values are elements of an arbitrary linearly ordered field `F`
  (exact arithmetic); the theorems about `sinf`, `cosf` and `log10f` take `F = ℝ`.
* The `<math.h>` functions and constants (`sinf`, `cosf`, `log10f`, `M_PI`,
  `M_SQRT2`) are parameters of the definitions that use them.
* C arrays are lists; every read and write through a C `int` index is checked,
  and an out-of-range index makes the enclosing function return `none`.
* C `int` is `Int`; a counted `for` loop is a fold over its iteration range.
-/

namespace RaspicoVNA

/-! ## Constants (`#define`s) -/

def FRAME_WIDTH : Nat := 320
def FRAME_HEIGHT : Nat := 240
def SAMPLE_NUM : Nat := 256
def FIR_TAP_NUM : Nat := 64
def SAMPLING_FREQ : Nat := 128000

section Embedding

variable {F : Type} [LinearOrderedField F]

def CUT_OFF_FREQ : F := 50000
def VREF : F := 33 / 10
def IMPEDANCE : F := 50
def MIN_DBM : F := -100
def MAX_DBM : F := 0

/-! ## Checked array access and counted loops -/

/-- Read `a[i]` for a C `int` index; `none` when the index is out of range. -/
def readAt {α : Type} (a : List α) (i : Int) : Option α :=
  if 0 ≤ i then a[i.toNat]? else none

/-- Write `a[i] = v` for a C `int` index; `none` when the index is out of range. -/
def writeAt {α : Type} (a : List α) (i : Int) (v : α) : Option (List α) :=
  if 0 ≤ i ∧ i.toNat < a.length then some (a.set i.toNat v) else none

/-- Loop `for (int v = lo; v < hi; v++) body`, threading the state `s`. -/
def forUp {σ : Type} (lo hi : Int) (body : Int → σ → Option σ) (s : σ) : Option σ :=
  (List.range (hi - lo).toNat).foldlM (fun s (k : Nat) => body (lo + (k : Int)) s) s

/-- Loop `for (int v = hi; v >= lo; v--) body`, threading the state `s`. -/
def forDown {σ : Type} (hi lo : Int) (body : Int → σ → Option σ) (s : σ) : Option σ :=
  (List.range (hi - lo + 1).toNat).foldlM (fun s (k : Nat) => body (hi - (k : Int)) s) s

/-! ## FIR filter -/

/-- The globals `fir_coeffs`, `fir_state` and `fir_idx`. -/
structure FirFilter (F : Type) where
  fir_coeffs : List F
  fir_state : List F
  fir_idx : Int

/-- The globals as C initialises them before `main`: zero-filled arrays of
`FIR_TAP_NUM` entries and `fir_idx = 0`. -/
def fir_static : FirFilter F :=
  { fir_coeffs := List.replicate FIR_TAP_NUM 0
    fir_state := List.replicate FIR_TAP_NUM 0
    fir_idx := 0 }

/-- State of the first loop of `init_fir_filter`: the two arrays and `sum`. -/
structure FirDesign (F : Type) where
  coeffs : List F
  state : List F
  sum : F

/-- The product `h * w` that the first loop of `init_fir_filter` assigns to
`fir_coeffs[n]`: sinc tap `h` times Hamming weight `w`. -/
def fir_raw_tap (sinf cosf : F → F) (pi : F) (n : Int) : F :=
  let fc : F := CUT_OFF_FREQ / (SAMPLING_FREQ : F)
  let M : Int := (FIR_TAP_NUM : Int) - 1
  let m : F := (n : F) - (M : F) / 2
  let h : F := if |m| < 1 / 1000000 then 2 * fc else sinf (2 * pi * fc * m) / (pi * m)
  let w : F := 54 / 100 - 46 / 100 * cosf (2 * pi * (n : F) / (M : F))
  h * w

/-- Body of the first loop of `init_fir_filter` for tap `n`. -/
def init_fir_tap (sinf cosf : F → F) (pi : F) (n : Int) (d : FirDesign F) :
    Option (FirDesign F) := do
  let coeffs ← writeAt d.coeffs n (fir_raw_tap sinf cosf pi n)
  let c ← readAt coeffs n
  let sum := d.sum + c
  let state ← writeAt d.state n 0
  pure { coeffs := coeffs, state := state, sum := sum }

/-- Body of the second loop of `init_fir_filter`: `fir_coeffs[i] /= sum`. -/
def init_fir_norm (sum : F) (i : Int) (coeffs : List F) : Option (List F) := do
  let c ← readAt coeffs i
  writeAt coeffs i (c / sum)

/-- The function `init_fir_filter`: Hamming-windowed sinc design, normalisation by
the sum, zeroed history and cursor. -/
def init_fir_filter (sinf cosf : F → F) (pi : F) (st : FirFilter F) :
    Option (FirFilter F) := do
  let M : Int := (FIR_TAP_NUM : Int) - 1
  let d ← forUp 0 (M + 1) (init_fir_tap sinf cosf pi)
    { coeffs := st.fir_coeffs, state := st.fir_state, sum := 0 }
  let coeffs ← forUp 0 (M + 1) (init_fir_norm d.sum) d.coeffs
  pure { fir_coeffs := coeffs, fir_state := d.state, fir_idx := 0 }

/-- Body of the tap loop of `apply_fir`; the loop state is `(y, idx)`. -/
def apply_fir_tap (coeffs state : List F) (i : Int) (s : F × Int) : Option (F × Int) := do
  let c ← readAt coeffs i
  let v ← readAt state s.2
  let y := s.1 + c * v
  let idx := if s.2 - 1 < 0 then (FIR_TAP_NUM : Int) - 1 else s.2 - 1
  pure (y, idx)

/-- The function `apply_fir`: returns the output sample and the updated globals. -/
def apply_fir (st : FirFilter F) (x : F) : Option (F × FirFilter F) := do
  let state ← writeAt st.fir_state st.fir_idx x
  let r ← forUp 0 FIR_TAP_NUM (apply_fir_tap st.fir_coeffs state) (0, st.fir_idx)
  let idx := if st.fir_idx + 1 ≥ (FIR_TAP_NUM : Int) then 0 else st.fir_idx + 1
  pure (r.1, { fir_coeffs := st.fir_coeffs, fir_state := state, fir_idx := idx })

/-- The globals before the `n`-th call (counting from 0) of `apply_fir` when the
calls are fed `xs 0, xs 1, ...` starting from `st`. -/
def fir_before (st : FirFilter F) (xs : Nat → F) : Nat → Option (FirFilter F)
  | 0 => some st
  | n + 1 => do
    let s ← fir_before st xs n
    let r ← apply_fir s (xs n)
    pure r.2

/-- The value returned by the `n`-th call (counting from 0) of `apply_fir`. -/
def fir_output (st : FirFilter F) (xs : Nat → F) (n : Nat) : Option F := do
  let s ← fir_before st xs n
  let r ← apply_fir s (xs n)
  pure r.1

/-! ## Hann window -/

/-- The function `init_hanning_window`, filling the global `window_buf`. -/
def init_hanning_window (cosf : F → F) (pi : F) (window_buf : List F) : Option (List F) :=
  forUp 0 SAMPLE_NUM
    (fun i w => writeAt w i
      (1 / 2 * (1 - cosf (2 * pi * (i : F) / (((SAMPLE_NUM : Int) - 1 : Int) : F)))))
    window_buf

/-! ## Power conversion -/

/-- The argument `fmaxf(p_mw, 1e-12f)` that `convert_to_dBm` passes to `log10f` for the
magnitude `mag = mags[i]`; `fmaxf` is `max`. -/
def log10f_arg (sqrt2 : F) (mag : F) : F :=
  let v_peak := mag * VREF
  let v_rms := v_peak / sqrt2
  let p_mw := (v_rms * v_rms) / IMPEDANCE * 1000
  max p_mw (1 / 10 ^ 12)

/-- The value stored in `dBms[i]` by `convert_to_dBm` for the magnitude `mag = mags[i]`. -/
def dBm_of_mag (log10f : F → F) (sqrt2 : F) (mag : F) : F :=
  10 * log10f (log10f_arg sqrt2 mag)

/-- The function `convert_to_dBm`: returns the output array `dBms`. -/
def convert_to_dBm (log10f : F → F) (sqrt2 : F) (mags dBms : List F) : Option (List F) :=
  forUp 0 ((SAMPLE_NUM : Int) / 2)
    (fun i out => do
      let mag ← readAt mags i
      writeAt out i (dBm_of_mag log10f sqrt2 mag))
    dBms

/-! ## Bar-graph rasteriser -/

/-- The global `framebuf`: `FRAME_HEIGHT` rows of `FRAME_WIDTH / 8` bytes. -/
abbrev FrameBuf := List (List Nat)

/-- A frame buffer has the declared shape `uint8_t [FRAME_HEIGHT][FRAME_WIDTH/8]`. -/
def FrameBuf.WF (fb : FrameBuf) : Prop :=
  fb.length = FRAME_HEIGHT ∧ ∀ row ∈ fb, row.length = FRAME_WIDTH / 8

instance (fb : FrameBuf) : Decidable fb.WF := by
  unfold FrameBuf.WF
  exact inferInstance

/-- A frame buffer of the declared shape with every byte equal to `b`; `framebuf` is
`framebuf_fill 0` when the program starts. -/
def framebuf_fill (b : Nat) : FrameBuf :=
  List.replicate FRAME_HEIGHT (List.replicate (FRAME_WIDTH / 8) b)

/-- Pixel `(x, y)`: bit `7 - (x mod 8)` of `framebuf[y][x / 8]`. -/
def FrameBuf.pixel (fb : FrameBuf) (x y : Nat) : Bool :=
  ((fb.getD y []).getD (x / 8) 0).testBit (7 - x % 8)

/-- The call `memset(framebuf, 0, sizeof(framebuf))`: every byte becomes 0. -/
def memset_zero (fb : FrameBuf) : FrameBuf :=
  fb.map (fun row => row.map (fun _ => 0))

/-- The statement `framebuf[y][x/8] |= 1 << (7 - (x % 8))` on `uint8_t` cells, with
C's truncating `/` and `%`. -/
def set_pixel (fb : FrameBuf) (y x : Int) : Option FrameBuf := do
  let row ← readAt fb y
  let b ← readAt row (Int.tdiv x 8)
  let sh : Int := 7 - Int.tmod x 8
  if 0 ≤ sh ∧ sh < 31 then
    let row ← writeAt row (Int.tdiv x 8) ((b ||| (1 <<< sh.toNat)) % 256)
    writeAt fb y row
  else none

/-- Conversion `(int)v` of a `float`: truncation toward zero. -/
def truncToInt [FloorRing F] (v : F) : Int :=
  if 0 ≤ v then ⌊v⌋ else ⌈v⌉

/-- The bar height `h` computed by `draw_frame_dbm` for the value `d = dBms[i]`, in exact
arithmetic; `bar_height_f32` is the same computation with every `float` operation rounded
to binary32. -/
def bar_height [FloorRing F] (d : F) : Int :=
  let range : F := MAX_DBM - MIN_DBM
  let norm := (d - MIN_DBM) / range
  let norm := if norm < 0 then 0 else if norm > 1 then 1 else norm
  truncToInt (norm * (FRAME_HEIGHT : F))

/-- The drawing part of `draw_frame_dbm` in exact arithmetic (the hand-over of `framebuf`
to the VGA DMA channel that follows it is hardware set-up and is not modelled);
`draw_frame_dbm_f32` is the same function with the `float` operations rounded. -/
def draw_frame_dbm [FloorRing F] (dBms : List F) (framebuf : FrameBuf) : Option FrameBuf :=
  let fb := memset_zero framebuf
  let bins : Int := (SAMPLE_NUM : Int) / 2
  let col_w : Int := (FRAME_WIDTH : Int) / bins
  forUp 0 bins
    (fun i fb => do
      let d ← readAt dBms i
      let h := bar_height d
      forDown ((FRAME_HEIGHT : Int) - 1) ((FRAME_HEIGHT : Int) - h)
        (fun y fb => forUp (i * col_w) ((i + 1) * col_w) (fun x fb => set_pixel fb y x) fb)
        fb)
    fb

/-! ## The bar height in binary32 arithmetic -/

/-- Rounding of a rational to the nearest integer, a tie going to the even neighbour. -/
def round_half_even (q : ℚ) : Int :=
  if q - ⌊q⌋ < 1 / 2 then ⌊q⌋
  else if 1 / 2 < q - ⌊q⌋ then ⌊q⌋ + 1
  else if ⌊q⌋ % 2 = 0 then ⌊q⌋ else ⌊q⌋ + 1

/-- The exponent of the binary32 format for the magnitude of `q`: the `e` with
`2 ^ e ≤ |q| < 2 ^ (e + 1)`, and `-126` for magnitudes below `2 ^ (-126)`. -/
def f32_exponent (q : ℚ) : Int :=
  max (Int.log 2 |q|) (-126)

/-- The value of type `float` (IEEE 754 binary32, 24 significant bits, round to nearest,
ties to even) that a `float` operation with exact result `q` delivers. Results of
magnitude `2 ^ 128` and above, which become infinite, are not modelled. -/
def round_f32 (q : ℚ) : ℚ :=
  (round_half_even (q / 2 ^ (f32_exponent q - 23)) : ℚ) * 2 ^ (f32_exponent q - 23)

/-- The bar height `h` that `draw_frame_dbm` computes for `d = dBms[i]`, every `float`
operation rounded to binary32: `range = MAX_DBM - MIN_DBM`,
`norm = (d - MIN_DBM) / range`, the clamp, and `(int)(norm * FRAME_HEIGHT)`. -/
def bar_height_f32 (d : ℚ) : Int :=
  let range : ℚ := round_f32 (MAX_DBM - MIN_DBM)
  let norm : ℚ := round_f32 (round_f32 (d - MIN_DBM) / range)
  let norm : ℚ := if norm < 0 then 0 else if norm > 1 then 1 else norm
  truncToInt (round_f32 (norm * (FRAME_HEIGHT : ℚ)))

/-- The drawing part of `draw_frame_dbm` with the `float` operations rounded to binary32
(the hand-over of `framebuf` to the VGA DMA channel that follows it is hardware set-up
and is not modelled). -/
def draw_frame_dbm_f32 (dBms : List ℚ) (framebuf : FrameBuf) : Option FrameBuf :=
  let fb := memset_zero framebuf
  let bins : Int := (SAMPLE_NUM : Int) / 2
  let col_w : Int := (FRAME_WIDTH : Int) / bins
  forUp 0 bins
    (fun i fb => do
      let d ← readAt dBms i
      let h := bar_height_f32 d
      forDown ((FRAME_HEIGHT : Int) - 1) ((FRAME_HEIGHT : Int) - h)
        (fun y fb => forUp (i * col_w) ((i + 1) * col_w) (fun x fb => set_pixel fb y x) fb)
        fb)
    fb

/-! ## Spectrum pipeline -/

/-- The type `kiss_fft_cpx` of `kiss_fft.h`: real part `r` and imaginary part `i`. -/
structure kiss_fft_cpx (F : Type) where
  r : F
  i : F

/-- Modelled from the spec: the transform computed by the external library function
`kiss_fft` (its code is not part of the repository), the forward discrete Fourier
transform `out[k] = ∑ n, inp[n] * exp (-2 π i k n / N)` over the `N` inputs. -/
def forward_dft (cosf sinf : F → F) (pi : F) (inp : List (kiss_fft_cpx F)) :
    List (kiss_fft_cpx F) :=
  (List.range inp.length).map fun (k : Nat) =>
    { r := ((List.range inp.length).map fun (n : Nat) =>
        (inp.getD n ⟨0, 0⟩).r * cosf (2 * pi * (k : F) * (n : F) / (inp.length : F)) +
        (inp.getD n ⟨0, 0⟩).i * sinf (2 * pi * (k : F) * (n : F) / (inp.length : F))).sum
      i := ((List.range inp.length).map fun (n : Nat) =>
        (inp.getD n ⟨0, 0⟩).i * cosf (2 * pi * (k : F) * (n : F) / (inp.length : F)) -
        (inp.getD n ⟨0, 0⟩).r * sinf (2 * pi * (k : F) * (n : F) / (inp.length : F))).sum }

/-- The globals of the pipeline: the filter, `window_buf`, `fft_in`, `fft_out`, the
static local `dBms` of `process_fft_buffer`, and `framebuf`. -/
structure Globals (F : Type) where
  fir : FirFilter F
  window_buf : List F
  fft_in : List (kiss_fft_cpx F)
  fft_out : List (kiss_fft_cpx F)
  dBms : List F
  framebuf : FrameBuf

/-- The globals as C initialises them before `main`: zero-filled arrays. -/
def globals_static : Globals F :=
  { fir := fir_static
    window_buf := List.replicate SAMPLE_NUM 0
    fft_in := List.replicate SAMPLE_NUM ⟨0, 0⟩
    fft_out := List.replicate SAMPLE_NUM ⟨0, 0⟩
    dBms := List.replicate (SAMPLE_NUM / 2) 0
    framebuf := framebuf_fill 0 }

/-- The pipeline globals have their declared sizes and the filter cursor is valid. -/
def Globals.WF (g : Globals F) : Prop :=
  g.fir.fir_coeffs.length = 64 ∧ g.fir.fir_state.length = 64 ∧
  0 ≤ g.fir.fir_idx ∧ g.fir.fir_idx < 64 ∧
  g.window_buf.length = 256 ∧ g.fft_in.length = 256 ∧ g.dBms.length = 128 ∧ g.framebuf.WF

/-- The part of `main` before the loop that initialises the pipeline globals:
`init_hanning_window(); init_fir_filter();`. -/
def main_init (sinf cosf : F → F) (pi : F) (g : Globals F) : Option (Globals F) := do
  let w ← init_hanning_window cosf pi g.window_buf
  let fir ← init_fir_filter sinf cosf pi g.fir
  pure { g with window_buf := w, fir := fir }

/-- Body of the first loop of `process_fft_buffer` for sample `i`, on the list `raw`
of the quotients `buf[i] / 4095.0f`; the loop state is the filter and `fft_in`. -/
def process_sample (window_buf raw : List F) (i : Int)
    (s : FirFilter F × List (kiss_fft_cpx F)) :
    Option (FirFilter F × List (kiss_fft_cpx F)) := do
  let x ← readAt raw i
  let y ← apply_fir s.1 x
  let w ← readAt window_buf i
  let f := y.1 * w
  let fft_in ← writeAt s.2 i { r := f, i := 0 }
  pure (y.2, fft_in)

/-- The first half of `process_fft_buffer`, up to the local array `mags`: filter and
window every sample into `fft_in`, transform into `fft_out` (the transform `kiss_fft` is
a parameter), take the magnitude of the first `SAMPLE_NUM / 2` bins. Returns the updated
globals and `mags`. -/
def fft_magnitudes (sqrtf : F → F)
    (kiss_fft : List (kiss_fft_cpx F) → List (kiss_fft_cpx F)) (raw : List F)
    (g : Globals F) : Option (Globals F × List F) := do
  let s ← forUp 0 SAMPLE_NUM (process_sample g.window_buf raw) (g.fir, g.fft_in)
  let fft_out := kiss_fft s.2
  let mags ← forUp 0 ((SAMPLE_NUM : Int) / 2)
    (fun i mags => do
      let c ← readAt fft_out i
      writeAt mags i (sqrtf (c.r * c.r + c.i * c.i)))
    (List.replicate (SAMPLE_NUM / 2) 0)
  pure ({ g with fir := s.1, fft_in := s.2, fft_out := fft_out }, mags)

/-- The function `process_fft_buffer` on the list `raw` of the normalised samples
`buf[i] / 4095.0f`: magnitudes, conversion to dBm, drawing. -/
def process_fft_raw (sqrtf log10f : F → F) (sqrt2 : F)
    (kiss_fft : List (kiss_fft_cpx F) → List (kiss_fft_cpx F)) [FloorRing F]
    (raw : List F) (g : Globals F) : Option (Globals F) := do
  let r ← fft_magnitudes sqrtf kiss_fft raw g
  let dBms ← convert_to_dBm log10f sqrt2 r.2 r.1.dBms
  let framebuf ← draw_frame_dbm dBms r.1.framebuf
  pure { r.1 with dBms := dBms, framebuf := framebuf }

/-- The function `process_fft_buffer` on a buffer of `uint16_t` ADC values. -/
def process_fft_buffer (sqrtf log10f : F → F) (sqrt2 : F)
    (kiss_fft : List (kiss_fft_cpx F) → List (kiss_fft_cpx F)) [FloorRing F]
    (buf : List Nat) (g : Globals F) : Option (Globals F) :=
  process_fft_raw sqrtf log10f sqrt2 kiss_fft (buf.map fun (v : Nat) => (v : F) / 4095) g

/-- The direct-form output `∑ k < 64, c[k] * x (n - k)` of the filter with coefficients
`c` on the stream `xs` (with `x j = 0` for `j < 0`): the reference the streaming
implementation is compared with. -/
def fir_direct_form (c : List F) (xs : Nat → F) (n : Nat) : F :=
  ((List.range FIR_TAP_NUM).map fun (k : Nat) =>
    c.getD k 0 * (if k ≤ n then xs (n - k) else 0)).sum

end Embedding

/-! ## Buffer hand-over between the DMA interrupt and the poll loop -/

/-- Position of `main` inside its poll loop: before the test of a flag, before the
statement clearing it, before the call of `process_fft_buffer`. -/
inductive PollPc where
  | test0
  | clear0
  | process0
  | test1
  | clear1
  | process1
  deriving DecidableEq, Repr

/-- The flags `buf0_ready`, `buf1_ready`, the position of the poll loop, the DMA channel
that completes next, and counters of what happened so far: completion notifications
raised, buffers processed, and notifications raised while the flag was already set. -/
structure Bridge where
  buf0_ready : Bool
  buf1_ready : Bool
  pc : PollPc
  next_is_chan1 : Bool
  raised0 : Nat
  raised1 : Nat
  processed0 : Nat
  processed1 : Nat
  merged0 : Nat
  merged1 : Nat
  deriving DecidableEq, Repr

/-- The state when `main` enters its loop: no flag set, channel 0 started first. -/
def bridge_init : Bridge :=
  { buf0_ready := false, buf1_ready := false, pc := PollPc.test0, next_is_chan1 := false,
    raised0 := 0, raised1 := 0, processed0 := 0, processed1 := 0, merged0 := 0, merged1 := 0 }

/-- The function `dma_handler`; `s0` and `s1` are the bits of `status` for `dma_chan0`
and `dma_chan1`. -/
def dma_handler (s0 s1 : Bool) (b : Bridge) : Bridge :=
  let b := if s0 then { b with buf0_ready := true } else b
  if s1 then { b with buf1_ready := true } else b

/-- A DMA completion: the channel whose turn it is completes, `dma_handler` runs with its
status bit set, and the other channel is next. -/
def dma_complete (b : Bridge) : Bridge :=
  let h := dma_handler (!b.next_is_chan1) b.next_is_chan1 b
  if b.next_is_chan1 then
    { h with next_is_chan1 := false, raised1 := b.raised1 + 1,
             merged1 := if b.buf1_ready then b.merged1 + 1 else b.merged1 }
  else
    { h with next_is_chan1 := true, raised0 := b.raised0 + 1,
             merged0 := if b.buf0_ready then b.merged0 + 1 else b.merged0 }

/-- One action of the poll loop of `main`: test a flag, clear it, or process the buffer. -/
def poll_step (b : Bridge) : Bridge :=
  match b.pc with
  | PollPc.test0 =>
    if b.buf0_ready then { b with pc := PollPc.clear0 } else { b with pc := PollPc.test1 }
  | PollPc.clear0 => { b with buf0_ready := false, pc := PollPc.process0 }
  | PollPc.process0 => { b with processed0 := b.processed0 + 1, pc := PollPc.test1 }
  | PollPc.test1 =>
    if b.buf1_ready then { b with pc := PollPc.clear1 } else { b with pc := PollPc.test0 }
  | PollPc.clear1 => { b with buf1_ready := false, pc := PollPc.process1 }
  | PollPc.process1 => { b with processed1 := b.processed1 + 1, pc := PollPc.test0 }

/-- The two kinds of step: a DMA completion notification or a poll-loop action. -/
inductive BridgeEvent where
  | dma
  | poll
  deriving DecidableEq, Repr

/-- One step of the interleaving. -/
def bridge_step (b : Bridge) (e : BridgeEvent) : Bridge :=
  match e with
  | BridgeEvent.dma => dma_complete b
  | BridgeEvent.poll => poll_step b

/-- The state reached from `b` by a sequence of steps. -/
def bridge_run (b : Bridge) (es : List BridgeEvent) : Bridge :=
  es.foldl bridge_step b

/-- The schedule condition on a run: at least `gap` poll-loop actions are executed
between any two consecutive completion notifications. `need` is the number of poll
actions still required before the next completion may arrive. -/
def spaced (gap : Nat) : Nat → List BridgeEvent → Bool
  | _, [] => true
  | need, BridgeEvent.poll :: es => spaced gap (need - 1) es
  | need, BridgeEvent.dma :: es => decide (need = 0) && spaced gap gap es

/-- The state of the hand-over when completions are at least three poll actions apart:
the flag of the channel that did not complete last is clear, and the flag of the channel
that completed last is consumed along the three poll actions that follow. -/
def SpacedInv (need : Nat) (b : Bridge) : Prop :=
  need ≤ 3 ∧
  if b.next_is_chan1 then
    b.buf1_ready = false ∧
    ((need = 3 ∧ b.buf0_ready = true ∧
        (b.pc = PollPc.test0 ∨ b.pc = PollPc.test1 ∨ b.pc = PollPc.process1)) ∨
     (need = 2 ∧ b.buf0_ready = true ∧ (b.pc = PollPc.clear0 ∨ b.pc = PollPc.test0)) ∨
     (need = 1 ∧ ((b.buf0_ready = false ∧ b.pc = PollPc.process0) ∨
        (b.buf0_ready = true ∧ b.pc = PollPc.clear0))) ∨
     (need = 0 ∧ b.buf0_ready = false ∧
        (b.pc = PollPc.test0 ∨ b.pc = PollPc.test1 ∨ b.pc = PollPc.process0)))
  else
    b.buf0_ready = false ∧
    ((need = 3 ∧ b.buf1_ready = true ∧
        (b.pc = PollPc.test0 ∨ b.pc = PollPc.test1 ∨ b.pc = PollPc.process0)) ∨
     (need = 2 ∧ b.buf1_ready = true ∧ (b.pc = PollPc.clear1 ∨ b.pc = PollPc.test1)) ∨
     (need = 1 ∧ ((b.buf1_ready = false ∧ b.pc = PollPc.process1) ∨
        (b.buf1_ready = true ∧ b.pc = PollPc.clear1))) ∨
     (need = 0 ∧ b.buf1_ready = false ∧
        (b.pc = PollPc.test0 ∨ b.pc = PollPc.test1 ∨ b.pc = PollPc.process1)))

/-- Buffers of channel 0 handed to the poll loop and not yet processed: the flag, and
the buffer whose flag was cleared but whose processing has not finished. -/
def pending0 (b : Bridge) : Nat :=
  (if b.buf0_ready then 1 else 0) + (if b.pc = PollPc.process0 then 1 else 0)

/-- Buffers of channel 1 handed to the poll loop and not yet processed. -/
def pending1 (b : Bridge) : Nat :=
  (if b.buf1_ready then 1 else 0) + (if b.pc = PollPc.process1 then 1 else 0)

/-- The accounting invariant of the hand-over: every notification raised for a buffer is
processed, pending, or was merged into a flag that was already set; and the poll loop
is about to clear a flag only when that flag is set. -/
def BridgeInv (b : Bridge) : Prop :=
  b.raised0 = b.processed0 + pending0 b + b.merged0 ∧
  b.raised1 = b.processed1 + pending1 b + b.merged1 ∧
  (b.pc = PollPc.clear0 → b.buf0_ready = true) ∧
  (b.pc = PollPc.clear1 → b.buf1_ready = true)

/-! ## Auxiliary definition for the design proof -/

/-- A rational lower bound for the raw tap `32 + j` of the kernel designed by
`init_fir_filter` over `ℝ`, used to show that the raw taps have a positive sum. -/
def tapLower (j : Nat) : ℚ :=
  if j = 0 then 59 / 100
  else if j = 1 then -(11 / 96)
  else if j = 2 then -(3 / 160)
  else if (25 * (2 * j + 1)) % 128 ≤ 64 then 0
  else -(1 / (314 / 100 * ((j : ℚ) + 1 / 2)))

end RaspicoVNA

namespace RaspicoVNA

/-! ## Loop rules and checked access -/

section Loops

variable {σ : Type}

/-- Invariant rule for a fold over `List.range n` in the `Option` monad. -/
theorem foldlM_range_inv (f : σ → Nat → Option σ) (Inv : Nat → σ → Prop) (n : Nat) (s0 : σ)
    (h0 : Inv 0 s0)
    (hstep : ∀ k, k < n → ∀ s, Inv k s → ∃ s', f s k = some s' ∧ Inv (k + 1) s') :
    ∃ s', (List.range n).foldlM f s0 = some s' ∧ Inv n s' := by
  induction n with
  | zero => exact ⟨s0, by simp, h0⟩
  | succ n ih =>
    obtain ⟨s1, h1, hi1⟩ := ih (fun k hk => hstep k (Nat.lt_succ_of_lt hk))
    obtain ⟨s2, h2, hi2⟩ := hstep n (Nat.lt_succ_self n) s1 hi1
    refine ⟨s2, ?_, hi2⟩
    rw [List.range_succ, List.foldlM_append, h1]
    simp [h2]

/-- Invariant rule for `forUp`: `Inv k` holds before the iteration with `v = lo + k`. -/
theorem forUp_inv (lo hi : Int) (body : Int → σ → Option σ) (Inv : Nat → σ → Prop) (s0 : σ)
    (h0 : Inv 0 s0)
    (hstep : ∀ k : Nat, k < (hi - lo).toNat → ∀ s, Inv k s →
      ∃ s', body (lo + (k : Int)) s = some s' ∧ Inv (k + 1) s') :
    ∃ s', forUp lo hi body s0 = some s' ∧ Inv (hi - lo).toNat s' := by
  unfold forUp
  exact foldlM_range_inv (fun s k => body (lo + (k : Int)) s) Inv _ s0 h0 hstep

/-- Invariant rule for `forDown`: `Inv k` holds before the iteration with `v = hi - k`. -/
theorem forDown_inv (hi lo : Int) (body : Int → σ → Option σ) (Inv : Nat → σ → Prop) (s0 : σ)
    (h0 : Inv 0 s0)
    (hstep : ∀ k : Nat, k < (hi - lo + 1).toNat → ∀ s, Inv k s →
      ∃ s', body (hi - (k : Int)) s = some s' ∧ Inv (k + 1) s') :
    ∃ s', forDown hi lo body s0 = some s' ∧ Inv (hi - lo + 1).toNat s' := by
  unfold forDown
  exact foldlM_range_inv (fun s k => body (hi - (k : Int)) s) Inv _ s0 h0 hstep

end Loops

section Access

variable {α : Type}

theorem readAt_of_lt (a : List α) (k : Nat) (d : α) (h : k < a.length) :
    readAt a (k : Int) = some (a.getD k d) := by
  simp [readAt, List.getD, List.getElem?_eq_getElem h]

theorem writeAt_of_lt (a : List α) (k : Nat) (v : α) (h : k < a.length) :
    writeAt a (k : Int) v = some (a.set k v) := by
  simp [writeAt, h]

theorem getD_set_self (a : List α) (k : Nat) (v d : α) (h : k < a.length) :
    (a.set k v).getD k d = v := by
  simp [List.getD, List.getElem?_set, h]

theorem getD_set_ne (a : List α) (k j : Nat) (v d : α) (h : k ≠ j) :
    (a.set k v).getD j d = a.getD j d := by
  simp [List.getD, List.getElem?_set, h]

/-- A successful checked read was in range. -/
theorem readAt_some {a : List α} {i : Int} {v : α} (h : readAt a i = some v) :
    0 ≤ i ∧ i < (a.length : Int) ∧ v ∈ a := by
  unfold readAt at h
  split at h
  · rename_i h0
    obtain ⟨hlt, hv⟩ := List.getElem?_eq_some_iff.mp h
    exact ⟨h0, by omega, hv ▸ List.getElem_mem _⟩
  · exact absurd h (by simp)

/-- A loop that fills `a[0..n-1]` with `g 0, ..., g (n-1)`. -/
theorem forUp_fill (n : Nat) (g : Int → α) (body : Int → List α → Option (List α))
    (a0 : List α) (d : α) (h0 : a0.length = n)
    (hbody : ∀ (k : Nat) (a : List α), k < n → a.length = n →
      body (k : Int) a = writeAt a (k : Int) (g (k : Int))) :
    ∃ a, forUp 0 (n : Int) body a0 = some a ∧ a.length = n ∧
      ∀ i : Nat, i < n → a.getD i d = g (i : Int) := by
  have hn : ((n : Int) - 0).toNat = n := by omega
  obtain ⟨a, hrun, hlen, hfill⟩ :=
    forUp_inv 0 (n : Int) body
      (fun k a => a.length = n ∧ ∀ i : Nat, i < k → a.getD i d = g (i : Int)) a0
      ⟨h0, fun i hi => by omega⟩
      (by
        intro k hk a ha
        obtain ⟨hal, haf⟩ := ha
        rw [hn] at hk
        refine ⟨a.set k (g (k : Int)), ?_, by simpa using hal, ?_⟩
        · rw [zero_add, hbody k a hk hal, writeAt_of_lt _ _ _ (by omega)]
        · intro i hi
          by_cases hik : i = k
          · subst hik; exact getD_set_self _ _ _ _ (by omega)
          · rw [getD_set_ne _ _ _ _ _ (Ne.symm hik)]; exact haf i (by omega))
  rw [hn] at hfill
  exact ⟨a, hrun, hlen, hfill⟩

end Access

/-! ## FIR filter: one call -/

section Fir

variable {F : Type} [LinearOrderedField F]

/-- Closed form of one call of `apply_fir` on well-formed globals: tap `i` reads the
slot `(fir_idx - i) mod 64` of the history after the insertion of `x`. -/
theorem apply_fir_spec (st : FirFilter F) (x : F)
    (hc : st.fir_coeffs.length = 64) (hs : st.fir_state.length = 64)
    (h0 : 0 ≤ st.fir_idx) (h1 : st.fir_idx < 64) :
    apply_fir st x = some
      (∑ i in Finset.range 64, st.fir_coeffs.getD i 0 *
          (st.fir_state.set st.fir_idx.toNat x).getD ((st.fir_idx - (i : Int)) % 64).toNat 0,
        { fir_coeffs := st.fir_coeffs
          fir_state := st.fir_state.set st.fir_idx.toNat x
          fir_idx := (st.fir_idx + 1) % 64 }) := by
  obtain ⟨c, hist, idx⟩ := st
  simp only at hc hs h0 h1 ⊢
  obtain ⟨j, rfl⟩ := Int.eq_ofNat_of_zero_le h0
  have hj : j < 64 := by omega
  have hloop := forUp_inv 0 (FIR_TAP_NUM : Int) (apply_fir_tap c (hist.set j x))
    (fun k s => s.1 = ∑ i in Finset.range k, c.getD i 0 *
        (hist.set j x).getD (((j : Int) - (i : Int)) % 64).toNat 0 ∧
      s.2 = ((j : Int) - (k : Int)) % 64) (0, (j : Int))
    (by simp; omega)
    (by
      intro k hk s hs'
      obtain ⟨y, idx⟩ := s
      obtain ⟨hy, hidx⟩ := hs'
      simp only at hy hidx
      have hk64 : k < 64 := by simp [FIR_TAP_NUM] at hk; omega
      have hidx0 : 0 ≤ idx := by omega
      obtain ⟨q, rfl⟩ := Int.eq_ofNat_of_zero_le hidx0
      have hq : q < 64 := by omega
      have hq' : q = (((j : Int) - (k : Int)) % 64).toNat := by omega
      refine ⟨(y + c.getD k 0 * (hist.set j x).getD q 0,
        if (q : Int) - 1 < 0 then (FIR_TAP_NUM : Int) - 1 else (q : Int) - 1), ?_, ?_, ?_⟩
      · simp only [apply_fir_tap, zero_add]
        rw [readAt_of_lt c k 0 (by omega), readAt_of_lt (hist.set j x) q 0 (by simp; omega)]
        rfl
      · simp only [Finset.sum_range_succ, hy, hq']
      · simp only [FIR_TAP_NUM]
        split <;> push_cast <;> omega)
  obtain ⟨r, hr, hry, -⟩ := hloop
  simp only [apply_fir]
  rw [writeAt_of_lt hist j x (by omega)]
  simp only [Option.bind_eq_bind, Option.some_bind, hr, Int.toNat_ofNat]
  have h64 : ((FIR_TAP_NUM : Int) - 0).toNat = 64 := by simp [FIR_TAP_NUM]
  rw [h64] at hry
  simp only [hry, FIR_TAP_NUM, Option.pure_def, Option.some.injEq, Prod.mk.injEq,
    FirFilter.mk.injEq, true_and]
  split <;> omega

/-- The history slots and cursor before the `n`-th call, for arbitrary well-formed
starting globals: the slot `(fir_idx + n - i) mod 64` holds the input of `i` calls ago
when there is one and its starting content otherwise. -/
theorem fir_before_spec (st : FirFilter F) (xs : Nat → F)
    (hc : st.fir_coeffs.length = 64) (hs : st.fir_state.length = 64)
    (h0 : 0 ≤ st.fir_idx) (h1 : st.fir_idx < 64) (n : Nat) :
    ∃ s, fir_before st xs n = some s ∧ s.fir_coeffs = st.fir_coeffs ∧
      s.fir_state.length = 64 ∧ s.fir_idx = (st.fir_idx + (n : Int)) % 64 ∧
      ∀ i : Nat, 1 ≤ i → i ≤ 64 →
        s.fir_state.getD ((st.fir_idx + (n : Int) - (i : Int)) % 64).toNat 0 =
          if i ≤ n then xs (n - i)
          else st.fir_state.getD ((st.fir_idx + (n : Int) - (i : Int)) % 64).toNat 0 := by
  induction n with
  | zero =>
    refine ⟨st, rfl, rfl, hs, by simp; omega, ?_⟩
    intro i hi1 _
    simp [Nat.not_le.mpr (show 0 < i by omega)]
  | succ n ih =>
    obtain ⟨s, hb, hsc, hsl, hsi, hslot⟩ := ih
    have hs0 : 0 ≤ s.fir_idx := by omega
    have hs1 : s.fir_idx < 64 := by omega
    refine ⟨{ fir_coeffs := s.fir_coeffs
              fir_state := s.fir_state.set s.fir_idx.toNat (xs n)
              fir_idx := (s.fir_idx + 1) % 64 }, ?_, hsc, ?_, ?_, ?_⟩
    · simp only [fir_before, hb, Option.bind_eq_bind, Option.some_bind,
        apply_fir_spec s (xs n) (hsc ▸ hc) hsl hs0 hs1, Option.pure_def]
    · simp [hsl]
    · simp only [hsi]; push_cast; omega
    · intro i hi1 hi64
      simp only
      by_cases hi : i = 1
      · subst hi
        have hslot1 : ((st.fir_idx + ((n + 1 : Nat) : Int) - ((1 : Nat) : Int)) % 64).toNat
            = s.fir_idx.toNat := by rw [hsi]; push_cast; omega
        rw [hslot1, getD_set_self _ _ _ _ (by omega)]
        simp
      · have hne : s.fir_idx.toNat ≠
            ((st.fir_idx + ((n + 1 : Nat) : Int) - (i : Int)) % 64).toNat := by
          rw [hsi]; push_cast; omega
        rw [getD_set_ne _ _ _ _ _ hne]
        have hprev := hslot (i - 1) (by omega) (by omega)
        have hidx : (st.fir_idx + (n : Int) - ((i - 1 : Nat) : Int)) % 64
            = (st.fir_idx + ((n + 1 : Nat) : Int) - (i : Int)) % 64 := by
          push_cast [Nat.cast_sub (show 1 ≤ i by omega)]; congr 1; omega
        rw [hidx] at hprev
        rw [hprev]
        by_cases hin : i ≤ n + 1
        · have h' : i - 1 ≤ n := by omega
          simp only [h', hin, if_true]
          congr 1; omega
        · have h' : ¬ (i - 1 ≤ n) := by omega
          simp only [h', hin, if_false]

/-- The value returned by the `n`-th call, for arbitrary well-formed starting globals. -/
theorem fir_output_spec (st : FirFilter F) (xs : Nat → F)
    (hc : st.fir_coeffs.length = 64) (hs : st.fir_state.length = 64)
    (h0 : 0 ≤ st.fir_idx) (h1 : st.fir_idx < 64) (n : Nat) :
    fir_output st xs n = some (∑ i in Finset.range 64, st.fir_coeffs.getD i 0 *
      (if i ≤ n then xs (n - i)
        else st.fir_state.getD ((st.fir_idx + (n : Int) - (i : Int)) % 64).toNat 0)) := by
  obtain ⟨s, hb, hsc, hsl, hsi, hslot⟩ := fir_before_spec st xs hc hs h0 h1 (n + 1)
  obtain ⟨s0, hb0, hsc0, hsl0, hsi0, -⟩ := fir_before_spec st xs hc hs h0 h1 n
  have hs0 : 0 ≤ s0.fir_idx := by omega
  have hs1 : s0.fir_idx < 64 := by omega
  have happ := apply_fir_spec s0 (xs n) (hsc0 ▸ hc) hsl0 hs0 hs1
  simp only [fir_before, hb0, Option.bind_eq_bind, Option.some_bind, happ, Option.pure_def,
    Option.some.injEq] at hb
  simp only [fir_output, hb0, Option.bind_eq_bind, Option.some_bind, happ, Option.pure_def,
    Option.some.injEq, hsc0]
  apply Finset.sum_congr rfl
  intro i hi
  have hi64 : i < 64 := Finset.mem_range.mp hi
  congr 1
  have hslot' := hslot (i + 1) (by omega) (by omega)
  rw [← hb] at hslot'
  simp only at hslot'
  have hidx : (st.fir_idx + ((n + 1 : Nat) : Int) - ((i + 1 : Nat) : Int)) % 64
      = (s0.fir_idx - (i : Int)) % 64 := by
    rw [hsi0]; push_cast; omega
  have hidx2 : (st.fir_idx + ((n + 1 : Nat) : Int) - ((i + 1 : Nat) : Int)) % 64
      = (st.fir_idx + (n : Int) - (i : Int)) % 64 := by
    push_cast; congr 1; omega
  rw [hidx] at hslot'
  rw [hslot', ← hidx, hidx2]
  by_cases hin : i ≤ n
  · have h' : i + 1 ≤ n + 1 := by omega
    simp only [h', hin, if_true]
    congr 1; omega
  · have h' : ¬ (i + 1 ≤ n + 1) := by omega
    simp only [h', hin, if_false]

/-- A list of length `n` sums to the sum of its entries read by index. -/
theorem list_sum_eq_sum_getD (l : List F) : ∀ n, l.length = n →
    l.sum = ∑ i in Finset.range n, l.getD i 0 := by
  induction l with
  | nil => intro n hn; subst hn; simp
  | cons a l ih =>
    intro n hn
    obtain ⟨m, rfl⟩ : ∃ m, n = m + 1 := ⟨l.length, by simpa using hn.symm⟩
    rw [Finset.sum_range_succ', List.sum_cons, ih m (by simpa using hn)]
    simp [add_comm]

/-- What `init_fir_filter` leaves in the globals, for any well-formed prior content:
tap `i` is the raw tap divided by the sum of the raw taps, the history is zero and the
cursor is 0. -/
theorem init_fir_filter_spec (sinf cosf : F → F) (pi : F) (st : FirFilter F)
    (hc : st.fir_coeffs.length = 64) (hs : st.fir_state.length = 64) :
    ∃ st', init_fir_filter sinf cosf pi st = some st' ∧
      st'.fir_coeffs.length = 64 ∧ st'.fir_state.length = 64 ∧ st'.fir_idx = 0 ∧
      (∀ i : Nat, i < 64 → st'.fir_coeffs.getD i 0 = fir_raw_tap sinf cosf pi (i : Int) /
        ∑ j in Finset.range 64, fir_raw_tap sinf cosf pi (j : Int)) ∧
      (∀ i : Nat, i < 64 → st'.fir_state.getD i 0 = 0) := by
  have hM : ((FIR_TAP_NUM : Int) - 1 + 1 - 0).toNat = 64 := by simp [FIR_TAP_NUM]
  obtain ⟨d, hd, hdc, hds, hdsum, hdtap, hdz⟩ :=
    forUp_inv 0 ((FIR_TAP_NUM : Int) - 1 + 1) (init_fir_tap sinf cosf pi)
      (fun k d => d.coeffs.length = 64 ∧ d.state.length = 64 ∧
        d.sum = ∑ j in Finset.range k, fir_raw_tap sinf cosf pi (j : Int) ∧
        (∀ i : Nat, i < k → d.coeffs.getD i 0 = fir_raw_tap sinf cosf pi (i : Int)) ∧
        (∀ i : Nat, i < k → d.state.getD i 0 = 0))
      { coeffs := st.fir_coeffs, state := st.fir_state, sum := 0 }
      ⟨hc, hs, by simp, by intro i hi; omega, by intro i hi; omega⟩
      (by
        intro k hk d hd
        obtain ⟨hdc, hds, hdsum, hdtap, hdz⟩ := hd
        rw [hM] at hk
        refine ⟨{ coeffs := d.coeffs.set k (fir_raw_tap sinf cosf pi (k : Int))
                  state := d.state.set k 0
                  sum := d.sum + fir_raw_tap sinf cosf pi (k : Int) }, ?_, ?_, ?_, ?_, ?_, ?_⟩
        · simp only [init_fir_tap, zero_add]
          rw [writeAt_of_lt _ k _ (by omega), writeAt_of_lt _ k _ (by omega)]
          simp only [Option.bind_eq_bind, Option.some_bind]
          rw [readAt_of_lt _ k 0 (by simp; omega), getD_set_self _ _ _ _ (by omega)]
          rfl
        · simpa using hdc
        · simpa using hds
        · simp only [Finset.sum_range_succ, hdsum]
        · intro i hi
          by_cases hik : i = k
          · subst hik; exact getD_set_self _ _ _ _ (by omega)
          · rw [getD_set_ne _ _ _ _ _ (Ne.symm hik)]; exact hdtap i (by omega)
        · intro i hi
          by_cases hik : i = k
          · subst hik; exact getD_set_self _ _ _ _ (by omega)
          · rw [getD_set_ne _ _ _ _ _ (Ne.symm hik)]; exact hdz i (by omega))
  rw [hM] at hdsum hdtap hdz
  obtain ⟨cs, hcs, hcl, hcn, -⟩ :=
    forUp_inv 0 ((FIR_TAP_NUM : Int) - 1 + 1) (init_fir_norm d.sum)
      (fun k cs => cs.length = 64 ∧
        (∀ i : Nat, i < k → cs.getD i 0 = fir_raw_tap sinf cosf pi (i : Int) / d.sum) ∧
        (∀ i : Nat, k ≤ i → i < 64 → cs.getD i 0 = fir_raw_tap sinf cosf pi (i : Int)))
      d.coeffs
      ⟨hdc, by intro i hi; omega, fun i _ hi => hdtap i hi⟩
      (by
        intro k hk cs hcs
        obtain ⟨hcl, hcn, hcr⟩ := hcs
        rw [hM] at hk
        refine ⟨cs.set k (cs.getD k 0 / d.sum), ?_, ?_, ?_, ?_⟩
        · simp only [init_fir_norm, zero_add]
          rw [readAt_of_lt _ k 0 (by omega)]
          simp only [Option.bind_eq_bind, Option.some_bind]
          rw [writeAt_of_lt _ k _ (by omega)]
        · simpa using hcl
        · intro i hi
          by_cases hik : i = k
          · subst hik
            rw [getD_set_self _ _ _ _ (by omega), hcr i (le_refl i) (by omega)]
          · rw [getD_set_ne _ _ _ _ _ (Ne.symm hik)]; exact hcn i (by omega)
        · intro i hki hi
          rw [getD_set_ne _ _ _ _ _ (by omega)]; exact hcr i (by omega) hi)
  rw [hM] at hcn
  refine ⟨{ fir_coeffs := cs, fir_state := d.state, fir_idx := 0 }, ?_, hcl, hds, rfl, ?_, hdz⟩
  · simp only [init_fir_filter, hd, Option.bind_eq_bind, Option.some_bind, hcs, Option.pure_def]
  · intro i hi
    rw [hcn i hi, hdsum]

end Fir

/-! ## Bar-graph rasteriser: pixels -/

section Pixels

theorem FrameBuf.WF.row_length {fb : FrameBuf} (hwf : fb.WF) (y : Nat) (hy : y < 240) :
    (fb.getD y []).length = 40 := by
  obtain ⟨hl, hr⟩ := hwf
  simp only [FRAME_HEIGHT] at hl
  have hmem : fb.getD y [] ∈ fb := by
    rw [List.getD_eq_getElem?_getD, List.getElem?_eq_getElem (by omega)]
    exact List.getElem_mem _
  simpa [FRAME_WIDTH] using hr _ hmem

theorem FrameBuf.WF.set {fb : FrameBuf} (hwf : fb.WF) (y : Nat) (row : List Nat)
    (hrow : row.length = 40) : FrameBuf.WF (List.set fb y row) := by
  obtain ⟨hl, hr⟩ := hwf
  refine ⟨by simpa using hl, ?_⟩
  intro r hr'
  rcases List.mem_or_eq_of_mem_set hr' with h | h
  · exact hr r h
  · subst h; simpa [FRAME_WIDTH] using hrow

/-- One execution of the pixel statement on an in-range `(x, y)`: it succeeds, keeps the
shape, sets pixel `(x, y)` and changes no other pixel. -/
theorem set_pixel_spec (fb : FrameBuf) (hwf : fb.WF) (y x : Nat) (hy : y < 240)
    (hx : x < 320) :
    ∃ fb', set_pixel fb (y : Int) (x : Int) = some fb' ∧ fb'.WF ∧
      ∀ x' y' : Nat, fb'.pixel x' y' = true ↔ (fb.pixel x' y' = true ∨ (x' = x ∧ y' = y)) := by
  have hfl : fb.length = 240 := hwf.1
  have hrl := hwf.row_length y hy
  have hx8 : x / 8 < 40 := by omega
  have hsh : (7 - Int.tmod (x : Int) 8) = ((7 - x % 8 : Nat) : Int) := by
    have : Int.tmod (x : Int) 8 = ((x % 8 : Nat) : Int) := rfl
    rw [this]; omega
  have hdiv : Int.tdiv (x : Int) 8 = ((x / 8 : Nat) : Int) := rfl
  refine ⟨List.set fb y ((fb.getD y []).set (x / 8)
    (((fb.getD y []).getD (x / 8) 0 ||| 1 <<< (7 - x % 8)) % 256)), ?_, ?_, ?_⟩
  · simp only [set_pixel]
    rw [readAt_of_lt fb y [] (by omega)]
    simp only [Option.bind_eq_bind, Option.some_bind, hdiv, hsh]
    rw [readAt_of_lt _ (x / 8) 0 (by omega)]
    simp only [Option.some_bind]
    rw [if_pos (by omega), writeAt_of_lt _ (x / 8) _ (by omega)]
    simp only [Option.some_bind, Int.toNat_ofNat]
    rw [writeAt_of_lt _ y _ (by omega)]
  · exact hwf.set y _ (by simpa using hrl)
  · intro x' y'
    simp only [FrameBuf.pixel]
    by_cases hyy : y' = y
    · subst hyy
      rw [getD_set_self _ _ _ _ (by omega)]
      by_cases hxx : x' / 8 = x / 8
      · rw [hxx, getD_set_self _ _ _ _ (by omega)]
        have h256 : (256 : Nat) = 2 ^ 8 := by norm_num
        rw [h256, Nat.testBit_mod_two_pow, Nat.testBit_or, Nat.one_shiftLeft,
          Nat.testBit_two_pow]
        have hlt : 7 - x' % 8 < 8 := by omega
        simp only [hlt, decide_True, Bool.true_and, Bool.or_eq_true, decide_eq_true_eq,
          and_true]
        constructor
        · rintro (h | h)
          · exact Or.inl h
          · exact Or.inr (by omega)
        · rintro (h | h)
          · exact Or.inl h
          · exact Or.inr (by omega)
      · rw [getD_set_ne _ _ _ _ _ (Ne.symm hxx)]
        constructor
        · exact Or.inl
        · rintro (h | h)
          · exact h
          · exact absurd (by rw [h.1]) hxx
    · rw [getD_set_ne _ _ _ _ _ (Ne.symm hyy)]
      constructor
      · exact Or.inl
      · rintro (h | h)
        · exact h
        · exact absurd h.2 hyy

/-- The inner loop over the two columns of bin `i` on row `y`. -/
theorem draw_cols_spec (fb : FrameBuf) (hwf : fb.WF) (y i : Nat) (hy : y < 240)
    (hi : i < 128) :
    ∃ fb', forUp ((i : Int) * 2) (((i : Int) + 1) * 2)
        (fun x fb => set_pixel fb (y : Int) x) fb = some fb' ∧ fb'.WF ∧
      ∀ x' y' : Nat, fb'.pixel x' y' = true ↔
        (fb.pixel x' y' = true ∨ (x' / 2 = i ∧ y' = y)) := by
  have hn : ((((i : Int) + 1) * 2) - (i : Int) * 2).toNat = 2 := by omega
  obtain ⟨fb', hrun, hwf', hpix⟩ :=
    forUp_inv ((i : Int) * 2) (((i : Int) + 1) * 2) (fun x fb => set_pixel fb (y : Int) x)
      (fun k s => s.WF ∧ ∀ x' y' : Nat, s.pixel x' y' = true ↔
        (fb.pixel x' y' = true ∨ (2 * i ≤ x' ∧ x' < 2 * i + k ∧ y' = y))) fb
      ⟨hwf, fun x' y' => ⟨Or.inl, fun h => h.elim id (fun h' => by omega)⟩⟩
      (by
        intro k hk s hs'
        obtain ⟨hswf, hspix⟩ := hs'
        rw [hn] at hk
        have hcast : (i : Int) * 2 + (k : Int) = ((2 * i + k : Nat) : Int) := by
          push_cast; ring
        obtain ⟨s', hs1, hs2, hs3⟩ := set_pixel_spec s hswf y (2 * i + k) hy (by omega)
        refine ⟨s', by simp only [hcast, hs1], hs2, ?_⟩
        intro x' y'
        rw [hs3, hspix]
        constructor
        · rintro ((h | h) | h)
          · exact Or.inl h
          · exact Or.inr ⟨h.1, by omega, h.2.2⟩
          · exact Or.inr ⟨by omega, by omega, h.2⟩
        · rintro (h | ⟨h1, h2, h3⟩)
          · exact Or.inl (Or.inl h)
          · by_cases hx : x' = 2 * i + k
            · exact Or.inr ⟨hx, h3⟩
            · exact Or.inl (Or.inr ⟨h1, by omega, h3⟩))
  rw [hn] at hpix
  refine ⟨fb', hrun, hwf', ?_⟩
  intro x' y'
  rw [hpix]
  constructor
  · rintro (h | h)
    · exact Or.inl h
    · exact Or.inr ⟨by omega, h.2.2⟩
  · rintro (h | h)
    · exact Or.inl h
    · exact Or.inr ⟨by omega, by omega, h.2⟩

/-- The row loop for bin `i` with bar height `h` in `0..240`: rows `240 - h .. 239`. -/
theorem draw_bar_spec (fb : FrameBuf) (hwf : fb.WF) (i : Nat) (hi : i < 128) (h : Int)
    (h0 : 0 ≤ h) (h240 : h ≤ 240) :
    ∃ fb', forDown ((FRAME_HEIGHT : Int) - 1) ((FRAME_HEIGHT : Int) - h)
        (fun y fb => forUp ((i : Int) * 2) (((i : Int) + 1) * 2)
          (fun x fb => set_pixel fb y x) fb) fb = some fb' ∧ fb'.WF ∧
      ∀ x' y' : Nat, fb'.pixel x' y' = true ↔
        (fb.pixel x' y' = true ∨ (x' / 2 = i ∧ y' < 240 ∧ 240 - h ≤ (y' : Int))) := by
  have hn : ((FRAME_HEIGHT : Int) - 1 - ((FRAME_HEIGHT : Int) - h) + 1).toNat = h.toNat := by
    simp only [FRAME_HEIGHT]; omega
  obtain ⟨fb', hrun, hwf', hpix⟩ :=
    forDown_inv ((FRAME_HEIGHT : Int) - 1) ((FRAME_HEIGHT : Int) - h)
      (fun y fb => forUp ((i : Int) * 2) (((i : Int) + 1) * 2)
          (fun x fb => set_pixel fb y x) fb)
      (fun k s => s.WF ∧ ∀ x' y' : Nat, s.pixel x' y' = true ↔
        (fb.pixel x' y' = true ∨ (x' / 2 = i ∧ y' < 240 ∧ 240 ≤ y' + k))) fb
      ⟨hwf, fun x' y' => ⟨Or.inl, fun h => h.elim id (fun h' => by omega)⟩⟩
      (by
        intro k hk s hs'
        obtain ⟨hswf, hspix⟩ := hs'
        rw [hn] at hk
        have hcast : (FRAME_HEIGHT : Int) - 1 - (k : Int) = ((239 - k : Nat) : Int) := by
          simp only [FRAME_HEIGHT]; omega
        obtain ⟨s', hs1, hs2, hs3⟩ := draw_cols_spec s hswf (239 - k) i (by omega) hi
        refine ⟨s', by simp only [hcast, hs1], hs2, ?_⟩
        intro x' y'
        rw [hs3, hspix]
        constructor
        · rintro ((h | h) | h)
          · exact Or.inl h
          · exact Or.inr ⟨h.1, h.2.1, by omega⟩
          · exact Or.inr ⟨h.1, by omega, by omega⟩
        · rintro (h | ⟨h1, h2, h3⟩)
          · exact Or.inl (Or.inl h)
          · by_cases hy : y' = 239 - k
            · exact Or.inr ⟨h1, hy⟩
            · exact Or.inl (Or.inr ⟨h1, h2, by omega⟩))
  rw [hn] at hpix
  refine ⟨fb', hrun, hwf', ?_⟩
  intro x' y'
  rw [hpix]
  constructor
  · rintro (h | h)
    · exact Or.inl h
    · exact Or.inr ⟨h.1, h.2.1, by omega⟩
  · rintro (h | h)
    · exact Or.inl h
    · exact Or.inr ⟨h.1, h.2.1, by omega⟩

theorem framebuf_fill_WF (b : Nat) : (framebuf_fill b).WF := by
  refine ⟨List.length_replicate _ _, ?_⟩
  intro row hrow
  rw [List.eq_of_mem_replicate hrow]
  exact List.length_replicate _ _

theorem memset_zero_WF (fb : FrameBuf) (hwf : fb.WF) : (memset_zero fb).WF := by
  obtain ⟨hl, hr⟩ := hwf
  refine ⟨by simpa [memset_zero] using hl, ?_⟩
  intro row hrow
  simp only [memset_zero, List.mem_map] at hrow
  obtain ⟨r, hr1, rfl⟩ := hrow
  simpa using hr r hr1

theorem memset_zero_eq (fb : FrameBuf) (hwf : fb.WF) :
    memset_zero fb = List.replicate FRAME_HEIGHT (List.replicate (FRAME_WIDTH / 8) 0) := by
  obtain ⟨hl, hr⟩ := hwf
  rw [List.eq_replicate_iff]
  refine ⟨by simpa [memset_zero] using hl, ?_⟩
  intro row hrow
  simp only [memset_zero, List.mem_map] at hrow
  obtain ⟨r, hr1, rfl⟩ := hrow
  rw [List.eq_replicate_iff]
  refine ⟨by simpa using hr r hr1, ?_⟩
  intro b hb
  simp only [List.mem_map] at hb
  obtain ⟨_, _, rfl⟩ := hb
  rfl

theorem memset_zero_pixel (fb : FrameBuf) (hwf : fb.WF) (x y : Nat) :
    (memset_zero fb).pixel x y = false := by
  rw [memset_zero_eq fb hwf]
  simp only [FrameBuf.pixel, List.getD_eq_getElem?_getD, List.getElem?_replicate]
  split
  · simp only [Option.getD_some, List.getElem?_replicate]
    split <;> simp
  · simp

end Pixels

/-! ## Bar-graph rasteriser: the whole frame -/

section Frame

variable {F : Type} [LinearOrderedField F]

/-- The clamp written with two conditionals in `draw_frame_dbm` is `max 0 (min 1 v)`. -/
theorem clamp_eq (v : F) :
    (if v < 0 then 0 else if v > 1 then 1 else v) = max 0 (min 1 v) := by
  by_cases h0 : v < 0
  · rw [if_pos h0, max_eq_left]
    exact le_trans (min_le_right _ _) h0.le
  · rw [if_neg h0]
    by_cases h1 : v > 1
    · rw [if_pos h1, min_eq_left h1.le, max_eq_right zero_le_one]
    · rw [if_neg h1, min_eq_right (not_lt.mp h1), max_eq_right (not_lt.mp h0)]

variable [FloorRing F]

/-- The bar height is the truncation of the clamped, scaled value. -/
theorem bar_height_eq (d : F) :
    bar_height d =
      truncToInt (max 0 (min 1 ((d - MIN_DBM) / (MAX_DBM - MIN_DBM))) * 240) := by
  simp only [bar_height, clamp_eq, FRAME_HEIGHT]
  norm_num

/-- The bar height always lies in `0..240`. -/
theorem bar_height_bounds (d : F) : 0 ≤ bar_height d ∧ bar_height d ≤ 240 := by
  rw [bar_height_eq]
  set c : F := max 0 (min 1 ((d - MIN_DBM) / (MAX_DBM - MIN_DBM))) with hc
  have hc0 : 0 ≤ c := le_max_left _ _
  have hc1 : c ≤ 1 := max_le zero_le_one (min_le_left _ _)
  have hv0 : 0 ≤ c * 240 := by positivity
  have hv1 : c * 240 ≤ 240 := by nlinarith
  simp only [truncToInt, if_pos hv0]
  refine ⟨Int.floor_nonneg.mpr hv0, ?_⟩
  have h := Int.floor_le (c * 240)
  have h' : ((⌊c * 240⌋ : Int) : F) ≤ ((240 : Int) : F) := by
    push_cast; exact le_trans h hv1
  exact_mod_cast h'

/-- The frame drawn by `draw_frame_dbm`: the call succeeds on 128 input values and a
frame buffer of the declared shape, and pixel `(x, y)` is set exactly when `x` lies in
the columns of a bin and `y` is among the bottom `bar_height` rows. -/
theorem draw_frame_dbm_spec (dBms : List F) (hlen : dBms.length = 128) (prior : FrameBuf)
    (hwf : prior.WF) :
    ∃ fb, draw_frame_dbm dBms prior = some fb ∧ fb.WF ∧
      ∀ x y : Nat, fb.pixel x y = true ↔
        (x / 2 < 128 ∧ y < 240 ∧ 240 - bar_height (dBms.getD (x / 2) 0) ≤ (y : Int)) := by
  have hbins : (SAMPLE_NUM : Int) / 2 = 128 := by decide
  have hcol : (FRAME_WIDTH : Int) / 128 = 2 := by decide
  have hn : ((128 : Int) - 0).toNat = 128 := by decide
  simp only [draw_frame_dbm, hbins, hcol]
  obtain ⟨fb, hrun, hwf', hpix⟩ :=
    forUp_inv 0 128
      (fun (i : Int) (fb : FrameBuf) => do
        let d ← readAt dBms i
        let h := bar_height d
        forDown ((FRAME_HEIGHT : Int) - 1) ((FRAME_HEIGHT : Int) - h)
          (fun y fb => forUp (i * 2) ((i + 1) * 2) (fun x fb => set_pixel fb y x) fb)
          fb)
      (fun k s => s.WF ∧ ∀ x y : Nat, s.pixel x y = true ↔
        (x / 2 < k ∧ y < 240 ∧ 240 - bar_height (dBms.getD (x / 2) 0) ≤ (y : Int)))
      (memset_zero prior)
      ⟨memset_zero_WF prior hwf, fun x y => by
        rw [memset_zero_pixel prior hwf]
        constructor
        · intro h; exact absurd h (by simp)
        · rintro ⟨h, -⟩; omega⟩
      (by
        intro k hk s hs'
        obtain ⟨hswf, hspix⟩ := hs'
        rw [hn] at hk
        obtain ⟨hb0, hb1⟩ := bar_height_bounds (dBms.getD k 0)
        obtain ⟨s', hs1, hs2, hs3⟩ := draw_bar_spec s hswf k hk _ hb0 hb1
        refine ⟨s', ?_, hs2, ?_⟩
        · simp only [zero_add]
          rw [readAt_of_lt dBms k 0 (by omega)]
          simpa only [Option.bind_eq_bind, Option.some_bind] using hs1
        · intro x y
          rw [hs3, hspix]
          constructor
          · rintro (h | h)
            · exact ⟨by omega, h.2⟩
            · exact ⟨by omega, h.2.1, by rw [h.1]; exact h.2.2⟩
          · rintro ⟨h1, h2, h3⟩
            by_cases hx : x / 2 = k
            · exact Or.inr ⟨hx, h2, by rw [← hx]; exact h3⟩
            · exact Or.inl ⟨by omega, h2, h3⟩)
  rw [hn] at hpix
  exact ⟨fb, hrun, hwf', hpix⟩

end Frame

/-! ## FIR design over `ℝ`: the raw taps have a positive sum -/

section FirDesignReal

open Real

theorem fir_raw_tap_real (n : Nat) :
    fir_raw_tap Real.sin Real.cos π (n : Int) =
      Real.sin (2 * π * (25 / 64) * ((n : ℝ) - 63 / 2)) / (π * ((n : ℝ) - 63 / 2)) *
        (54 / 100 - 46 / 100 * Real.cos (2 * π * (n : ℝ) / 63)) := by
  have hm : ¬ (|(n : ℝ) - 63 / 2| < 1 / 1000000) := by
    rw [not_lt]
    rcases Nat.lt_or_ge n 32 with h | h
    · have : (n : ℝ) ≤ 31 := by exact_mod_cast Nat.lt_succ_iff.mp h
      rw [abs_of_neg (by linarith)]; linarith
    · have : (32 : ℝ) ≤ n := by exact_mod_cast h
      rw [abs_of_pos (by linarith)]; linarith
  have hfc : (CUT_OFF_FREQ : ℝ) / (SAMPLING_FREQ : ℝ) = 25 / 64 := by
    simp only [CUT_OFF_FREQ, SAMPLING_FREQ]; norm_num
  have hM : (((FIR_TAP_NUM : Int) - 1 : Int) : ℝ) = 63 := by
    simp only [FIR_TAP_NUM]; norm_num
  simp only [fir_raw_tap, hfc, hM, Int.cast_natCast, if_neg hm]

/-- The raw taps are symmetric about the centre of the kernel. -/
theorem fir_raw_tap_reflect (n : Nat) (hn : n ≤ 63) :
    fir_raw_tap Real.sin Real.cos π ((63 - n : Nat) : Int) =
      fir_raw_tap Real.sin Real.cos π (n : Int) := by
  rw [fir_raw_tap_real, fir_raw_tap_real, Nat.cast_sub hn]
  have h1 : 2 * π * (25 / 64) * (((63 : Nat) : ℝ) - (n : ℝ) - 63 / 2)
      = -(2 * π * (25 / 64) * ((n : ℝ) - 63 / 2)) := by push_cast; ring
  have h2 : π * (((63 : Nat) : ℝ) - (n : ℝ) - 63 / 2) = -(π * ((n : ℝ) - 63 / 2)) := by
    push_cast; ring
  have h3 : 2 * π * (((63 : Nat) : ℝ) - (n : ℝ)) / 63 = 2 * π - 2 * π * (n : ℝ) / 63 := by
    push_cast; ring
  rw [h1, h2, h3, Real.sin_neg, neg_div_neg_eq, Real.cos_two_pi_sub]

/-- The right half of the kernel: tap `32 + j` in terms of `sin (k π / 64)`,
`k = 25 (2 j + 1)`. -/
theorem fir_raw_tap_right (j : Nat) :
    fir_raw_tap Real.sin Real.cos π ((32 + j : Nat) : Int) =
      Real.sin (π * ((25 * (2 * j + 1) : Nat) : ℝ) / 64) / (π * ((j : ℝ) + 1 / 2)) *
        (54 / 100 - 46 / 100 * Real.cos (2 * π * ((32 + j : Nat) : ℝ) / 63)) := by
  rw [fir_raw_tap_real]
  have h1 : 2 * π * (25 / 64) * (((32 + j : Nat) : ℝ) - 63 / 2)
      = π * ((25 * (2 * j + 1) : Nat) : ℝ) / 64 := by push_cast; ring
  have h2 : π * (((32 + j : Nat) : ℝ) - 63 / 2) = π * ((j : ℝ) + 1 / 2) := by
    push_cast; ring
  rw [h1, h2]

theorem hamming_nonneg (x : ℝ) : 0 ≤ 54 / 100 - 46 / 100 * Real.cos x := by
  have := Real.cos_le_one x; linarith

theorem hamming_le_one (x : ℝ) : 54 / 100 - 46 / 100 * Real.cos x ≤ 1 := by
  have := Real.neg_one_le_cos x; linarith

/-- Crude lower bound for any tap of the right half. -/
theorem fir_raw_tap_right_ge (j : Nat) :
    -(1 / (314 / 100 * ((j : ℝ) + 1 / 2))) ≤
      fir_raw_tap Real.sin Real.cos π ((32 + j : Nat) : Int) := by
  rw [fir_raw_tap_right]
  set s := Real.sin (π * ((25 * (2 * j + 1) : Nat) : ℝ) / 64) with hs
  set w := 54 / 100 - 46 / 100 * Real.cos (2 * π * ((32 + j : Nat) : ℝ) / 63) with hw
  have hw0 : 0 ≤ w := hamming_nonneg _
  have hw1 : w ≤ 1 := hamming_le_one _
  have hj : (0 : ℝ) ≤ j := Nat.cast_nonneg j
  have hm : (0 : ℝ) < (j : ℝ) + 1 / 2 := by linarith
  have hpm : 0 < π * ((j : ℝ) + 1 / 2) := mul_pos Real.pi_pos hm
  have hs1 : -1 ≤ s := Real.neg_one_le_sin _
  have hq : -(1 / (π * ((j : ℝ) + 1 / 2))) ≤ s / (π * ((j : ℝ) + 1 / 2)) := by
    rw [← neg_div]; exact div_le_div_of_nonneg_right hs1 hpm.le
  have hc : 0 < 1 / (π * ((j : ℝ) + 1 / 2)) := by positivity
  have hcc : 1 / (π * ((j : ℝ) + 1 / 2)) ≤ 1 / (314 / 100 * ((j : ℝ) + 1 / 2)) := by
    apply one_div_le_one_div_of_le (by positivity)
    exact mul_le_mul_of_nonneg_right (by linarith [Real.pi_gt_d2]) hm.le
  nlinarith [mul_nonneg (sub_nonneg.mpr hq) hw0, mul_nonneg hc.le (sub_nonneg.mpr hw1)]

/-- A tap of the right half whose angle reduces into `[0, π]` is non-negative. -/
theorem fir_raw_tap_right_nonneg (j : Nat) (h : (25 * (2 * j + 1)) % 128 ≤ 64) :
    0 ≤ fir_raw_tap Real.sin Real.cos π ((32 + j : Nat) : Int) := by
  rw [fir_raw_tap_right]
  have hj : (0 : ℝ) ≤ j := Nat.cast_nonneg j
  have hm : (0 : ℝ) < (j : ℝ) + 1 / 2 := by linarith
  have hk : ((25 * (2 * j + 1) : Nat) : ℝ)
      = (((25 * (2 * j + 1)) % 128 : Nat) : ℝ) + 128 * (((25 * (2 * j + 1)) / 128 : Nat) : ℝ) := by
    have := Nat.mod_add_div (25 * (2 * j + 1)) 128
    exact_mod_cast this.symm
  have harg : π * ((25 * (2 * j + 1) : Nat) : ℝ) / 64
      = π * (((25 * (2 * j + 1)) % 128 : Nat) : ℝ) / 64
        + (((25 * (2 * j + 1)) / 128 : Nat) : ℝ) * (2 * π) := by
    rw [hk]; ring
  have hr0 : (0 : ℝ) ≤ (((25 * (2 * j + 1)) % 128 : Nat) : ℝ) := Nat.cast_nonneg _
  have hr1 : (((25 * (2 * j + 1)) % 128 : Nat) : ℝ) ≤ 64 := by exact_mod_cast h
  have hsin : 0 ≤ Real.sin (π * ((25 * (2 * j + 1) : Nat) : ℝ) / 64) := by
    rw [harg, Real.sin_add_nat_mul_two_pi]
    apply Real.sin_nonneg_of_nonneg_of_le_pi
    · positivity
    · have := Real.pi_pos
      rw [div_le_iff₀ (by norm_num)]
      nlinarith
  exact mul_nonneg (div_nonneg hsin (mul_pos Real.pi_pos hm).le) (hamming_nonneg _)

/-- Lower bound for a tap `s / (π m) * w` from a lower bound `-(c π)` on `s`. -/
theorem tap_lower_aux (s w m c : ℝ) (hm : 0 < m) (hc : 0 ≤ c) (hs : -(c * π) ≤ s)
    (hw0 : 0 ≤ w) (hw1 : w ≤ 1) : -(c / m) ≤ s / (π * m) * w := by
  have hpm : 0 < π * m := mul_pos Real.pi_pos hm
  have hq : -(c / m) ≤ s / (π * m) := by
    have h1 : -(c / m) = -(c * π) / (π * m) := by
      field_simp
      ring
    rw [h1]
    exact div_le_div_of_nonneg_right hs hpm.le
  have hcm : 0 ≤ c / m := div_nonneg hc hm.le
  nlinarith [mul_nonneg (sub_nonneg.mpr hq) hw0, mul_nonneg hcm (sub_nonneg.mpr hw1)]

theorem fir_raw_tap_33_ge :
    -(11 / 96 : ℝ) ≤ fir_raw_tap Real.sin Real.cos π ((32 + 1 : Nat) : Int) := by
  rw [fir_raw_tap_right]
  have harg : π * ((25 * (2 * 1 + 1) : Nat) : ℝ) / 64 = π * 11 / 64 + π := by
    push_cast; ring
  have h0 : 0 ≤ π * 11 / 64 := by positivity
  have hs : -((11 / 64 : ℝ) * π) ≤ Real.sin (π * ((25 * (2 * 1 + 1) : Nat) : ℝ) / 64) := by
    rw [harg, Real.sin_add_pi]
    have := Real.sin_le h0
    linarith
  have h := tap_lower_aux _ _ (((1 : Nat) : ℝ) + 1 / 2) (11 / 64) (by norm_num) (by norm_num) hs
    (hamming_nonneg (2 * π * ((32 + 1 : Nat) : ℝ) / 63))
    (hamming_le_one (2 * π * ((32 + 1 : Nat) : ℝ) / 63))
  refine le_trans ?_ h
  norm_num

theorem fir_raw_tap_34_ge :
    -(3 / 160 : ℝ) ≤ fir_raw_tap Real.sin Real.cos π ((32 + 2 : Nat) : Int) := by
  rw [fir_raw_tap_right]
  have harg : π * ((25 * (2 * 2 + 1) : Nat) : ℝ) / 64 = 2 * π - π * 3 / 64 := by
    push_cast; ring
  have h0 : 0 ≤ π * 3 / 64 := by positivity
  have hs : -((3 / 64 : ℝ) * π) ≤ Real.sin (π * ((25 * (2 * 2 + 1) : Nat) : ℝ) / 64) := by
    rw [harg, Real.sin_two_pi_sub]
    have := Real.sin_le h0
    linarith
  have h := tap_lower_aux _ _ (((2 : Nat) : ℝ) + 1 / 2) (3 / 64) (by norm_num) (by norm_num) hs
    (hamming_nonneg (2 * π * ((32 + 2 : Nat) : ℝ) / 63))
    (hamming_le_one (2 * π * ((32 + 2 : Nat) : ℝ) / 63))
  refine le_trans ?_ h
  norm_num

theorem fir_raw_tap_32_ge :
    (59 / 100 : ℝ) ≤ fir_raw_tap Real.sin Real.cos π ((32 + 0 : Nat) : Int) := by
  rw [fir_raw_tap_right]
  have hpi3 : 3 < π := Real.pi_gt_three
  have hpi : π < 315 / 100 := by have := Real.pi_lt_d2; linarith
  have harg : π * ((25 * (2 * 0 + 1) : Nat) : ℝ) / 64 = π / 2 - π * 7 / 64 := by
    push_cast; ring
  have hs : (94 / 100 : ℝ) ≤ Real.sin (π * ((25 * (2 * 0 + 1) : Nat) : ℝ) / 64) := by
    rw [harg, Real.sin_pi_div_two_sub]
    have h := Real.one_sub_sq_div_two_le_cos (x := π * 7 / 64)
    nlinarith
  have hwarg : 2 * π * ((32 + 0 : Nat) : ℝ) / 63 = π / 63 + π := by
    push_cast; ring
  have hw : (999 / 1000 : ℝ) ≤
      54 / 100 - 46 / 100 * Real.cos (2 * π * ((32 + 0 : Nat) : ℝ) / 63) := by
    rw [hwarg, Real.cos_add_pi]
    have h := Real.one_sub_sq_div_two_le_cos (x := π / 63)
    nlinarith
  have hden : π * (((0 : Nat) : ℝ) + 1 / 2) = π / 2 := by push_cast; ring
  rw [hden]
  have hq : (94 / 100 : ℝ) / (315 / 200) ≤
      Real.sin (π * ((25 * (2 * 0 + 1) : Nat) : ℝ) / 64) / (π / 2) := by
    apply div_le_div₀ (by linarith) hs (by positivity) (by linarith)
  have hq0 : (0 : ℝ) ≤ (94 / 100 : ℝ) / (315 / 200) := by norm_num
  calc (59 / 100 : ℝ) ≤ (94 / 100 : ℝ) / (315 / 200) * (999 / 1000) := by norm_num
    _ ≤ Real.sin (π * ((25 * (2 * 0 + 1) : Nat) : ℝ) / 64) / (π / 2) * (999 / 1000) :=
        mul_le_mul_of_nonneg_right hq (by norm_num)
    _ ≤ _ := mul_le_mul_of_nonneg_left hw (le_trans hq0 hq)

/-- Every tap of the right half is at least its rational lower bound. -/
theorem tapLower_le (j : Nat) :
    ((tapLower j : ℚ) : ℝ) ≤ fir_raw_tap Real.sin Real.cos π ((32 + j : Nat) : Int) := by
  unfold tapLower
  split_ifs with h0 h1 h2 h3
  · subst h0; push_cast; exact fir_raw_tap_32_ge
  · subst h1; push_cast; exact fir_raw_tap_33_ge
  · subst h2; push_cast; exact fir_raw_tap_34_ge
  · push_cast; exact fir_raw_tap_right_nonneg j h3
  · push_cast; exact fir_raw_tap_right_ge j

theorem tapLower_sum_pos : (0 : ℚ) < ∑ j in Finset.range 32, tapLower j := by
  simp only [Finset.sum_range_succ, Finset.sum_range_zero, tapLower]
  norm_num

/-- The raw taps of the kernel have a positive sum. -/
theorem fir_raw_tap_sum_pos :
    0 < ∑ n in Finset.range 64, fir_raw_tap Real.sin Real.cos π (n : Int) := by
  have hsplit : ∑ n in Finset.range 64, fir_raw_tap Real.sin Real.cos π (n : Int)
      = ∑ n in Finset.range 32, fir_raw_tap Real.sin Real.cos π (n : Int)
        + ∑ j in Finset.range 32, fir_raw_tap Real.sin Real.cos π ((32 + j : Nat) : Int) :=
    Finset.sum_range_add (fun n => fir_raw_tap Real.sin Real.cos π (n : Int)) 32 32
  have hleft : ∑ n in Finset.range 32, fir_raw_tap Real.sin Real.cos π (n : Int)
      = ∑ j in Finset.range 32, fir_raw_tap Real.sin Real.cos π ((32 + j : Nat) : Int) := by
    rw [← Finset.sum_range_reflect]
    apply Finset.sum_congr rfl
    intro j hj
    have hj32 : j < 32 := Finset.mem_range.mp hj
    rw [← fir_raw_tap_reflect (32 + j) (by omega)]
    congr 2
    omega
  have hlow : ((∑ j in Finset.range 32, tapLower j : ℚ) : ℝ)
      ≤ ∑ j in Finset.range 32, fir_raw_tap Real.sin Real.cos π ((32 + j : Nat) : Int) := by
    rw [Rat.cast_sum]
    exact Finset.sum_le_sum (fun j _ => tapLower_le j)
  have hpos : (0 : ℝ) < ((∑ j in Finset.range 32, tapLower j : ℚ) : ℝ) := by
    exact_mod_cast tapLower_sum_pos
  rw [hsplit, hleft]
  linarith

end FirDesignReal

/-! ## Claims about the FIR filter -/

section FirClaims

variable {F : Type} [LinearOrderedField F]

/-- Claim C1. Starting from the globals left by `init_fir_filter` (zero history,
cursor 0), for every input sequence `xs` and every `n`, the `n`-th call
`apply_fir (xs n)` returns the sum over `i = 0..K-1` of `fir_coeffs[i] * x (n - i)`,
where `K = 64` and `x j` is `0` for `j < 0`: the direct-form dot product of the
coefficients with the `K` most recent inputs. -/
theorem apply_fir_direct_form (sinf cosf : F → F) (pi : F) (st0 : FirFilter F)
    (hc : st0.fir_coeffs.length = FIR_TAP_NUM) (hs : st0.fir_state.length = FIR_TAP_NUM)
    (xs : Nat → F) (n : Nat) :
    ∃ st, init_fir_filter sinf cosf pi st0 = some st ∧
      (∀ i : Nat, i < FIR_TAP_NUM → st.fir_state.getD i 0 = 0) ∧ st.fir_idx = 0 ∧
      fir_output st xs n = some (∑ i in Finset.range FIR_TAP_NUM,
        st.fir_coeffs.getD i 0 * (if i ≤ n then xs (n - i) else 0)) := by
  obtain ⟨st, hst, hcl, hsl, hidx, -, hz⟩ := init_fir_filter_spec sinf cosf pi st0 hc hs
  refine ⟨st, hst, hz, hidx, ?_⟩
  rw [fir_output_spec st xs hcl hsl (by omega) (by omega) n]
  simp only [FIR_TAP_NUM, Option.some.injEq]
  apply Finset.sum_congr rfl
  intro i _
  congr 1
  split
  · rfl
  · have hlt : ((st.fir_idx + (n : Int) - (i : Int)) % 64).toNat < 64 := by omega
    exact hz _ hlt

/-- Instance of `apply_fir_direct_form` on the zero-initialised globals over `ℚ`. -/
theorem apply_fir_direct_form_witness :
    (fir_static : FirFilter ℚ).fir_coeffs.length = FIR_TAP_NUM ∧
    (fir_static : FirFilter ℚ).fir_state.length = FIR_TAP_NUM ∧
    ∃ st, init_fir_filter (fun x => x) (fun x => 1 - x) 3 (fir_static : FirFilter ℚ) = some st ∧
      (∀ i : Nat, i < FIR_TAP_NUM → st.fir_state.getD i 0 = 0) ∧ st.fir_idx = 0 ∧
      fir_output st (fun k => (k : ℚ)) 70 = some (∑ i in Finset.range FIR_TAP_NUM,
        st.fir_coeffs.getD i 0 * (if i ≤ 70 then ((70 - i : Nat) : ℚ) else 0)) :=
  ⟨by simp [fir_static], by simp [fir_static],
    apply_fir_direct_form (fun x => x) (fun x => 1 - x) 3 fir_static
      (by simp [fir_static]) (by simp [fir_static]) (fun k => (k : ℚ)) 70⟩

/-- Claim C2. For every coefficient set whose sum is 1, every history with a valid
cursor `0 ≤ fir_idx < K` and every constant `c`: when `apply_fir c` is called
repeatedly, the `K`-th call (index `K - 1` counting from 0) and every later call
return exactly `c`, whatever the history contained before. -/
theorem apply_fir_dc_gain (st : FirFilter F) (c : F)
    (hc : st.fir_coeffs.length = FIR_TAP_NUM) (hs : st.fir_state.length = FIR_TAP_NUM)
    (h0 : 0 ≤ st.fir_idx) (h1 : st.fir_idx < FIR_TAP_NUM)
    (hsum : st.fir_coeffs.sum = 1) (n : Nat) (hn : FIR_TAP_NUM - 1 ≤ n) :
    fir_output st (fun _ => c) n = some c := by
  simp only [FIR_TAP_NUM] at hc hs h1 hn
  rw [fir_output_spec st _ hc hs h0 (by exact_mod_cast h1) n]
  have hall : ∀ i ∈ Finset.range 64, st.fir_coeffs.getD i 0 *
      (if i ≤ n then c
        else st.fir_state.getD ((st.fir_idx + (n : Int) - (i : Int)) % 64).toNat 0)
      = st.fir_coeffs.getD i 0 * c := by
    intro i hi
    have : i ≤ n := by have := Finset.mem_range.mp hi; omega
    simp [this]
  rw [Finset.sum_congr rfl hall, ← Finset.sum_mul, ← list_sum_eq_sum_getD _ 64 hc, hsum,
    one_mul]

/-- Instance of `apply_fir_dc_gain` over `ℚ`: non-zero history, cursor 5, input 7. -/
theorem apply_fir_dc_gain_witness :
    fir_output (F := ℚ)
      { fir_coeffs := 1 :: List.replicate 63 0
        fir_state := List.replicate 64 9
        fir_idx := 5 } (fun _ => 7) 63 = some 7 :=
  apply_fir_dc_gain _ 7 (by simp [FIR_TAP_NUM]) (by simp [FIR_TAP_NUM]) (by decide)
    (by simp [FIR_TAP_NUM]) (by simp) 63 (by simp [FIR_TAP_NUM])

/-- Claim C3. After `init_fir_filter` (over `ℝ`, with the real `sin`, `cos` and `π`), the
`K = 64` entries of `fir_coeffs` sum to 1: the Hamming-weighted sinc taps for
`fc = 50000 / 128000` have a non-zero sum and each tap is divided by that sum. -/
theorem init_fir_filter_unity_gain (st : FirFilter ℝ)
    (hc : st.fir_coeffs.length = FIR_TAP_NUM) (hs : st.fir_state.length = FIR_TAP_NUM) :
    ∃ st', init_fir_filter Real.sin Real.cos Real.pi st = some st' ∧
      st'.fir_coeffs.length = FIR_TAP_NUM ∧
      (∑ n in Finset.range FIR_TAP_NUM,
        fir_raw_tap Real.sin Real.cos Real.pi (n : Int)) ≠ 0 ∧
      (∀ i : Nat, i < FIR_TAP_NUM → st'.fir_coeffs.getD i 0 =
        fir_raw_tap Real.sin Real.cos Real.pi (i : Int) /
          ∑ n in Finset.range FIR_TAP_NUM, fir_raw_tap Real.sin Real.cos Real.pi (n : Int)) ∧
      st'.fir_coeffs.sum = 1 := by
  obtain ⟨st', hrun, hcl, -, -, htap, -⟩ :=
    init_fir_filter_spec Real.sin Real.cos Real.pi st hc hs
  have hne := ne_of_gt fir_raw_tap_sum_pos
  refine ⟨st', hrun, hcl, hne, htap, ?_⟩
  rw [list_sum_eq_sum_getD _ 64 hcl, Finset.sum_congr rfl (fun i hi => htap i (Finset.mem_range.mp hi)),
    ← Finset.sum_div]
  exact div_self hne

/-- Instance of `init_fir_filter_unity_gain` on the zero-initialised globals. -/
theorem init_fir_filter_unity_gain_witness :
    ∃ st', init_fir_filter Real.sin Real.cos Real.pi (fir_static : FirFilter ℝ) = some st' ∧
      st'.fir_coeffs.length = FIR_TAP_NUM ∧
      (∑ n in Finset.range FIR_TAP_NUM,
        fir_raw_tap Real.sin Real.cos Real.pi (n : Int)) ≠ 0 ∧
      (∀ i : Nat, i < FIR_TAP_NUM → st'.fir_coeffs.getD i 0 =
        fir_raw_tap Real.sin Real.cos Real.pi (i : Int) /
          ∑ n in Finset.range FIR_TAP_NUM, fir_raw_tap Real.sin Real.cos Real.pi (n : Int)) ∧
      st'.fir_coeffs.sum = 1 :=
  init_fir_filter_unity_gain fir_static (List.length_replicate _ _)
    (List.length_replicate _ _)

end FirClaims

/-! ## Claims about the rasteriser -/

section RasterClaims

variable {F : Type} [LinearOrderedField F] [FloorRing F]

/-- Claim C5. In `draw_frame_dbm`, for every bin `i`: if `dBms[i]` equals `MIN_DBM` the
bar height is 0 and no pixel of columns `2i`, `2i + 1` is set; if `dBms[i] ≥ MAX_DBM`
the bar height is 240 and every pixel of columns `2i`, `2i + 1` in all 240 rows is
set; and for every value the computed bar height `h` satisfies `0 ≤ h ≤ 240`. -/
theorem draw_frame_dbm_extremes (dBms : List F) (hlen : dBms.length = SAMPLE_NUM / 2)
    (prior : FrameBuf) (hwf : prior.WF) (i : Nat) (hi : i < SAMPLE_NUM / 2) :
    ∃ fb, draw_frame_dbm dBms prior = some fb ∧
      (dBms.getD i 0 = MIN_DBM → bar_height (dBms.getD i 0) = 0 ∧
        ∀ y : Nat, y < FRAME_HEIGHT →
          fb.pixel (2 * i) y = false ∧ fb.pixel (2 * i + 1) y = false) ∧
      (MAX_DBM ≤ dBms.getD i 0 → bar_height (dBms.getD i 0) = 240 ∧
        ∀ y : Nat, y < FRAME_HEIGHT →
          fb.pixel (2 * i) y = true ∧ fb.pixel (2 * i + 1) y = true) ∧
      ∀ d : F, 0 ≤ bar_height d ∧ bar_height d ≤ (FRAME_HEIGHT : Int) := by
  obtain ⟨fb, hrun, -, hpix⟩ := draw_frame_dbm_spec dBms (by simpa [SAMPLE_NUM] using hlen)
    prior hwf
  simp only [SAMPLE_NUM] at hi
  have hx0 : 2 * i / 2 = i := by omega
  have hx1 : (2 * i + 1) / 2 = i := by omega
  refine ⟨fb, hrun, ?_, ?_, fun d => by simpa [FRAME_HEIGHT] using bar_height_bounds d⟩
  · intro hd
    have hh : bar_height (dBms.getD i 0) = 0 := by
      rw [bar_height_eq, hd]; simp [MIN_DBM, truncToInt]
    refine ⟨hh, fun y hy => ?_⟩
    simp only [FRAME_HEIGHT] at hy
    have h0 : ¬ (fb.pixel (2 * i) y = true) := by
      rw [hpix, hx0, hh]; omega
    have h1 : ¬ (fb.pixel (2 * i + 1) y = true) := by
      rw [hpix, hx1, hh]; omega
    exact ⟨by simpa using h0, by simpa using h1⟩
  · intro hd
    have hh : bar_height (dBms.getD i 0) = 240 := by
      have hnorm : (1 : F) ≤ (dBms.getD i 0 - MIN_DBM) / (MAX_DBM - MIN_DBM) := by
        simp only [MIN_DBM, MAX_DBM] at hd ⊢
        rw [le_div_iff₀ (by norm_num)]
        linarith
      rw [bar_height_eq, min_eq_left hnorm, max_eq_right zero_le_one]
      simp only [truncToInt, one_mul]
      rw [if_pos (by norm_num)]
      exact_mod_cast Int.floor_natCast (α := F) 240
    refine ⟨hh, fun y hy => ?_⟩
    simp only [FRAME_HEIGHT] at hy
    constructor
    · rw [hpix, hx0, hh]; omega
    · rw [hpix, hx1, hh]; omega

/-- Instance of `draw_frame_dbm_extremes` over `ℚ`: bin 0 at `MIN_DBM`, the others at
`MAX_DBM`. -/
theorem draw_frame_dbm_extremes_witness :
    ∃ fb, draw_frame_dbm ((-100 : ℚ) :: List.replicate 127 0)
        (framebuf_fill 255) = some fb ∧
      (((-100 : ℚ) :: List.replicate 127 0).getD 0 0 = MIN_DBM →
        bar_height (((-100 : ℚ) :: List.replicate 127 0).getD 0 0) = 0 ∧
        ∀ y : Nat, y < FRAME_HEIGHT →
          fb.pixel (2 * 0) y = false ∧ fb.pixel (2 * 0 + 1) y = false) ∧
      (MAX_DBM ≤ ((-100 : ℚ) :: List.replicate 127 0).getD 0 0 →
        bar_height (((-100 : ℚ) :: List.replicate 127 0).getD 0 0) = 240 ∧
        ∀ y : Nat, y < FRAME_HEIGHT →
          fb.pixel (2 * 0) y = true ∧ fb.pixel (2 * 0 + 1) y = true) ∧
      ∀ d : ℚ, 0 ≤ bar_height d ∧ bar_height d ≤ (FRAME_HEIGHT : Int) :=
  draw_frame_dbm_extremes _ (by simp [SAMPLE_NUM]) _
    (framebuf_fill_WF _) 0 (by simp [SAMPLE_NUM])

/-- Claim C6. The frame buffer produced by `draw_frame_dbm` depends only on its input:
for every input `dBms` and any two prior frame buffer contents the resulting frame
buffers are identical, so rasterising the same input again over the result yields the
same frame buffer (no accumulation of bars from earlier frames). -/
theorem draw_frame_dbm_idempotent (dBms : List F) (hlen : dBms.length = SAMPLE_NUM / 2)
    (prior1 prior2 : FrameBuf) (hwf1 : prior1.WF) (hwf2 : prior2.WF) :
    ∃ fb, draw_frame_dbm dBms prior1 = some fb ∧ draw_frame_dbm dBms prior2 = some fb ∧
      draw_frame_dbm dBms fb = some fb := by
  obtain ⟨fb, hrun, hwf, -⟩ := draw_frame_dbm_spec dBms (by simpa [SAMPLE_NUM] using hlen)
    prior1 hwf1
  have hsame : ∀ p : FrameBuf, p.WF → draw_frame_dbm dBms p = draw_frame_dbm dBms prior1 := by
    intro p hp
    simp only [draw_frame_dbm, memset_zero_eq p hp, memset_zero_eq prior1 hwf1]
  exact ⟨fb, hrun, by rw [hsame prior2 hwf2, hrun], by rw [hsame fb hwf, hrun]⟩

/-- Instance of `draw_frame_dbm_idempotent` over `ℚ`: an all-ones and an all-zero
prior frame buffer. -/
theorem draw_frame_dbm_idempotent_witness :
    ∃ fb, draw_frame_dbm (List.replicate 128 (-50 : ℚ))
        (framebuf_fill 255) = some fb ∧
      draw_frame_dbm (List.replicate 128 (-50 : ℚ))
        (framebuf_fill 0) = some fb ∧
      draw_frame_dbm (List.replicate 128 (-50 : ℚ)) fb = some fb :=
  draw_frame_dbm_idempotent _ (by simp [SAMPLE_NUM]) _ _
    (framebuf_fill_WF _)
    (framebuf_fill_WF _)

/-- A successful pixel statement on a frame buffer of the declared shape used a row
index in `0..239` and a byte index in `0..39`. -/
theorem set_pixel_some_in_bounds (fb fb' : FrameBuf) (y x : Int) (hwf : fb.WF)
    (h : set_pixel fb y x = some fb') :
    0 ≤ y ∧ y < (FRAME_HEIGHT : Int) ∧ 0 ≤ Int.tdiv x 8 ∧
      Int.tdiv x 8 < ((FRAME_WIDTH / 8 : Nat) : Int) := by
  simp only [set_pixel, Option.bind_eq_bind] at h
  cases hrow : readAt fb y with
  | none => rw [hrow] at h; exact absurd h (by simp)
  | some row =>
    rw [hrow, Option.some_bind] at h
    cases hb : readAt row (Int.tdiv x 8) with
    | none => rw [hb] at h; exact absurd h (by simp)
    | some b =>
      obtain ⟨hy0, hy1, hmem⟩ := readAt_some hrow
      obtain ⟨hx0, hx1, -⟩ := readAt_some hb
      rw [hwf.2 row hmem] at hx1
      rw [hwf.1] at hy1
      exact ⟨hy0, hy1, hx0, hx1⟩

/-- Claim C7. For every input `dBms` (including values far below `MIN_DBM` or far above
`MAX_DBM`), every frame buffer write performed by `draw_frame_dbm` is in bounds: the
checked embedding never takes its indexing error branch (it returns a frame buffer of
the declared shape), and a pixel statement that succeeds has row index `0 ≤ y < 240`
and byte index `0 ≤ x / 8 < 40`. -/
theorem draw_frame_dbm_in_bounds (dBms : List F) (hlen : dBms.length = SAMPLE_NUM / 2)
    (prior : FrameBuf) (hwf : prior.WF) :
    (∃ fb, draw_frame_dbm dBms prior = some fb ∧ fb.WF) ∧
    ∀ (fb fb' : FrameBuf) (y x : Int), fb.WF → set_pixel fb y x = some fb' →
      0 ≤ y ∧ y < 240 ∧ 0 ≤ Int.tdiv x 8 ∧ Int.tdiv x 8 < 40 := by
  obtain ⟨fb, hrun, hwf', -⟩ := draw_frame_dbm_spec dBms (by simpa [SAMPLE_NUM] using hlen)
    prior hwf
  refine ⟨⟨fb, hrun, hwf'⟩, ?_⟩
  intro fb1 fb2 y x h1 h2
  simpa [FRAME_HEIGHT, FRAME_WIDTH] using set_pixel_some_in_bounds fb1 fb2 y x h1 h2

/-- Instance of `draw_frame_dbm_in_bounds` over `ℚ`: values far outside the drawn
range. -/
theorem draw_frame_dbm_in_bounds_witness :
    (∃ fb, draw_frame_dbm ((-1000000 : ℚ) :: List.replicate 127 1000000)
        (framebuf_fill 255) = some fb ∧ fb.WF) ∧
    ∀ (fb fb' : FrameBuf) (y x : Int), fb.WF → set_pixel fb y x = some fb' →
      0 ≤ y ∧ y < 240 ∧ 0 ≤ Int.tdiv x 8 ∧ Int.tdiv x 8 < 40 :=
  draw_frame_dbm_in_bounds _ (by simp [SAMPLE_NUM]) _ (framebuf_fill_WF _)

end RasterClaims

/-! ## Power conversion and Hann window -/

section Tables

variable {F : Type} [LinearOrderedField F]

/-- The array written by `convert_to_dBm`: entry `i` is `dBm_of_mag` of `mags[i]`. -/
theorem convert_to_dBm_spec (log10f : F → F) (sqrt2 : F) (mags dBms : List F)
    (hm : mags.length = 128) (hd : dBms.length = 128) :
    ∃ out, convert_to_dBm log10f sqrt2 mags dBms = some out ∧ out.length = 128 ∧
      ∀ i : Nat, i < 128 → out.getD i 0 = dBm_of_mag log10f sqrt2 (mags.getD i 0) := by
  have hbins : (SAMPLE_NUM : Int) / 2 = ((128 : Nat) : Int) := by decide
  simp only [convert_to_dBm, hbins]
  obtain ⟨out, hrun, hlen, hfill⟩ := forUp_fill 128
    (fun i : Int => dBm_of_mag log10f sqrt2 (mags.getD i.toNat 0))
    (fun i out => do
      let mag ← readAt mags i
      writeAt out i (dBm_of_mag log10f sqrt2 mag)) dBms (0 : F) hd
    (by
      intro k a hk _
      simp only [readAt_of_lt mags k 0 (by omega), Option.bind_eq_bind, Option.some_bind,
        Int.toNat_ofNat])
  exact ⟨out, hrun, hlen, fun i hi => by simpa using hfill i hi⟩

/-- The array written by `init_hanning_window`: entry `i` is the Hann coefficient. -/
theorem init_hanning_window_spec (cosf : F → F) (pi : F) (window_buf : List F)
    (hw : window_buf.length = 256) :
    ∃ w, init_hanning_window cosf pi window_buf = some w ∧ w.length = 256 ∧
      ∀ i : Nat, i < 256 → w.getD i 0 = 1 / 2 * (1 - cosf (2 * pi * (i : F) / 255)) := by
  have hN : ((SAMPLE_NUM : Nat) : Int) = ((256 : Nat) : Int) := rfl
  simp only [init_hanning_window, hN]
  obtain ⟨w, hrun, hlen, hfill⟩ := forUp_fill 256
    (fun i : Int => 1 / 2 * (1 - cosf (2 * pi * (i : F) / ((((256 : Nat) : Int) - 1 : Int) : F))))
    (fun i w => writeAt w i
      (1 / 2 * (1 - cosf (2 * pi * (i : F) / ((((256 : Nat) : Int) - 1 : Int) : F)))))
    window_buf (0 : F) hw (fun _ _ _ _ => rfl)
  refine ⟨w, hrun, hlen, fun i hi => ?_⟩
  rw [hfill i hi]
  norm_num

end Tables

/-! ## Claims about the power conversion and the Hann window (over `ℝ`) -/

section RealClaims

/-- The argument of `log10f` is at least the floor `1e-12`, hence positive. -/
theorem log10f_arg_ge (mag : ℝ) : (1 : ℝ) / 10 ^ 12 ≤ log10f_arg (Real.sqrt 2) mag :=
  le_max_right _ _

/-- The argument of `log10f` is monotone in a non-negative magnitude. -/
theorem log10f_arg_mono (m1 m2 : ℝ) (h0 : 0 ≤ m1) (hle : m1 ≤ m2) :
    log10f_arg (Real.sqrt 2) m1 ≤ log10f_arg (Real.sqrt 2) m2 := by
  have hs : 0 < Real.sqrt 2 := Real.sqrt_pos.mpr (by norm_num)
  have hV : (0 : ℝ) ≤ VREF := by simp only [VREF]; norm_num
  have hI : (0 : ℝ) < IMPEDANCE := by simp only [IMPEDANCE]; norm_num
  have h1 : 0 ≤ m1 * VREF / Real.sqrt 2 := by positivity
  have h2 : m1 * VREF / Real.sqrt 2 ≤ m2 * VREF / Real.sqrt 2 :=
    div_le_div_of_nonneg_right (mul_le_mul_of_nonneg_right hle hV) hs.le
  have h3 := mul_self_le_mul_self h1 h2
  simp only [log10f_arg]
  apply max_le_max _ le_rfl
  apply mul_le_mul_of_nonneg_right _ (by norm_num)
  exact div_le_div_of_nonneg_right h3 hI.le

/-- Claim C8. `convert_to_dBm` is monotone per bin: for magnitudes `0 ≤ m1 ≤ m2` in bin
`i` of two inputs, the output computed for `m1` is at most the output computed for
`m2`, where the output for `m` is
`10 * log10 (max ((m * VREF / sqrt 2)^2 / IMPEDANCE * 1000) 1e-12)`. -/
theorem convert_to_dBm_monotone (mags1 mags2 dBms1 dBms2 : List ℝ)
    (hm1 : mags1.length = SAMPLE_NUM / 2) (hm2 : mags2.length = SAMPLE_NUM / 2)
    (hd1 : dBms1.length = SAMPLE_NUM / 2) (hd2 : dBms2.length = SAMPLE_NUM / 2)
    (i : Nat) (hi : i < SAMPLE_NUM / 2)
    (h0 : 0 ≤ mags1.getD i 0) (hle : mags1.getD i 0 ≤ mags2.getD i 0) :
    ∃ out1 out2, convert_to_dBm (Real.logb 10) (Real.sqrt 2) mags1 dBms1 = some out1 ∧
      convert_to_dBm (Real.logb 10) (Real.sqrt 2) mags2 dBms2 = some out2 ∧
      out1.getD i 0 = 10 * Real.logb 10
        (max ((mags1.getD i 0 * VREF / Real.sqrt 2) ^ 2 / IMPEDANCE * 1000) (1 / 10 ^ 12)) ∧
      out2.getD i 0 = 10 * Real.logb 10
        (max ((mags2.getD i 0 * VREF / Real.sqrt 2) ^ 2 / IMPEDANCE * 1000) (1 / 10 ^ 12)) ∧
      out1.getD i 0 ≤ out2.getD i 0 := by
  simp only [SAMPLE_NUM] at hm1 hm2 hd1 hd2 hi
  obtain ⟨out1, hr1, -, hf1⟩ := convert_to_dBm_spec (Real.logb 10) (Real.sqrt 2) mags1 dBms1
    hm1 hd1
  obtain ⟨out2, hr2, -, hf2⟩ := convert_to_dBm_spec (Real.logb 10) (Real.sqrt 2) mags2 dBms2
    hm2 hd2
  refine ⟨out1, out2, hr1, hr2, ?_, ?_, ?_⟩
  · rw [hf1 i hi]; simp only [dBm_of_mag, log10f_arg, sq]
  · rw [hf2 i hi]; simp only [dBm_of_mag, log10f_arg, sq]
  · rw [hf1 i hi, hf2 i hi]
    simp only [dBm_of_mag]
    apply mul_le_mul_of_nonneg_left _ (by norm_num)
    apply Real.logb_le_logb_of_le (by norm_num)
    · exact lt_of_lt_of_le (by norm_num) (log10f_arg_ge _)
    · exact log10f_arg_mono _ _ h0 hle

/-- Instance of `convert_to_dBm_monotone`: magnitudes 1/4 and 1/2 in bin 3. -/
theorem convert_to_dBm_monotone_witness :
    ∃ out1 out2, convert_to_dBm (Real.logb 10) (Real.sqrt 2) (List.replicate 128 (1 / 4))
        (List.replicate 128 0) = some out1 ∧
      convert_to_dBm (Real.logb 10) (Real.sqrt 2) (List.replicate 128 (1 / 2))
        (List.replicate 128 0) = some out2 ∧
      out1.getD 3 0 = 10 * Real.logb 10
        (max (((List.replicate 128 (1 / 4 : ℝ)).getD 3 0 * VREF / Real.sqrt 2) ^ 2 /
          IMPEDANCE * 1000) (1 / 10 ^ 12)) ∧
      out2.getD 3 0 = 10 * Real.logb 10
        (max (((List.replicate 128 (1 / 2 : ℝ)).getD 3 0 * VREF / Real.sqrt 2) ^ 2 /
          IMPEDANCE * 1000) (1 / 10 ^ 12)) ∧
      out1.getD 3 0 ≤ out2.getD 3 0 :=
  convert_to_dBm_monotone _ _ _ _ (by simp [SAMPLE_NUM]) (by simp [SAMPLE_NUM])
    (by simp [SAMPLE_NUM]) (by simp [SAMPLE_NUM]) 3 (by simp [SAMPLE_NUM])
    (by simp [List.getD_eq_getElem?_getD, List.getElem?_replicate])
    (by norm_num [List.getD_eq_getElem?_getD, List.getElem?_replicate])

/-- Claim C9. For magnitude 0, `convert_to_dBm` returns exactly `10 * log10 1e-12 = -120`,
and for every real magnitude the output is at least -120: the argument passed to
`log10` is always `≥ 1e-12 > 0`, so the logarithm is never taken of zero or of a
negative number. -/
theorem convert_to_dBm_floor (mags dBms : List ℝ)
    (hm : mags.length = SAMPLE_NUM / 2) (hd : dBms.length = SAMPLE_NUM / 2)
    (i : Nat) (hi : i < SAMPLE_NUM / 2) :
    ∃ out, convert_to_dBm (Real.logb 10) (Real.sqrt 2) mags dBms = some out ∧
      out.getD i 0 = 10 * Real.logb 10 (log10f_arg (Real.sqrt 2) (mags.getD i 0)) ∧
      (1 : ℝ) / 10 ^ 12 ≤ log10f_arg (Real.sqrt 2) (mags.getD i 0) ∧
      0 < log10f_arg (Real.sqrt 2) (mags.getD i 0) ∧
      (mags.getD i 0 = 0 → out.getD i 0 = -120) ∧
      10 * Real.logb 10 (1 / 10 ^ 12) = -120 ∧
      -120 ≤ out.getD i 0 := by
  simp only [SAMPLE_NUM] at hm hd hi
  obtain ⟨out, hr, -, hf⟩ := convert_to_dBm_spec (Real.logb 10) (Real.sqrt 2) mags dBms hm hd
  have hfloor : (10 : ℝ) * Real.logb 10 (1 / 10 ^ 12) = -120 := by
    rw [one_div, Real.logb_inv, Real.logb_pow, Real.logb_self_eq_one (by norm_num)]
    norm_num
  have hge := log10f_arg_ge (mags.getD i 0)
  have hpos : 0 < log10f_arg (Real.sqrt 2) (mags.getD i 0) :=
    lt_of_lt_of_le (by norm_num) hge
  refine ⟨out, hr, by rw [hf i hi]; rfl, hge, hpos, ?_, hfloor, ?_⟩
  · intro hz
    rw [hf i hi, hz, ← hfloor]
    simp only [dBm_of_mag, log10f_arg]
    congr 2
    rw [max_eq_right]
    simp
  · rw [hf i hi, ← hfloor]
    simp only [dBm_of_mag]
    apply mul_le_mul_of_nonneg_left _ (by norm_num)
    exact Real.logb_le_logb_of_le (by norm_num) (by norm_num) hge

/-- Instance of `convert_to_dBm_floor`: all magnitudes zero. -/
theorem convert_to_dBm_floor_witness :
    ∃ out, convert_to_dBm (Real.logb 10) (Real.sqrt 2) (List.replicate 128 0)
        (List.replicate 128 1) = some out ∧
      out.getD 5 0 = 10 * Real.logb 10
        (log10f_arg (Real.sqrt 2) ((List.replicate 128 (0 : ℝ)).getD 5 0)) ∧
      (1 : ℝ) / 10 ^ 12 ≤ log10f_arg (Real.sqrt 2) ((List.replicate 128 (0 : ℝ)).getD 5 0) ∧
      0 < log10f_arg (Real.sqrt 2) ((List.replicate 128 (0 : ℝ)).getD 5 0) ∧
      ((List.replicate 128 (0 : ℝ)).getD 5 0 = 0 → out.getD 5 0 = -120) ∧
      10 * Real.logb 10 (1 / 10 ^ 12) = -120 ∧
      -120 ≤ out.getD 5 0 :=
  convert_to_dBm_floor _ _ (by simp [SAMPLE_NUM]) (by simp [SAMPLE_NUM]) 5
    (by simp [SAMPLE_NUM])

/-- Claim C10. After `init_hanning_window`, with `N = 256` and
`window_buf[i] = 0.5 * (1 - cos (2 * pi * i / (N - 1)))`:
`window_buf[i] = window_buf[N - 1 - i]` for every `i` in `0..N-1`, and
`window_buf[0] = window_buf[N - 1] = 0`. -/
theorem init_hanning_window_symmetric (window_buf : List ℝ)
    (hw : window_buf.length = SAMPLE_NUM) :
    ∃ w, init_hanning_window Real.cos Real.pi window_buf = some w ∧
      (∀ i : Nat, i < SAMPLE_NUM →
        w.getD i 0 = 1 / 2 * (1 - Real.cos (2 * Real.pi * (i : ℝ) / ((SAMPLE_NUM : ℝ) - 1)))) ∧
      (∀ i : Nat, i < SAMPLE_NUM → w.getD i 0 = w.getD (SAMPLE_NUM - 1 - i) 0) ∧
      w.getD 0 0 = 0 ∧ w.getD (SAMPLE_NUM - 1) 0 = 0 := by
  simp only [SAMPLE_NUM] at hw ⊢
  obtain ⟨w, hr, -, hf⟩ := init_hanning_window_spec Real.cos Real.pi window_buf hw
  refine ⟨w, hr, ?_, ?_, ?_, ?_⟩
  · intro i hi
    rw [hf i hi]; norm_num
  · intro i hi
    rw [hf i hi, hf (256 - 1 - i) (by omega)]
    have hcast : ((256 - 1 - i : Nat) : ℝ) = 255 - (i : ℝ) := by
      rw [Nat.cast_sub (by omega)]; norm_num
    rw [hcast]
    have harg : 2 * Real.pi * (255 - (i : ℝ)) / 255
        = 2 * Real.pi - 2 * Real.pi * (i : ℝ) / 255 := by ring
    rw [harg, Real.cos_two_pi_sub]
  · rw [hf 0 (by omega)]; simp
  · rw [hf (256 - 1) (by omega)]
    have harg : 2 * Real.pi * ((256 - 1 : Nat) : ℝ) / 255 = 2 * Real.pi := by
      norm_num
    rw [harg, Real.cos_two_pi]; norm_num

/-- Instance of `init_hanning_window_symmetric` on the zero-initialised `window_buf`. -/
theorem init_hanning_window_symmetric_witness :
    ∃ w, init_hanning_window Real.cos Real.pi (List.replicate 256 0) = some w ∧
      (∀ i : Nat, i < SAMPLE_NUM →
        w.getD i 0 = 1 / 2 * (1 - Real.cos (2 * Real.pi * (i : ℝ) / ((SAMPLE_NUM : ℝ) - 1)))) ∧
      (∀ i : Nat, i < SAMPLE_NUM → w.getD i 0 = w.getD (SAMPLE_NUM - 1 - i) 0) ∧
      w.getD 0 0 = 0 ∧ w.getD (SAMPLE_NUM - 1) 0 = 0 :=
  init_hanning_window_symmetric _ (List.length_replicate 256 0)

end RealClaims

/-! ## Spectrum pipeline: what one call of `process_fft_buffer` does -/

section Pipeline

variable {F : Type} [LinearOrderedField F]

/-- The sum of a list built over `List.range` is the corresponding finite sum. -/
theorem list_range_map_sum (f : Nat → F) (n : Nat) :
    ((List.range n).map f).sum = ∑ i in Finset.range n, f i := by
  induction n with
  | zero => simp
  | succ n ih => rw [List.range_succ, List.map_append, List.sum_append, ih,
      Finset.sum_range_succ]; simp

/-- Feeding `m + n` samples is feeding `m` samples and then `n` more. -/
theorem fir_before_add (st : FirFilter F) (xs : Nat → F) (m n : Nat) :
    fir_before st xs (m + n) =
      (fir_before st xs m).bind fun s => fir_before s (fun j => xs (m + j)) n := by
  induction n with
  | zero =>
    cases h : fir_before st xs m <;> simp [fir_before, h]
  | succ n ih =>
    rw [← Nat.add_assoc]
    simp only [fir_before, ih]
    cases h : fir_before st xs m <;> simp

/-- The output of call `m + n` is the output of call `n` after the first `m` calls. -/
theorem fir_output_add (st : FirFilter F) (xs : Nat → F) (m n : Nat) :
    fir_output st xs (m + n) =
      (fir_before st xs m).bind fun s => fir_output s (fun j => xs (m + j)) n := by
  simp only [fir_output, fir_before_add]
  cases h : fir_before st xs m <;> simp

/-- The first loop of `process_fft_buffer`: the filter advances by 256 calls and
`fft_in[i]` receives the filtered sample times the window. -/
theorem process_loop_spec (window_buf raw : List F) (fir : FirFilter F)
    (fft_in : List (kiss_fft_cpx F))
    (hc : fir.fir_coeffs.length = 64) (hs : fir.fir_state.length = 64)
    (h0 : 0 ≤ fir.fir_idx) (h1 : fir.fir_idx < 64)
    (hw : window_buf.length = 256) (hr : raw.length = 256) (hf : fft_in.length = 256) :
    ∃ s, forUp 0 SAMPLE_NUM (process_sample window_buf raw) (fir, fft_in) = some s ∧
      fir_before fir (fun n => raw.getD n 0) 256 = some s.1 ∧ s.2.length = 256 ∧
      ∀ i : Nat, i < 256 → ∃ y, fir_output fir (fun n => raw.getD n 0) i = some y ∧
        s.2.getD i ⟨0, 0⟩ = ⟨y * window_buf.getD i 0, 0⟩ := by
  have hn : (((SAMPLE_NUM : Nat) : Int) - 0).toNat = 256 := by simp [SAMPLE_NUM]
  obtain ⟨s, hrun, hb, hl, hfill⟩ :=
    forUp_inv 0 ((SAMPLE_NUM : Nat) : Int) (process_sample window_buf raw)
      (fun k s => fir_before fir (fun n => raw.getD n 0) k = some s.1 ∧ s.2.length = 256 ∧
        ∀ i : Nat, i < k → ∃ y, fir_output fir (fun n => raw.getD n 0) i = some y ∧
          s.2.getD i ⟨0, 0⟩ = ⟨y * window_buf.getD i 0, 0⟩)
      (fir, fft_in) ⟨rfl, hf, fun i hi => by omega⟩
      (by
        intro k hk s hs'
        obtain ⟨hb, hl, hfill⟩ := hs'
        rw [hn] at hk
        obtain ⟨s1, hb1, hsc, hsl, hsi, -⟩ :=
          fir_before_spec fir (fun n => raw.getD n 0) hc hs h0 h1 k
        rw [hb] at hb1
        obtain rfl : s.1 = s1 := Option.some.inj hb1
        obtain ⟨r, happ⟩ : ∃ r, apply_fir s.1 (raw.getD k 0) = some r :=
          ⟨_, apply_fir_spec s.1 (raw.getD k 0) (hsc ▸ hc) hsl (by omega) (by omega)⟩
        refine ⟨(r.2, s.2.set k ⟨r.1 * window_buf.getD k 0, 0⟩), ?_, ?_, ?_, ?_⟩
        · simp only [process_sample, zero_add]
          rw [readAt_of_lt raw k 0 (by omega)]
          simp only [Option.bind_eq_bind, Option.some_bind, happ]
          rw [readAt_of_lt window_buf k 0 (by omega)]
          simp only [Option.some_bind]
          rw [writeAt_of_lt _ k _ (by omega)]
          rfl
        · simp only [fir_before, hb, Option.bind_eq_bind, Option.some_bind, happ,
            Option.pure_def]
        · simpa using hl
        · intro i hi
          by_cases hik : i = k
          · subst hik
            refine ⟨_, ?_, getD_set_self _ _ _ _ (by omega)⟩
            simp only [fir_output, hb, Option.bind_eq_bind, Option.some_bind, happ,
              Option.pure_def]
          · obtain ⟨y, hy1, hy2⟩ := hfill i (by omega)
            exact ⟨y, hy1, by rw [getD_set_ne _ _ _ _ _ (Ne.symm hik)]; exact hy2⟩)
  rw [hn] at hb hfill
  exact ⟨s, hrun, hb, hl, hfill⟩

theorem forward_dft_length (cosf sinf : F → F) (pi : F) (inp : List (kiss_fft_cpx F)) :
    (forward_dft cosf sinf pi inp).length = inp.length := by
  simp [forward_dft]

theorem forward_dft_getD (cosf sinf : F → F) (pi : F) (inp : List (kiss_fft_cpx F))
    (k : Nat) (hk : k < inp.length) :
    (forward_dft cosf sinf pi inp).getD k ⟨0, 0⟩ =
      { r := ∑ n in Finset.range inp.length,
          ((inp.getD n ⟨0, 0⟩).r * cosf (2 * pi * (k : F) * (n : F) / (inp.length : F)) +
            (inp.getD n ⟨0, 0⟩).i * sinf (2 * pi * (k : F) * (n : F) / (inp.length : F)))
        i := ∑ n in Finset.range inp.length,
          ((inp.getD n ⟨0, 0⟩).i * cosf (2 * pi * (k : F) * (n : F) / (inp.length : F)) -
            (inp.getD n ⟨0, 0⟩).r * sinf (2 * pi * (k : F) * (n : F) / (inp.length : F))) } := by
  simp only [forward_dft, List.getD_eq_getElem?_getD]
  rw [List.getElem?_map, List.getElem?_range hk]
  simp only [Option.map_some', Option.getD_some, list_range_map_sum]

/-- The first half of `process_fft_buffer` with the forward DFT as transform. -/
theorem fft_magnitudes_spec (sqrtf cosf sinf : F → F) (pi : F) (raw : List F)
    (hr : raw.length = 256) (g : Globals F) (hg : g.WF) :
    ∃ g' mags, fft_magnitudes sqrtf (forward_dft cosf sinf pi) raw g = some (g', mags) ∧
      mags.length = 128 ∧ g'.WF ∧ g'.window_buf = g.window_buf ∧ g'.dBms = g.dBms ∧
      g'.framebuf = g.framebuf ∧ g'.fir.fir_coeffs = g.fir.fir_coeffs ∧
      fir_before g.fir (fun n => raw.getD n 0) 256 = some g'.fir ∧
      (∀ i : Nat, i < 256 → ∃ y, fir_output g.fir (fun n => raw.getD n 0) i = some y ∧
        g'.fft_in.getD i ⟨0, 0⟩ = ⟨y * g.window_buf.getD i 0, 0⟩) ∧
      g'.fft_out = forward_dft cosf sinf pi g'.fft_in ∧
      ∀ i : Nat, i < 128 → mags.getD i 0 =
        sqrtf ((g'.fft_out.getD i ⟨0, 0⟩).r * (g'.fft_out.getD i ⟨0, 0⟩).r +
          (g'.fft_out.getD i ⟨0, 0⟩).i * (g'.fft_out.getD i ⟨0, 0⟩).i) := by
  obtain ⟨hc, hs, h0, h1, hw, hf, hd, hfb⟩ := hg
  obtain ⟨s, hrun, hb, hl, hfill⟩ :=
    process_loop_spec g.window_buf raw g.fir g.fft_in hc hs h0 h1 hw hr hf
  obtain ⟨s1, hb1, hsc, hsl, hsi, -⟩ :=
    fir_before_spec g.fir (fun n => raw.getD n 0) hc hs h0 h1 256
  rw [hb] at hb1
  obtain rfl : s.1 = s1 := Option.some.inj hb1
  have hol : (forward_dft cosf sinf pi s.2).length = 256 := by
    rw [forward_dft_length, hl]
  have hbins : (SAMPLE_NUM : Int) / 2 = ((128 : Nat) : Int) := by decide
  obtain ⟨mags, hmrun, hml, hmfill⟩ := forUp_fill 128
    (fun i : Int => sqrtf (((forward_dft cosf sinf pi s.2).getD i.toNat ⟨0, 0⟩).r *
        ((forward_dft cosf sinf pi s.2).getD i.toNat ⟨0, 0⟩).r +
      ((forward_dft cosf sinf pi s.2).getD i.toNat ⟨0, 0⟩).i *
        ((forward_dft cosf sinf pi s.2).getD i.toNat ⟨0, 0⟩).i))
    (fun i mags => do
      let c ← readAt (forward_dft cosf sinf pi s.2) i
      writeAt mags i (sqrtf (c.r * c.r + c.i * c.i)))
    (List.replicate (SAMPLE_NUM / 2) 0) (0 : F)
    (by have h : SAMPLE_NUM / 2 = 128 := by decide
        rw [List.length_replicate, h])
    (by
      intro k a hk _
      simp only [readAt_of_lt (forward_dft cosf sinf pi s.2) k ⟨0, 0⟩ (by omega),
        Option.bind_eq_bind, Option.some_bind, Int.toNat_ofNat])
  refine ⟨{ g with fir := s.1, fft_in := s.2, fft_out := forward_dft cosf sinf pi s.2 },
    mags, ?_, hml, ?_, rfl, rfl, rfl, hsc, hb, hfill, rfl, ?_⟩
  · simp only [Option.bind_eq_bind] at hmrun
    simp only [fft_magnitudes, hrun, Option.bind_eq_bind, Option.some_bind, hbins, hmrun,
      Option.pure_def]
  · exact ⟨hsc ▸ hc, hsl, by show 0 ≤ s.1.fir_idx; omega, by show s.1.fir_idx < 64; omega,
      hw, hl, hd, hfb⟩
  · intro i hi
    simpa using hmfill i hi

/-- The globals after the initialisation of `main`. -/
theorem main_init_spec (sinf cosf : F → F) (pi : F) :
    ∃ g, main_init sinf cosf pi (globals_static : Globals F) = some g ∧ g.WF ∧
      g.fir.fir_idx = 0 ∧ g.framebuf = framebuf_fill 0 ∧
      init_fir_filter sinf cosf pi fir_static = some g.fir ∧
      init_hanning_window cosf pi (List.replicate SAMPLE_NUM 0) = some g.window_buf ∧
      (∀ i : Nat, i < 64 → g.fir.fir_state.getD i 0 = 0) := by
  obtain ⟨w, hw, hwl, -⟩ := init_hanning_window_spec cosf pi
    (List.replicate SAMPLE_NUM (0 : F)) (List.length_replicate _ _)
  obtain ⟨fir, hfir, hcl, hsl, hidx, -, hz⟩ := init_fir_filter_spec sinf cosf pi
    (fir_static : FirFilter F) (List.length_replicate _ _) (List.length_replicate _ _)
  refine ⟨{ (globals_static : Globals F) with window_buf := w, fir := fir }, ?_, ?_, hidx,
    rfl, hfir, hw, hz⟩
  · simp only [main_init, globals_static, hw, hfir, Option.bind_eq_bind, Option.some_bind,
      Option.pure_def]
  · exact ⟨hcl, hsl, by show 0 ≤ fir.fir_idx; omega, by show fir.fir_idx < 64; omega, hwl,
      List.length_replicate _ _, List.length_replicate _ _, framebuf_fill_WF 0⟩

variable [FloorRing F]

/-- The whole of `process_fft_buffer` on normalised samples, with the forward DFT as
transform: it succeeds on well-formed globals and 256 samples. -/
theorem process_fft_raw_spec (sqrtf log10f cosf sinf : F → F) (sqrt2 pi : F) (raw : List F)
    (hr : raw.length = 256) (g : Globals F) (hg : g.WF) :
    ∃ g' m mags, fft_magnitudes sqrtf (forward_dft cosf sinf pi) raw g = some (m, mags) ∧
      process_fft_raw sqrtf log10f sqrt2 (forward_dft cosf sinf pi) raw g = some g' ∧
      g'.WF ∧ g'.window_buf = g.window_buf ∧ g'.fir.fir_coeffs = g.fir.fir_coeffs ∧
      fir_before g.fir (fun n => raw.getD n 0) 256 = some g'.fir ∧
      (∀ i : Nat, i < 256 → ∃ y, fir_output g.fir (fun n => raw.getD n 0) i = some y ∧
        g'.fft_in.getD i ⟨0, 0⟩ = ⟨y * g.window_buf.getD i 0, 0⟩) ∧
      g'.fft_out = forward_dft cosf sinf pi g'.fft_in ∧
      (∀ i : Nat, i < 128 → mags.getD i 0 =
        sqrtf ((g'.fft_out.getD i ⟨0, 0⟩).r * (g'.fft_out.getD i ⟨0, 0⟩).r +
          (g'.fft_out.getD i ⟨0, 0⟩).i * (g'.fft_out.getD i ⟨0, 0⟩).i)) ∧
      (∀ i : Nat, i < 128 → g'.dBms.getD i 0 = dBm_of_mag log10f sqrt2 (mags.getD i 0)) ∧
      draw_frame_dbm g'.dBms g.framebuf = some g'.framebuf ∧
      ∀ x y : Nat, g'.framebuf.pixel x y = true ↔
        (x / 2 < 128 ∧ y < 240 ∧ 240 - bar_height (g'.dBms.getD (x / 2) 0) ≤ (y : Int)) := by
  obtain ⟨m, mags, hm, hml, hmwf, hmw, hmd, hmf, hmc, hmb, hmfill, hmo, hmm⟩ :=
    fft_magnitudes_spec sqrtf cosf sinf pi raw hr g hg
  obtain ⟨hc, hs, h0, h1, hw, hf, hd, hfb⟩ := hmwf
  obtain ⟨out, hout, houtl, houtf⟩ := convert_to_dBm_spec log10f sqrt2 mags m.dBms hml hd
  obtain ⟨fb, hfbrun, hfbwf, hpix⟩ := draw_frame_dbm_spec out houtl m.framebuf hfb
  refine ⟨{ m with dBms := out, framebuf := fb }, m, mags, hm, ?_, ?_, hmw, hmc, hmb, hmfill,
    hmo, hmm, houtf, ?_, hpix⟩
  · simp only [process_fft_raw, hm, Option.bind_eq_bind, Option.some_bind, hout, hfbrun,
      Option.pure_def]
  · exact ⟨hc, hs, h0, h1, hw, hf, houtl, hfbwf⟩
  · rw [← hmf]; exact hfbrun

end Pipeline

/-! ## Claims about the filter invariant and the filter design -/

section FirInvariant

variable {F : Type} [LinearOrderedField F]

/-- A successful tap of `apply_fir` read `fir_coeffs` and `fir_state` in range. -/
theorem apply_fir_tap_some_in_bounds (coeffs state : List F) (i : Int) (s r : F × Int)
    (h : apply_fir_tap coeffs state i s = some r) :
    0 ≤ i ∧ i < (coeffs.length : Int) ∧ 0 ≤ s.2 ∧ s.2 < (state.length : Int) := by
  simp only [apply_fir_tap, Option.bind_eq_bind] at h
  cases hc : readAt coeffs i with
  | none => rw [hc] at h; exact absurd h (by simp)
  | some c =>
    rw [hc, Option.some_bind] at h
    cases hv : readAt state s.2 with
    | none => rw [hv] at h; exact absurd h (by simp)
    | some v =>
      obtain ⟨h1, h2, -⟩ := readAt_some hc
      obtain ⟨h3, h4, -⟩ := readAt_some hv
      exact ⟨h1, h2, h3, h4⟩

/-- A successful checked write was in range. -/
theorem writeAt_some {α : Type} {a b : List α} {i : Int} {v : α} (h : writeAt a i v = some b) :
    0 ≤ i ∧ i < (a.length : Int) := by
  unfold writeAt at h
  split at h
  · rename_i h0; omega
  · exact absurd h (by simp)

/-- Claim C18. The cursor invariant `0 ≤ fir_idx < 64` holds after `init_fir_filter` and
is preserved by every call of `apply_fir`; under it every read and write of `fir_state`
and `fir_coeffs` inside `apply_fir` uses an index in `0..63` (the checked call succeeds,
and a checked access that succeeds on an array of 64 entries has its index in `0..63`);
`apply_fir` changes only `fir_state[fir_idx]` and `fir_idx`, advancing the cursor to
`(fir_idx + 1) mod 64` and leaving the coefficients and the other 63 history slots
unchanged. -/
theorem apply_fir_cursor_invariant (sinf cosf : F → F) (pi : F) (st0 : FirFilter F)
    (hc0 : st0.fir_coeffs.length = FIR_TAP_NUM) (hs0 : st0.fir_state.length = FIR_TAP_NUM) :
    (∃ st, init_fir_filter sinf cosf pi st0 = some st ∧ 0 ≤ st.fir_idx ∧ st.fir_idx < 64 ∧
      st.fir_coeffs.length = 64 ∧ st.fir_state.length = 64) ∧
    (∀ (st : FirFilter F) (x : F), st.fir_coeffs.length = 64 → st.fir_state.length = 64 →
      0 ≤ st.fir_idx → st.fir_idx < 64 →
      ∃ y st', apply_fir st x = some (y, st') ∧
        0 ≤ st'.fir_idx ∧ st'.fir_idx < 64 ∧ st'.fir_idx = (st.fir_idx + 1) % 64 ∧
        st'.fir_coeffs = st.fir_coeffs ∧ st'.fir_state.length = 64 ∧
        st'.fir_state.getD st.fir_idx.toNat 0 = x ∧
        ∀ j : Nat, j < 64 → (j : Int) ≠ st.fir_idx →
          st'.fir_state.getD j 0 = st.fir_state.getD j 0) ∧
    (∀ (coeffs state : List F) (i : Int) (s r : F × Int),
      coeffs.length = 64 → state.length = 64 → apply_fir_tap coeffs state i s = some r →
      0 ≤ i ∧ i < 64 ∧ 0 ≤ s.2 ∧ s.2 < 64) ∧
    (∀ (state state' : List F) (i : Int) (x : F),
      state.length = 64 → writeAt state i x = some state' → 0 ≤ i ∧ i < 64) := by
  obtain ⟨st, hst, hcl, hsl, hidx, -, -⟩ := init_fir_filter_spec sinf cosf pi st0 hc0 hs0
  refine ⟨⟨st, hst, by omega, by omega, hcl, hsl⟩, ?_, ?_, ?_⟩
  · intro s x hc hs h0 h1
    refine ⟨_, _, apply_fir_spec s x hc hs h0 h1, ?_, ?_, rfl, rfl, by simpa using hs, ?_, ?_⟩
    · simp only; omega
    · simp only; omega
    · exact getD_set_self _ _ _ _ (by omega)
    · intro j _ hj
      exact getD_set_ne _ _ _ _ _ (by omega)
  · intro coeffs state i s r hc hs h
    have := apply_fir_tap_some_in_bounds coeffs state i s r h
    rw [hc, hs] at this
    exact_mod_cast this
  · intro state state' i x hs h
    have := writeAt_some h
    rw [hs] at this
    exact_mod_cast this

/-- Instance of `apply_fir_cursor_invariant` on the zero-initialised globals over `ℚ`. -/
theorem apply_fir_cursor_invariant_witness :
    (∃ st, init_fir_filter (fun x => x) (fun x => 1 - x) 3 (fir_static : FirFilter ℚ) = some st ∧
      0 ≤ st.fir_idx ∧ st.fir_idx < 64 ∧
      st.fir_coeffs.length = 64 ∧ st.fir_state.length = 64) ∧
    (∀ (st : FirFilter ℚ) (x : ℚ), st.fir_coeffs.length = 64 → st.fir_state.length = 64 →
      0 ≤ st.fir_idx → st.fir_idx < 64 →
      ∃ y st', apply_fir st x = some (y, st') ∧
        0 ≤ st'.fir_idx ∧ st'.fir_idx < 64 ∧ st'.fir_idx = (st.fir_idx + 1) % 64 ∧
        st'.fir_coeffs = st.fir_coeffs ∧ st'.fir_state.length = 64 ∧
        st'.fir_state.getD st.fir_idx.toNat 0 = x ∧
        ∀ j : Nat, j < 64 → (j : Int) ≠ st.fir_idx →
          st'.fir_state.getD j 0 = st.fir_state.getD j 0) ∧
    (∀ (coeffs state : List ℚ) (i : Int) (s r : ℚ × Int),
      coeffs.length = 64 → state.length = 64 → apply_fir_tap coeffs state i s = some r →
      0 ≤ i ∧ i < 64 ∧ 0 ≤ s.2 ∧ s.2 < 64) ∧
    (∀ (state state' : List ℚ) (i : Int) (x : ℚ),
      state.length = 64 → writeAt state i x = some state' → 0 ≤ i ∧ i < 64) :=
  apply_fir_cursor_invariant (fun x => x) (fun x => 1 - x) 3 fir_static
    (List.length_replicate _ _) (List.length_replicate _ _)

end FirInvariant

section FirDesignClaims

variable {F : Type} [LinearOrderedField F]

/-- Every tap index `n` in `0..63` is at distance at least `1/2` from the centre `63/2`. -/
theorem fir_tap_offset_ge (n : Nat) : (1 : F) / 2 ≤ |(n : F) - 63 / 2| := by
  rcases Nat.lt_or_ge n 32 with h | h
  · have h' : (n : F) ≤ 31 := by exact_mod_cast Nat.lt_succ_iff.mp h
    rw [abs_of_neg (by linarith)]; linarith
  · have h' : (32 : F) ≤ n := by exact_mod_cast h
    rw [abs_of_pos (by linarith)]; linarith

/-- Every tap of `init_fir_filter` is computed through the sinc quotient. -/
theorem fir_raw_tap_quotient (sinf cosf : F → F) (pi : F) (n : Nat) :
    fir_raw_tap sinf cosf pi (n : Int) =
      sinf (2 * pi * (CUT_OFF_FREQ / (SAMPLING_FREQ : F)) * ((n : F) - 63 / 2)) /
          (pi * ((n : F) - 63 / 2)) *
        (54 / 100 - 46 / 100 * cosf (2 * pi * (n : F) / 63)) := by
  have hm : ¬ (|(n : F) - 63 / 2| < 1 / 1000000) := by
    rw [not_lt]
    exact le_trans (by norm_num) (fir_tap_offset_ge n)
  have hM : (((FIR_TAP_NUM : Int) - 1 : Int) : F) = 63 := by
    simp only [FIR_TAP_NUM]; norm_num
  simp only [fir_raw_tap, hM, Int.cast_natCast, if_neg hm]

/-- The first loop of `init_fir_filter`: entry `i` of the array is the raw tap. -/
theorem init_fir_design_spec (sinf cosf : F → F) (pi : F) (st : FirFilter F)
    (hc : st.fir_coeffs.length = 64) (hs : st.fir_state.length = 64) :
    ∃ d, forUp 0 ((FIR_TAP_NUM : Int) - 1 + 1) (init_fir_tap sinf cosf pi)
        { coeffs := st.fir_coeffs, state := st.fir_state, sum := 0 } = some d ∧
      d.coeffs.length = 64 ∧
      ∀ i : Nat, i < 64 → d.coeffs.getD i 0 = fir_raw_tap sinf cosf pi (i : Int) := by
  have hM : ((FIR_TAP_NUM : Int) - 1 + 1 - 0).toNat = 64 := by simp [FIR_TAP_NUM]
  obtain ⟨d, hd, hdc, hds, hdtap⟩ :=
    forUp_inv 0 ((FIR_TAP_NUM : Int) - 1 + 1) (init_fir_tap sinf cosf pi)
      (fun k d => d.coeffs.length = 64 ∧ d.state.length = 64 ∧
        (∀ i : Nat, i < k → d.coeffs.getD i 0 = fir_raw_tap sinf cosf pi (i : Int)))
      { coeffs := st.fir_coeffs, state := st.fir_state, sum := 0 }
      ⟨hc, hs, by intro i hi; omega⟩
      (by
        intro k hk d hd
        obtain ⟨hdc, hds, hdtap⟩ := hd
        rw [hM] at hk
        refine ⟨{ coeffs := d.coeffs.set k (fir_raw_tap sinf cosf pi (k : Int))
                  state := d.state.set k 0
                  sum := d.sum + fir_raw_tap sinf cosf pi (k : Int) }, ?_, ?_, ?_, ?_⟩
        · simp only [init_fir_tap, zero_add]
          rw [writeAt_of_lt _ k _ (by omega), writeAt_of_lt _ k _ (by omega)]
          simp only [Option.bind_eq_bind, Option.some_bind]
          rw [readAt_of_lt _ k 0 (by simp; omega), getD_set_self _ _ _ _ (by omega)]
          rfl
        · simpa using hdc
        · simpa using hds
        · intro i hi
          by_cases hik : i = k
          · subst hik; exact getD_set_self _ _ _ _ (by omega)
          · rw [getD_set_ne _ _ _ _ _ (Ne.symm hik)]; exact hdtap i (by omega))
  rw [hM] at hdtap
  exact ⟨d, hd, hdc, hdtap⟩

/-- Claim C16, amended. In `init_fir_filter` the sinc quotient is never evaluated with a
zero denominator: for every tap `n` (in particular `n` in `0..63`), with `m = n - 63/2`,
`|m| ≥ 1/2`, so the test `|m| < 1e-6` fails, `pi * m` is non-zero and the tap is
`sin (2 * pi * fc * m) / (pi * m)` times the Hamming weight. With 64 taps no tap lies at
the centre of the kernel, and the limiting value `2 * fc` is not used. -/
theorem init_fir_filter_sinc_denominator (sinf cosf : F → F) (pi : F) (hpi : pi ≠ 0)
    (n : Nat) :
    (1 : F) / 2 ≤ |(n : F) - 63 / 2| ∧ ¬ (|(n : F) - 63 / 2| < 1 / 1000000) ∧
      pi * ((n : F) - 63 / 2) ≠ 0 ∧
      fir_raw_tap sinf cosf pi (n : Int) =
        sinf (2 * pi * (CUT_OFF_FREQ / (SAMPLING_FREQ : F)) * ((n : F) - 63 / 2)) /
            (pi * ((n : F) - 63 / 2)) *
          (54 / 100 - 46 / 100 * cosf (2 * pi * (n : F) / 63)) := by
  have h := fir_tap_offset_ge (F := F) n
  refine ⟨h, ?_, ?_, fir_raw_tap_quotient sinf cosf pi n⟩
  · rw [not_lt]; exact le_trans (by norm_num) h
  · apply mul_ne_zero hpi
    intro h0
    rw [h0, abs_zero] at h
    norm_num at h

/-- Instance of `init_fir_filter_sinc_denominator` over `ℝ` at tap 32, next to the centre. -/
theorem init_fir_filter_sinc_denominator_witness :
    (1 : ℝ) / 2 ≤ |((32 : Nat) : ℝ) - 63 / 2| ∧
      ¬ (|((32 : Nat) : ℝ) - 63 / 2| < 1 / 1000000) ∧
      Real.pi * (((32 : Nat) : ℝ) - 63 / 2) ≠ 0 ∧
      fir_raw_tap Real.sin Real.cos Real.pi ((32 : Nat) : Int) =
        Real.sin (2 * Real.pi * (CUT_OFF_FREQ / (SAMPLING_FREQ : ℝ)) *
            (((32 : Nat) : ℝ) - 63 / 2)) / (Real.pi * (((32 : Nat) : ℝ) - 63 / 2)) *
          (54 / 100 - 46 / 100 * Real.cos (2 * Real.pi * ((32 : Nat) : ℝ) / 63)) :=
  init_fir_filter_sinc_denominator Real.sin Real.cos Real.pi Real.pi_ne_zero 32

/-- Claim C16 as stated fails: no tap is computed through the limiting value. With
`sinf = 0` and `cosf = 0` the limiting branch would give `2 * fc * 0.54`, and no tap
`n` in `0..63` has that value. -/
theorem init_fir_filter_no_limit_tap :
    ¬ ∃ n : Nat, n < FIR_TAP_NUM ∧
      fir_raw_tap (F := ℚ) (fun _ => 0) (fun _ => 0) 3 (n : Int) =
        2 * (CUT_OFF_FREQ / (SAMPLING_FREQ : ℚ)) * (54 / 100) := by
  rintro ⟨n, -, h⟩
  rw [fir_raw_tap_quotient] at h
  simp only [CUT_OFF_FREQ, SAMPLING_FREQ] at h
  norm_num at h

end FirDesignClaims

section Symmetry

/-- Claim C19. The coefficients produced by `init_fir_filter` (over `ℝ`) are symmetric
about the kernel centre: `fir_coeffs[n] = fir_coeffs[63 - n]` for every `n` in `0..63`,
both after the first loop (before the normalisation) and after the division by the
sum. -/
theorem init_fir_filter_linear_phase (st : FirFilter ℝ)
    (hc : st.fir_coeffs.length = FIR_TAP_NUM) (hs : st.fir_state.length = FIR_TAP_NUM) :
    ∃ d st', forUp 0 ((FIR_TAP_NUM : Int) - 1 + 1)
        (init_fir_tap Real.sin Real.cos Real.pi)
        { coeffs := st.fir_coeffs, state := st.fir_state, sum := 0 } = some d ∧
      init_fir_filter Real.sin Real.cos Real.pi st = some st' ∧
      ∀ n : Nat, n < FIR_TAP_NUM →
        d.coeffs.getD n 0 = d.coeffs.getD (FIR_TAP_NUM - 1 - n) 0 ∧
        st'.fir_coeffs.getD n 0 = st'.fir_coeffs.getD (FIR_TAP_NUM - 1 - n) 0 := by
  obtain ⟨d, hd, -, hraw⟩ := init_fir_design_spec Real.sin Real.cos Real.pi st hc hs
  obtain ⟨st', hst, -, -, -, htap, -⟩ := init_fir_filter_spec Real.sin Real.cos Real.pi st hc hs
  refine ⟨d, st', hd, hst, ?_⟩
  intro n hn
  simp only [FIR_TAP_NUM] at hn ⊢
  have h63 : 64 - 1 - n = 63 - n := by omega
  rw [h63, hraw n hn, hraw (63 - n) (by omega), htap n hn, htap (63 - n) (by omega),
    fir_raw_tap_reflect n (by omega)]
  exact ⟨rfl, rfl⟩

/-- Instance of `init_fir_filter_linear_phase` on the zero-initialised globals. -/
theorem init_fir_filter_linear_phase_witness :
    ∃ d st', forUp 0 ((FIR_TAP_NUM : Int) - 1 + 1)
        (init_fir_tap Real.sin Real.cos Real.pi)
        { coeffs := (fir_static : FirFilter ℝ).fir_coeffs
          state := (fir_static : FirFilter ℝ).fir_state, sum := 0 } = some d ∧
      init_fir_filter Real.sin Real.cos Real.pi (fir_static : FirFilter ℝ) = some st' ∧
      ∀ n : Nat, n < FIR_TAP_NUM →
        d.coeffs.getD n 0 = d.coeffs.getD (FIR_TAP_NUM - 1 - n) 0 ∧
        st'.fir_coeffs.getD n 0 = st'.fir_coeffs.getD (FIR_TAP_NUM - 1 - n) 0 :=
  init_fir_filter_linear_phase fir_static (List.length_replicate _ _)
    (List.length_replicate _ _)

end Symmetry

/-! ## The filter as one stream across buffers -/

section Stream

variable {F : Type} [LinearOrderedField F]

/-- The globals before call `n` depend only on the first `n` inputs. -/
theorem fir_before_congr (st : FirFilter F) (xs xs' : Nat → F) (n : Nat)
    (h : ∀ j, j < n → xs j = xs' j) : fir_before st xs n = fir_before st xs' n := by
  induction n with
  | zero => rfl
  | succ n ih =>
    simp only [fir_before, ih (fun j hj => h j (Nat.lt_succ_of_lt hj)), h n (Nat.lt_succ_self n)]

/-- The output of call `n` depends only on the inputs up to `n`. -/
theorem fir_output_congr (st : FirFilter F) (xs xs' : Nat → F) (n : Nat)
    (h : ∀ j, j ≤ n → xs j = xs' j) : fir_output st xs n = fir_output st xs' n := by
  simp only [fir_output, fir_before_congr st xs xs' n (fun j hj => h j (Nat.le_of_lt hj)),
    h n (Nat.le_refl n)]

/-- With a zero history and a valid cursor the streaming filter computes the direct
form. -/
theorem fir_output_zero_history (st : FirFilter F) (xs : Nat → F)
    (hc : st.fir_coeffs.length = 64) (hs : st.fir_state.length = 64)
    (h0 : 0 ≤ st.fir_idx) (h1 : st.fir_idx < 64)
    (hz : ∀ i : Nat, i < 64 → st.fir_state.getD i 0 = 0) (n : Nat) :
    fir_output st xs n = some (fir_direct_form st.fir_coeffs xs n) := by
  rw [fir_output_spec st xs hc hs h0 h1 n]
  simp only [fir_direct_form, FIR_TAP_NUM, list_range_map_sum, Option.some.injEq]
  apply Finset.sum_congr rfl
  intro i _
  congr 1
  split
  · rfl
  · have hlt : ((st.fir_idx + (n : Int) - (i : Int)) % 64).toNat < 64 := by omega
    exact hz _ hlt

/-- The normalised samples of a buffer, read by index. -/
theorem getD_map_norm (buf : List Nat) (n : Nat) :
    (buf.map fun (v : Nat) => (v : F) / 4095).getD n 0 = ((buf.getD n 0 : Nat) : F) / 4095 := by
  have h := List.getD_map buf 0 (n := n) (fun (v : Nat) => (v : F) / 4095)
  simpa using h

end Stream

section StreamClaim

variable {F : Type} [LinearOrderedField F] [FloorRing F]

/-- Claim C13. The filter runs as one continuous stream across buffers: for two buffers
`A` and `B` processed consecutively by `process_fft_buffer` starting from the
initialised state, the transform input built for `B` is
`fft_in[i] = (window_buf[i] * y (256 + i), 0)` for `i` in `0..255`, where `y` is the output
sequence of the filter on the 512 samples `A ++ B` (each divided by 4095), both as the
stream of `apply_fir` calls and as the direct form; the history is not reset between
the buffers. -/
theorem process_fft_buffer_stream (sqrtf log10f cosf sinf : F → F) (sqrt2 pi : F)
    (A B : List Nat) (hA : A.length = SAMPLE_NUM) (hB : B.length = SAMPLE_NUM) :
    ∃ g0 g1 g2, main_init sinf cosf pi (globals_static : Globals F) = some g0 ∧
      process_fft_buffer sqrtf log10f sqrt2 (forward_dft cosf sinf pi) A g0 = some g1 ∧
      process_fft_buffer sqrtf log10f sqrt2 (forward_dft cosf sinf pi) B g1 = some g2 ∧
      g2.window_buf = g0.window_buf ∧
      ∀ i : Nat, i < SAMPLE_NUM → ∃ y,
        fir_output g0.fir (fun n => (((A ++ B).getD n 0 : Nat) : F) / 4095) (SAMPLE_NUM + i)
          = some y ∧
        y = fir_direct_form g0.fir.fir_coeffs
          (fun n => (((A ++ B).getD n 0 : Nat) : F) / 4095) (SAMPLE_NUM + i) ∧
        g2.fft_in.getD i ⟨0, 0⟩ = ⟨g0.window_buf.getD i 0 * y, 0⟩ := by
  simp only [SAMPLE_NUM] at hA hB ⊢
  obtain ⟨g0, hg0, hwf0, hidx0, -, -, -, hz0⟩ := main_init_spec (F := F) sinf cosf pi
  obtain ⟨g1, -, -, -, hrun1, hwf1, hw1, hc1, hb1, -, -, -, -, -, -⟩ :=
    process_fft_raw_spec sqrtf log10f cosf sinf sqrt2 pi
      (A.map fun (v : Nat) => (v : F) / 4095) (by simpa using hA) g0 hwf0
  obtain ⟨g2, -, -, -, hrun2, hwf2, hw2, hc2, hb2, hfill2, -, -, -, -, -⟩ :=
    process_fft_raw_spec sqrtf log10f cosf sinf sqrt2 pi
      (B.map fun (v : Nat) => (v : F) / 4095) (by simpa using hB) g1 hwf1
  refine ⟨g0, g1, g2, hg0, hrun1, hrun2, by rw [hw2, hw1], ?_⟩
  intro i hi
  obtain ⟨y, hy1, hy2⟩ := hfill2 i hi
  have hbefore : fir_before g0.fir (fun n => (((A ++ B).getD n 0 : Nat) : F) / 4095) 256
      = some g1.fir := by
    rw [← hb1]
    apply fir_before_congr
    intro j hj
    rw [getD_map_norm, List.getD_append _ _ _ _ (by omega)]
  have hout : fir_output g0.fir (fun n => (((A ++ B).getD n 0 : Nat) : F) / 4095) (256 + i)
      = some y := by
    rw [fir_output_add g0.fir _ 256 i]
    rw [hbefore]
    rw [Option.some_bind]
    refine Eq.trans (fir_output_congr _ _ _ i ?_) hy1
    intro j hj
    have hidx : 256 + j - A.length = j := by omega
    rw [getD_map_norm, List.getD_append_right _ _ _ _ (by omega), hidx]
  obtain ⟨hc0, hs0, h00, h10, -⟩ := hwf0
  refine ⟨y, hout, ?_, ?_⟩
  · have h := fir_output_zero_history g0.fir
      (fun n => (((A ++ B).getD n 0 : Nat) : F) / 4095) hc0 hs0 h00 h10 hz0 (256 + i)
    rw [hout] at h
    exact Option.some.inj h
  · rw [hy2, hw1, mul_comm]

/-- Instance of `process_fft_buffer_stream` over `ℚ`: two constant buffers. -/
theorem process_fft_buffer_stream_witness :
    ∃ g0 g1 g2, main_init (fun x => x) (fun x => 1 - x) 3 (globals_static : Globals ℚ)
        = some g0 ∧
      process_fft_buffer (fun x => x) (fun x => x) 1
        (forward_dft (fun x => 1 - x) (fun x => x) 3) (List.replicate 256 100) g0 = some g1 ∧
      process_fft_buffer (fun x => x) (fun x => x) 1
        (forward_dft (fun x => 1 - x) (fun x => x) 3) (List.replicate 256 200) g1 = some g2 ∧
      g2.window_buf = g0.window_buf ∧
      ∀ i : Nat, i < SAMPLE_NUM → ∃ y,
        fir_output g0.fir
          (fun n => (((List.replicate 256 100 ++ List.replicate 256 200).getD n 0 : Nat) : ℚ)
            / 4095) (SAMPLE_NUM + i) = some y ∧
        y = fir_direct_form g0.fir.fir_coeffs
          (fun n => (((List.replicate 256 100 ++ List.replicate 256 200).getD n 0 : Nat) : ℚ)
            / 4095) (SAMPLE_NUM + i) ∧
        g2.fft_in.getD i ⟨0, 0⟩ = ⟨g0.window_buf.getD i 0 * y, 0⟩ :=
  process_fft_buffer_stream (fun x => x) (fun x => x) (fun x => 1 - x) (fun x => x) 1 3
    (List.replicate 256 100) (List.replicate 256 200) (List.length_replicate _ _)
    (List.length_replicate _ _)

end StreamClaim

/-! ## End-to-end: silence, and the range of the magnitudes -/

section Flat

variable {F : Type} [LinearOrderedField F] [FloorRing F]

/-- When every bar height is 0 the frame drawn by `draw_frame_dbm` is the cleared
frame buffer: no pixel statement is executed. -/
theorem draw_frame_dbm_flat (dBms : List F) (hlen : dBms.length = 128) (prior : FrameBuf)
    (hflat : ∀ i : Nat, i < 128 → bar_height (dBms.getD i 0) = 0) :
    draw_frame_dbm dBms prior = some (memset_zero prior) := by
  have hbins : (SAMPLE_NUM : Int) / 2 = 128 := by decide
  have hn : ((128 : Int) - 0).toNat = 128 := by decide
  simp only [draw_frame_dbm, hbins]
  obtain ⟨fb, hrun, hfb⟩ :=
    forUp_inv 0 128
      (fun (i : Int) (fb : FrameBuf) => do
        let d ← readAt dBms i
        let h := bar_height d
        forDown ((FRAME_HEIGHT : Int) - 1) ((FRAME_HEIGHT : Int) - h)
          (fun y fb => forUp (i * ((FRAME_WIDTH : Int) / 128))
            ((i + 1) * ((FRAME_WIDTH : Int) / 128)) (fun x fb => set_pixel fb y x) fb)
          fb)
      (fun _ s => s = memset_zero prior) (memset_zero prior) rfl
      (by
        intro k hk s hs
        rw [hn] at hk
        subst hs
        refine ⟨memset_zero prior, ?_, rfl⟩
        simp only [zero_add]
        rw [readAt_of_lt dBms k 0 (by omega)]
        simp only [Option.bind_eq_bind, Option.some_bind, hflat k hk]
        simp [forDown, FRAME_HEIGHT])
  rw [hrun, hfb]

end Flat

section Silence

open Real

/-- The power computed for magnitude 0 is -120 dBm. -/
theorem dBm_of_mag_zero : dBm_of_mag (Real.logb 10) (Real.sqrt 2) 0 = -120 := by
  simp only [dBm_of_mag, log10f_arg]
  rw [max_eq_right (by simp)]
  rw [one_div, Real.logb_inv, Real.logb_pow, Real.logb_self_eq_one (by norm_num)]
  norm_num

/-- The bar drawn for -120 dBm has height 0. -/
theorem bar_height_floor : bar_height (-120 : ℝ) = 0 := by
  rw [bar_height_eq]
  have h : ((-120 : ℝ) - MIN_DBM) / (MAX_DBM - MIN_DBM) = -(1 / 5) := by
    simp only [MIN_DBM, MAX_DBM]; norm_num
  rw [h, min_eq_right (by norm_num), max_eq_left (by norm_num)]
  simp [truncToInt]

/-- Claim C11. Starting from the freshly initialised filter state, `process_fft_buffer`
applied to a sample buffer of 256 zeros (with the forward DFT as transform, over `ℝ`)
leaves every byte of `framebuf` equal to 0, whatever the frame buffer held before:
every magnitude is 0, every power is -120 dBm, which normalises to -0.2, is clamped to 0
and gives bar height 0. -/
theorem process_fft_buffer_silence (fb : FrameBuf) (hfb : fb.WF) :
    ∃ g0 g1 m mags, main_init Real.sin Real.cos π (globals_static : Globals ℝ) = some g0 ∧
      fft_magnitudes Real.sqrt (forward_dft Real.cos Real.sin π)
        ((List.replicate SAMPLE_NUM 0).map fun (v : Nat) => (v : ℝ) / 4095)
        { g0 with framebuf := fb } = some (m, mags) ∧
      process_fft_buffer Real.sqrt (Real.logb 10) (Real.sqrt 2)
        (forward_dft Real.cos Real.sin π) (List.replicate SAMPLE_NUM 0)
        { g0 with framebuf := fb } = some g1 ∧
      (∀ i : Nat, i < 128 → mags.getD i 0 = 0) ∧
      (∀ i : Nat, i < 128 → g1.dBms.getD i 0 = -120) ∧
      ((-120 : ℝ) - MIN_DBM) / (MAX_DBM - MIN_DBM) = -(1 / 5) ∧
      bar_height (-120 : ℝ) = 0 ∧
      g1.framebuf = framebuf_fill 0 ∧
      ∀ row ∈ g1.framebuf, ∀ b ∈ row, b = 0 := by
  obtain ⟨g0, hg0, hwf0, hidx0, -, -, -, hz0⟩ := main_init_spec (F := ℝ) Real.sin Real.cos π
  have hwf : Globals.WF { g0 with framebuf := fb } := by
    obtain ⟨a1, a2, a3, a4, a5, a6, a7, -⟩ := hwf0
    exact ⟨a1, a2, a3, a4, a5, a6, a7, hfb⟩
  have hrl : ((List.replicate SAMPLE_NUM 0).map fun (v : Nat) => (v : ℝ) / 4095).length
      = 256 := by
    rw [List.length_map, List.length_replicate]; rfl
  obtain ⟨g1, m, mags, hm, hrun, hwf1, -, hc1, -, hfill, hout, hmags, hdb, hdraw, -⟩ :=
    process_fft_raw_spec Real.sqrt (Real.logb 10) Real.cos Real.sin (Real.sqrt 2) π
      _ hrl _ hwf
  have hraw : ∀ n : Nat,
      ((List.replicate SAMPLE_NUM 0).map fun (v : Nat) => (v : ℝ) / 4095).getD n 0 = 0 := by
    intro n
    rw [getD_map_norm]
    have h0 : (List.replicate SAMPLE_NUM 0).getD n 0 = 0 := by
      rw [List.getD_eq_getElem?_getD, List.getElem?_replicate]
      split <;> rfl
    rw [h0]; simp
  have hin : ∀ i : Nat, i < 256 → g1.fft_in.getD i ⟨0, 0⟩ = ⟨0, 0⟩ := by
    intro i hi
    obtain ⟨y, hy1, hy2⟩ := hfill i hi
    rw [fir_output_zero_history _ _ hwf.1 hwf.2.1 hwf.2.2.1 hwf.2.2.2.1 hz0] at hy1
    have hy : y = 0 := by
      rw [← Option.some.inj hy1]
      simp only [fir_direct_form, list_range_map_sum, hraw]
      simp
    rw [hy2, hy, zero_mul]
  have hlen : g1.fft_in.length = 256 := hwf1.2.2.2.2.2.1
  have hfo : ∀ k : Nat, k < 128 → g1.fft_out.getD k ⟨0, 0⟩ = ⟨0, 0⟩ := by
    intro k hk
    rw [hout, forward_dft_getD _ _ _ _ k (by omega), hlen]
    have h1 : ∀ n ∈ Finset.range 256, (g1.fft_in.getD n ⟨0, 0⟩).r *
          Real.cos (2 * π * (k : ℝ) * (n : ℝ) / ((256 : Nat) : ℝ)) +
        (g1.fft_in.getD n ⟨0, 0⟩).i *
          Real.sin (2 * π * (k : ℝ) * (n : ℝ) / ((256 : Nat) : ℝ)) = 0 := by
      intro n hn
      rw [hin n (Finset.mem_range.mp hn)]; simp
    have h2 : ∀ n ∈ Finset.range 256, (g1.fft_in.getD n ⟨0, 0⟩).i *
          Real.cos (2 * π * (k : ℝ) * (n : ℝ) / ((256 : Nat) : ℝ)) -
        (g1.fft_in.getD n ⟨0, 0⟩).r *
          Real.sin (2 * π * (k : ℝ) * (n : ℝ) / ((256 : Nat) : ℝ)) = 0 := by
      intro n hn
      rw [hin n (Finset.mem_range.mp hn)]; simp
    rw [Finset.sum_eq_zero h1, Finset.sum_eq_zero h2]
  have hmz : ∀ i : Nat, i < 128 → mags.getD i 0 = 0 := by
    intro i hi
    rw [hmags i hi, hfo i hi]
    simp
  have hdz : ∀ i : Nat, i < 128 → g1.dBms.getD i 0 = -120 := by
    intro i hi
    rw [hdb i hi, hmz i hi, dBm_of_mag_zero]
  have hflat := draw_frame_dbm_flat g1.dBms hwf1.2.2.2.2.2.2.1 fb
    (fun i hi => by rw [hdz i hi]; exact bar_height_floor)
  have hfbz : g1.framebuf = framebuf_fill 0 := by
    have h := hdraw
    simp only at h
    rw [hflat] at h
    rw [← Option.some.inj h, memset_zero_eq fb hfb]
    rfl
  refine ⟨g0, g1, m, mags, hg0, hm, hrun, hmz, hdz, ?_, bar_height_floor, hfbz, ?_⟩
  · simp only [MIN_DBM, MAX_DBM]; norm_num
  · intro row hrow b hb
    rw [hfbz] at hrow
    rw [List.eq_of_mem_replicate hrow] at hb
    exact List.eq_of_mem_replicate hb

/-- Instance of `process_fft_buffer_silence`: an all-ones frame buffer before the call. -/
theorem process_fft_buffer_silence_witness :
    ∃ g0 g1 m mags, main_init Real.sin Real.cos π (globals_static : Globals ℝ) = some g0 ∧
      fft_magnitudes Real.sqrt (forward_dft Real.cos Real.sin π)
        ((List.replicate SAMPLE_NUM 0).map fun (v : Nat) => (v : ℝ) / 4095)
        { g0 with framebuf := framebuf_fill 255 } = some (m, mags) ∧
      process_fft_buffer Real.sqrt (Real.logb 10) (Real.sqrt 2)
        (forward_dft Real.cos Real.sin π) (List.replicate SAMPLE_NUM 0)
        { g0 with framebuf := framebuf_fill 255 } = some g1 ∧
      (∀ i : Nat, i < 128 → mags.getD i 0 = 0) ∧
      (∀ i : Nat, i < 128 → g1.dBms.getD i 0 = -120) ∧
      ((-120 : ℝ) - MIN_DBM) / (MAX_DBM - MIN_DBM) = -(1 / 5) ∧
      bar_height (-120 : ℝ) = 0 ∧
      g1.framebuf = framebuf_fill 0 ∧
      ∀ row ∈ g1.framebuf, ∀ b ∈ row, b = 0 :=
  process_fft_buffer_silence (framebuf_fill 255) (framebuf_fill_WF 255)

end Silence

section Saturation

open Real

/-- The Hann coefficient is non-negative. -/
theorem hann_nonneg (x : ℝ) : 0 ≤ 1 / 2 * (1 - Real.cos x) := by
  have := Real.cos_le_one x; linarith

/-- The 128 Hann coefficients in the middle of the window are at least `1/2`. -/
theorem hann_middle_ge (j : Nat) (hj : j < 128) :
    (1 : ℝ) / 2 ≤ 1 / 2 * (1 - Real.cos (2 * π * ((64 + j : Nat) : ℝ) / 255)) := by
  have hj' : (j : ℝ) ≤ 127 := by exact_mod_cast Nat.lt_succ_iff.mp hj
  have hj0 : (0 : ℝ) ≤ j := Nat.cast_nonneg j
  have hpi := Real.pi_pos
  have hcos : Real.cos (2 * π * ((64 + j : Nat) : ℝ) / 255) ≤ 0 := by
    apply Real.cos_nonpos_of_pi_div_two_le_of_le
    · push_cast
      rw [le_div_iff₀ (by norm_num)]
      nlinarith
    · push_cast
      rw [div_le_iff₀ (by norm_num)]
      nlinarith
  linarith

/-- The Hann window sums to at least 64. -/
theorem hann_sum_ge :
    (64 : ℝ) ≤ ∑ n in Finset.range 256, 1 / 2 * (1 - Real.cos (2 * π * (n : ℝ) / 255)) := by
  have hsplit : ∑ n in Finset.range 256, 1 / 2 * (1 - Real.cos (2 * π * (n : ℝ) / 255))
      = ∑ n in Finset.range 64, 1 / 2 * (1 - Real.cos (2 * π * (n : ℝ) / 255))
        + ∑ j in Finset.range 192,
            1 / 2 * (1 - Real.cos (2 * π * ((64 + j : Nat) : ℝ) / 255)) :=
    Finset.sum_range_add (fun n => 1 / 2 * (1 - Real.cos (2 * π * (n : ℝ) / 255))) 64 192
  have hsplit2 : ∑ j in Finset.range 192,
        1 / 2 * (1 - Real.cos (2 * π * ((64 + j : Nat) : ℝ) / 255))
      = ∑ j in Finset.range 128,
          1 / 2 * (1 - Real.cos (2 * π * ((64 + j : Nat) : ℝ) / 255))
        + ∑ j in Finset.range 64,
            1 / 2 * (1 - Real.cos (2 * π * ((64 + (128 + j) : Nat) : ℝ) / 255)) :=
    Finset.sum_range_add
      (fun j => 1 / 2 * (1 - Real.cos (2 * π * ((64 + j : Nat) : ℝ) / 255))) 128 64
  have h1 : 0 ≤ ∑ n in Finset.range 64, 1 / 2 * (1 - Real.cos (2 * π * (n : ℝ) / 255)) :=
    Finset.sum_nonneg (fun _ _ => hann_nonneg _)
  have h3 : 0 ≤ ∑ j in Finset.range 64,
      1 / 2 * (1 - Real.cos (2 * π * ((64 + (128 + j) : Nat) : ℝ) / 255)) :=
    Finset.sum_nonneg (fun _ _ => hann_nonneg _)
  have h2 : (64 : ℝ) ≤ ∑ j in Finset.range 128,
      1 / 2 * (1 - Real.cos (2 * π * ((64 + j : Nat) : ℝ) / 255)) := by
    have hc : ∑ _j in Finset.range 128, (1 / 2 : ℝ) = 64 := by
      rw [Finset.sum_const, Finset.card_range]; norm_num
    rw [← hc]
    exact Finset.sum_le_sum (fun j hj => hann_middle_ge j (Finset.mem_range.mp hj))
  rw [hsplit, hsplit2]
  linarith

/-- Over `ℝ` the coefficients left by `init_fir_filter` sum to 1. -/
theorem init_fir_filter_coeff_sum (st st' : FirFilter ℝ)
    (hc : st.fir_coeffs.length = 64) (hs : st.fir_state.length = 64)
    (h : init_fir_filter Real.sin Real.cos π st = some st') :
    ∑ k in Finset.range 64, st'.fir_coeffs.getD k 0 = 1 := by
  obtain ⟨st1, hst1, -, -, -, htap, -⟩ := init_fir_filter_spec Real.sin Real.cos π st hc hs
  rw [h] at hst1
  obtain rfl : st' = st1 := Option.some.inj hst1
  rw [Finset.sum_congr rfl (fun i hi => htap i (Finset.mem_range.mp hi)), ← Finset.sum_div]
  exact div_self (ne_of_gt fir_raw_tap_sum_pos)

/-- Claim C12 fails on the code: when a full-scale buffer (256 samples of 4095) is processed
after another full-scale buffer, the magnitude that `process_fft_buffer` passes to
`convert_to_dBm` for bin 0 is the sum of the Hann window, at least 64, not a value in
`[0, 1]`: the transform output is not normalised. -/
theorem process_fft_buffer_magnitude_exceeds :
    ∃ g0 g1 g2 mags, main_init Real.sin Real.cos π (globals_static : Globals ℝ) = some g0 ∧
      process_fft_buffer Real.sqrt (Real.logb 10) (Real.sqrt 2)
        (forward_dft Real.cos Real.sin π) (List.replicate SAMPLE_NUM 4095) g0 = some g1 ∧
      fft_magnitudes Real.sqrt (forward_dft Real.cos Real.sin π)
        ((List.replicate SAMPLE_NUM 4095).map fun (v : Nat) => (v : ℝ) / 4095) g1
        = some (g2, mags) ∧
      64 ≤ mags.getD 0 0 := by
  obtain ⟨g0, hg0, hwf0, hidx0, -, hfir0, hwin0, hz0⟩ :=
    main_init_spec (F := ℝ) Real.sin Real.cos π
  have hrl : ((List.replicate SAMPLE_NUM 4095).map fun (v : Nat) => (v : ℝ) / 4095).length
      = 256 := by
    rw [List.length_map, List.length_replicate]; rfl
  have hraw : ∀ n : Nat, n < 256 →
      ((List.replicate SAMPLE_NUM 4095).map fun (v : Nat) => (v : ℝ) / 4095).getD n 0 = 1 := by
    intro n hn
    rw [getD_map_norm]
    have h0 : (List.replicate SAMPLE_NUM 4095).getD n 0 = 4095 := by
      rw [List.getD_eq_getElem?_getD, List.getElem?_replicate]
      simp [SAMPLE_NUM, hn]
    rw [h0]; norm_num
  obtain ⟨g1, -, -, -, hrun1, hwf1, hw1, hc1, hb1, -, -, -, -, -, -⟩ :=
    process_fft_raw_spec Real.sqrt (Real.logb 10) Real.cos Real.sin (Real.sqrt 2) π
      _ hrl g0 hwf0
  obtain ⟨g2, mags, hm, -, hwf2, hw2, -, -, -, -, hfill, hout, hmags⟩ :=
    fft_magnitudes_spec Real.sqrt Real.cos Real.sin π _ hrl g1 hwf1
  refine ⟨g0, g1, g2, mags, hg0, hrun1, hm, ?_⟩
  obtain ⟨hc0, hs0, h00, h10, -⟩ := hwf0
  have hsum := init_fir_filter_coeff_sum fir_static g0.fir (List.length_replicate _ _)
    (List.length_replicate _ _) hfir0
  -- every filtered sample of the second buffer is 1
  have hy : ∀ i : Nat, i < 256 →
      fir_output g1.fir (fun n =>
        ((List.replicate SAMPLE_NUM 4095).map fun (v : Nat) => (v : ℝ) / 4095).getD n 0) i
        = some 1 := by
    intro i hi
    have hbefore : fir_before g0.fir (fun _ => (1 : ℝ)) 256 = some g1.fir := by
      rw [← hb1]
      exact fir_before_congr _ _ _ _ (fun j hj => (hraw j hj).symm)
    have h1 : fir_output g0.fir (fun _ => (1 : ℝ)) (256 + i) = some 1 := by
      rw [fir_output_zero_history _ _ hc0 hs0 h00 h10 hz0]
      simp only [fir_direct_form, FIR_TAP_NUM, list_range_map_sum]
      have hall : ∀ k ∈ Finset.range 64, g0.fir.fir_coeffs.getD k 0 *
          (if k ≤ 256 + i then (1 : ℝ) else 0) = g0.fir.fir_coeffs.getD k 0 := by
        intro k hk
        have hk' : k ≤ 256 + i := by have := Finset.mem_range.mp hk; omega
        rw [if_pos hk', mul_one]
      rw [Finset.sum_congr rfl hall, hsum]
    rw [fir_output_add g0.fir _ 256 i, hbefore, Option.some_bind] at h1
    rw [← h1]
    exact fir_output_congr _ _ _ _ (fun j hj => hraw j (by omega))
  -- the window
  obtain ⟨w, hw, -, hwfill⟩ := init_hanning_window_spec Real.cos π
    (List.replicate SAMPLE_NUM (0 : ℝ)) (List.length_replicate _ _)
  rw [hwin0] at hw
  obtain rfl : g0.window_buf = w := Option.some.inj hw
  have hin : ∀ i : Nat, i < 256 → g2.fft_in.getD i ⟨0, 0⟩ =
      ⟨1 / 2 * (1 - Real.cos (2 * π * (i : ℝ) / 255)), 0⟩ := by
    intro i hi
    obtain ⟨y, hy1, hy2⟩ := hfill i hi
    rw [hy i hi] at hy1
    rw [hy2, ← Option.some.inj hy1, one_mul, hw1, hwfill i hi]
  have hlen : g2.fft_in.length = 256 := hwf2.2.2.2.2.2.1
  have hbin0 : g2.fft_out.getD 0 ⟨0, 0⟩ =
      ⟨∑ n in Finset.range 256, 1 / 2 * (1 - Real.cos (2 * π * (n : ℝ) / 255)), 0⟩ := by
    rw [hout, forward_dft_getD _ _ _ _ 0 (by omega), hlen]
    have h1 : ∀ n ∈ Finset.range 256, (g2.fft_in.getD n ⟨0, 0⟩).r *
          Real.cos (2 * π * ((0 : Nat) : ℝ) * (n : ℝ) / ((256 : Nat) : ℝ)) +
        (g2.fft_in.getD n ⟨0, 0⟩).i *
          Real.sin (2 * π * ((0 : Nat) : ℝ) * (n : ℝ) / ((256 : Nat) : ℝ))
        = 1 / 2 * (1 - Real.cos (2 * π * (n : ℝ) / 255)) := by
      intro n hn
      rw [hin n (Finset.mem_range.mp hn)]; simp
    have h2 : ∀ n ∈ Finset.range 256, (g2.fft_in.getD n ⟨0, 0⟩).i *
          Real.cos (2 * π * ((0 : Nat) : ℝ) * (n : ℝ) / ((256 : Nat) : ℝ)) -
        (g2.fft_in.getD n ⟨0, 0⟩).r *
          Real.sin (2 * π * ((0 : Nat) : ℝ) * (n : ℝ) / ((256 : Nat) : ℝ)) = 0 := by
      intro n hn
      rw [hin n (Finset.mem_range.mp hn)]; simp
    rw [Finset.sum_congr rfl h1, Finset.sum_eq_zero h2]
  rw [hmags 0 (by omega), hbin0]
  simp only [mul_zero, add_zero]
  rw [Real.sqrt_mul_self (le_trans (by norm_num) hann_sum_ge)]
  exact hann_sum_ge

end Saturation

/-! ## Buffer hand-over: flags and counts -/

section BridgeLemmas

theorem bridge_run_append (b : Bridge) (es1 es2 : List BridgeEvent) :
    bridge_run b (es1 ++ es2) = bridge_run (bridge_run b es1) es2 := by
  simp [bridge_run, List.foldl_append]

theorem bridge_run_cons (b : Bridge) (e : BridgeEvent) (es : List BridgeEvent) :
    bridge_run b (e :: es) = bridge_run (bridge_step b e) es := rfl

/-- The accounting invariant is preserved by every step. -/
theorem BridgeInv.step {b : Bridge} (h : BridgeInv b) (e : BridgeEvent) :
    BridgeInv (bridge_step b e) := by
  obtain ⟨f0, f1, pc, nx, r0, r1, p0, p1, m0, m1⟩ := b
  obtain ⟨h0, h1, h2, h3⟩ := h
  simp only [pending0, pending1] at h0 h1
  simp only at h2 h3
  cases e <;> cases pc <;> cases f0 <;> cases f1 <;> cases nx <;>
    simp_all [BridgeInv, bridge_step, dma_complete, dma_handler, poll_step, pending0, pending1] <;>
    omega

theorem BridgeInv.run {b : Bridge} (h : BridgeInv b) (es : List BridgeEvent) :
    BridgeInv (bridge_run b es) := by
  induction es generalizing b with
  | nil => exact h
  | cons e es ih => exact ih (h.step e)

theorem bridge_init_inv : BridgeInv bridge_init := by
  simp [BridgeInv, bridge_init, pending0, pending1]

/-- The count of merged notifications never decreases. -/
theorem merged0_mono_step (b : Bridge) (e : BridgeEvent) :
    b.merged0 ≤ (bridge_step b e).merged0 := by
  obtain ⟨f0, f1, pc, nx, r0, r1, p0, p1, m0, m1⟩ := b
  cases e <;> cases pc <;> cases f0 <;> cases f1 <;> cases nx <;>
    simp [bridge_step, dma_complete, dma_handler, poll_step]

theorem merged0_mono_run (b : Bridge) (es : List BridgeEvent) :
    b.merged0 ≤ (bridge_run b es).merged0 := by
  induction es generalizing b with
  | nil => exact le_refl _
  | cons e es ih => exact le_trans (merged0_mono_step b e) (ih (bridge_step b e))

/-- A poll-loop action keeps the spaced-schedule invariant and uses up one of the
required actions. -/
theorem spaced_inv_poll {need : Nat} {b : Bridge} (h : SpacedInv need b) :
    SpacedInv (need - 1) (poll_step b) := by
  obtain ⟨f0, f1, pc, nx, r0, r1, p0, p1, m0, m1⟩ := b
  obtain ⟨hn, h⟩ := h
  interval_cases need <;> cases pc <;> cases f0 <;> cases f1 <;> cases nx <;>
    simp_all [SpacedInv, poll_step]

/-- A completion that arrives after the three required poll actions finds both flags
clear. -/
theorem spaced_inv_dma {b : Bridge} (h : SpacedInv 0 b) : SpacedInv 3 (dma_complete b) := by
  obtain ⟨f0, f1, pc, nx, r0, r1, p0, p1, m0, m1⟩ := b
  obtain ⟨hn, h⟩ := h
  cases pc <;> cases f0 <;> cases f1 <;> cases nx <;>
    simp_all [SpacedInv, dma_complete, dma_handler]

theorem spaced_inv_at_most_one {need : Nat} {b : Bridge} (h : SpacedInv need b) :
    ¬ (b.buf0_ready = true ∧ b.buf1_ready = true) := by
  obtain ⟨f0, f1, pc, nx, r0, r1, p0, p1, m0, m1⟩ := b
  obtain ⟨hn, h⟩ := h
  cases f0 <;> cases f1 <;> cases nx <;> simp_all

theorem spaced_inv_run {need : Nat} {b : Bridge} (h : SpacedInv need b)
    (es : List BridgeEvent) (hs : spaced 3 need es = true) :
    SpacedInv (es.foldl (fun n e => match e with
      | BridgeEvent.poll => n - 1
      | BridgeEvent.dma => 3) need) (bridge_run b es) := by
  induction es generalizing need b with
  | nil => exact h
  | cons e es ih =>
    cases e with
    | dma =>
      simp only [spaced, Bool.and_eq_true, decide_eq_true_eq] at hs
      obtain ⟨h0, hs⟩ := hs
      subst h0
      exact ih (spaced_inv_dma h) hs
    | poll =>
      simp only [spaced] at hs
      exact ih (spaced_inv_poll h) hs

theorem bridge_init_spaced : SpacedInv 0 bridge_init := by
  simp [SpacedInv, bridge_init]

/-- Eight poll-loop actions with no completion in between consume everything that is
pending: the flags are clear, the loop is at a test, and the counters of raised and
merged notifications are unchanged. -/
theorem poll_eight_quiet (b : Bridge) (h : BridgeInv b) :
    pending0 (bridge_run b (List.replicate 8 BridgeEvent.poll)) = 0 ∧
    pending1 (bridge_run b (List.replicate 8 BridgeEvent.poll)) = 0 ∧
    ((bridge_run b (List.replicate 8 BridgeEvent.poll)).pc = PollPc.test0 ∨
      (bridge_run b (List.replicate 8 BridgeEvent.poll)).pc = PollPc.test1) ∧
    (bridge_run b (List.replicate 8 BridgeEvent.poll)).raised0 = b.raised0 ∧
    (bridge_run b (List.replicate 8 BridgeEvent.poll)).raised1 = b.raised1 ∧
    (bridge_run b (List.replicate 8 BridgeEvent.poll)).merged0 = b.merged0 ∧
    (bridge_run b (List.replicate 8 BridgeEvent.poll)).merged1 = b.merged1 := by
  obtain ⟨f0, f1, pc, nx, r0, r1, p0, p1, m0, m1⟩ := b
  obtain ⟨-, -, h2, h3⟩ := h
  simp only at h2 h3
  cases pc <;> cases f0 <;> cases f1 <;>
    simp [bridge_run, List.replicate, bridge_step, poll_step, pending0, pending1] at h2 h3 ⊢

/-- A poll-loop action in a state with nothing pending changes only the position of the
loop, which stays at a test. -/
theorem poll_quiet_step (b : Bridge) (h0 : pending0 b = 0) (h1 : pending1 b = 0)
    (hpc : b.pc = PollPc.test0 ∨ b.pc = PollPc.test1) :
    pending0 (poll_step b) = 0 ∧ pending1 (poll_step b) = 0 ∧
    ((poll_step b).pc = PollPc.test0 ∨ (poll_step b).pc = PollPc.test1) ∧
    (poll_step b).raised0 = b.raised0 ∧ (poll_step b).raised1 = b.raised1 ∧
    (poll_step b).merged0 = b.merged0 ∧ (poll_step b).merged1 = b.merged1 := by
  obtain ⟨f0, f1, pc, nx, r0, r1, p0, p1, m0, m1⟩ := b
  cases pc <;> cases f0 <;> cases f1 <;>
    simp [poll_step, pending0, pending1] at h0 h1 hpc ⊢

theorem poll_quiet_run (n : Nat) (b : Bridge) (h0 : pending0 b = 0) (h1 : pending1 b = 0)
    (hpc : b.pc = PollPc.test0 ∨ b.pc = PollPc.test1) :
    pending0 (bridge_run b (List.replicate n BridgeEvent.poll)) = 0 ∧
    pending1 (bridge_run b (List.replicate n BridgeEvent.poll)) = 0 ∧
    (bridge_run b (List.replicate n BridgeEvent.poll)).raised0 = b.raised0 ∧
    (bridge_run b (List.replicate n BridgeEvent.poll)).raised1 = b.raised1 ∧
    (bridge_run b (List.replicate n BridgeEvent.poll)).merged0 = b.merged0 ∧
    (bridge_run b (List.replicate n BridgeEvent.poll)).merged1 = b.merged1 := by
  induction n generalizing b with
  | zero => exact ⟨h0, h1, rfl, rfl, rfl, rfl⟩
  | succ n ih =>
    obtain ⟨a0, a1, apc, a2, a3, a4, a5⟩ := poll_quiet_step b h0 h1 hpc
    obtain ⟨c0, c1, c2, c3, c4, c5⟩ := ih (poll_step b) a0 a1 apc
    rw [List.replicate_succ, bridge_run_cons]
    exact ⟨c0, c1, c2.trans a2, c3.trans a3, c4.trans a4, c5.trans a5⟩

/-- From a state satisfying the accounting invariant, any eight or more poll-loop actions
with no completion in between leave nothing pending. -/
theorem poll_catches_up (b : Bridge) (h : BridgeInv b) (n : Nat) (hn : 8 ≤ n) :
    pending0 (bridge_run b (List.replicate n BridgeEvent.poll)) = 0 ∧
    pending1 (bridge_run b (List.replicate n BridgeEvent.poll)) = 0 ∧
    (bridge_run b (List.replicate n BridgeEvent.poll)).raised0 = b.raised0 ∧
    (bridge_run b (List.replicate n BridgeEvent.poll)).raised1 = b.raised1 ∧
    (bridge_run b (List.replicate n BridgeEvent.poll)).merged0 = b.merged0 ∧
    (bridge_run b (List.replicate n BridgeEvent.poll)).merged1 = b.merged1 ∧
    (bridge_run b (List.replicate n BridgeEvent.poll)).processed0 + b.merged0 = b.raised0 ∧
    (bridge_run b (List.replicate n BridgeEvent.poll)).processed1 + b.merged1 = b.raised1 := by
  obtain ⟨m, rfl⟩ : ∃ m, n = 8 + m := ⟨n - 8, by omega⟩
  have hinv := h.run (List.replicate (8 + m) BridgeEvent.poll)
  rw [List.replicate_add, bridge_run_append] at hinv ⊢
  obtain ⟨a0, a1, apc, a2, a3, a4, a5⟩ := poll_eight_quiet b h
  obtain ⟨c0, c1, c2, c3, c4, c5⟩ :=
    poll_quiet_run m (bridge_run b (List.replicate 8 BridgeEvent.poll)) a0 a1 apc
  obtain ⟨i0, i1, -, -⟩ := hinv
  refine ⟨c0, c1, c2.trans a2, c3.trans a3, c4.trans a4, c5.trans a5, ?_, ?_⟩
  · rw [c0, c2, a2, c4, a4] at i0; omega
  · rw [c1, c3, a3, c5, a5] at i1; omega

/-- A prefix of a run that satisfies the schedule condition satisfies it. -/
theorem spaced_take (gap : Nat) (es : List BridgeEvent) (need k : Nat)
    (h : spaced gap need es = true) : spaced gap need (es.take k) = true := by
  induction es generalizing need k with
  | nil => simp [spaced]
  | cons e es ih =>
    cases k with
    | zero => simp [spaced]
    | succ k =>
      cases e with
      | dma =>
        simp only [spaced, Bool.and_eq_true, decide_eq_true_eq, List.take_succ_cons] at h ⊢
        exact ⟨h.1, ih _ _ h.2⟩
      | poll =>
        simp only [spaced, List.take_succ_cons] at h ⊢
        exact ih _ _ h

/-- With only two poll-loop actions between completions both flags can be set: the third
action is the one that clears the flag. -/
theorem bridge_two_apart_both_ready :
    spaced 2 0 [BridgeEvent.dma, BridgeEvent.poll, BridgeEvent.poll, BridgeEvent.dma,
      BridgeEvent.poll, BridgeEvent.poll, BridgeEvent.dma] = true ∧
    (bridge_run bridge_init [BridgeEvent.dma, BridgeEvent.poll, BridgeEvent.poll,
      BridgeEvent.dma, BridgeEvent.poll, BridgeEvent.poll, BridgeEvent.dma]).buf0_ready = true ∧
    (bridge_run bridge_init [BridgeEvent.dma, BridgeEvent.poll, BridgeEvent.poll,
      BridgeEvent.dma, BridgeEvent.poll, BridgeEvent.poll, BridgeEvent.dma]).buf1_ready = true := by
  decide

end BridgeLemmas

section BridgeClaims

/-- Claim C14 as stated fails: two completions with no poll action between them leave both
`buf0_ready` and `buf1_ready` set. -/
theorem bridge_both_ready :
    (bridge_run bridge_init [BridgeEvent.dma, BridgeEvent.dma]).buf0_ready = true ∧
    (bridge_run bridge_init [BridgeEvent.dma, BridgeEvent.dma]).buf1_ready = true := by
  decide

/-- Claim C14, amended. In the step relation whose steps are a DMA completion
notification (`dma_handler` sets `buf0_ready` or `buf1_ready`, the two channels
completing alternately) and a poll-loop action of `main` (test a flag, clear it, process
that buffer), every state reached along a run in which at least three poll-loop actions
are executed between any two consecutive completion notifications has at most one of
`buf0_ready` and `buf1_ready` set: within three actions the loop reaches and executes the
statement that clears the flag raised last. -/
theorem bridge_at_most_one_ready (es : List BridgeEvent) (hs : spaced 3 0 es = true)
    (k : Nat) :
    ¬ ((bridge_run bridge_init (es.take k)).buf0_ready = true ∧
       (bridge_run bridge_init (es.take k)).buf1_ready = true) :=
  spaced_inv_at_most_one (spaced_inv_run bridge_init_spaced (es.take k)
    (spaced_take 3 es 0 k hs))

/-- Instance of `bridge_at_most_one_ready`: three completions, three and four poll
actions apart; the state after the third completion. -/
theorem bridge_at_most_one_ready_witness :
    spaced 3 0 [BridgeEvent.dma, BridgeEvent.poll, BridgeEvent.poll, BridgeEvent.poll,
      BridgeEvent.dma, BridgeEvent.poll, BridgeEvent.poll, BridgeEvent.poll,
      BridgeEvent.poll, BridgeEvent.dma, BridgeEvent.poll] = true ∧
    ¬ ((bridge_run bridge_init ([BridgeEvent.dma, BridgeEvent.poll, BridgeEvent.poll,
        BridgeEvent.poll, BridgeEvent.dma, BridgeEvent.poll, BridgeEvent.poll,
        BridgeEvent.poll, BridgeEvent.poll, BridgeEvent.dma,
        BridgeEvent.poll].take 10)).buf0_ready = true ∧
       (bridge_run bridge_init ([BridgeEvent.dma, BridgeEvent.poll, BridgeEvent.poll,
        BridgeEvent.poll, BridgeEvent.dma, BridgeEvent.poll, BridgeEvent.poll,
        BridgeEvent.poll, BridgeEvent.poll, BridgeEvent.dma,
        BridgeEvent.poll].take 10)).buf1_ready = true) :=
  ⟨by decide, bridge_at_most_one_ready _ (by decide) 10⟩

/-- Claim C15, amended. In every interleaving of completion notifications and poll-loop
actions: the number of times a buffer has been processed never exceeds the number of
notifications raised for it, and the difference is exactly the buffers still pending
plus the notifications that were raised while the flag was already set (those are
merged into one, counted by `merged0` and `merged1`, and never consumed);
`process_fft_buffer` runs on buffer `k` only from the position after the statement
clearing flag `k`, that position is entered only by clearing a flag that is set, and each
run counts once; a notification is merged only by a completion that finds the flag of
its buffer still set; and the poll loop catches up: after any eight or more poll-loop
actions with no completion in between nothing is pending, so that the number of times
buffer `k` was processed equals the number of notifications raised for it minus the
merged ones, and equals the number raised when none was merged. -/
theorem bridge_consumption (es : List BridgeEvent) :
    (bridge_run bridge_init es).processed0 ≤ (bridge_run bridge_init es).raised0 ∧
    (bridge_run bridge_init es).processed1 ≤ (bridge_run bridge_init es).raised1 ∧
    (bridge_run bridge_init es).raised0 = (bridge_run bridge_init es).processed0 +
      pending0 (bridge_run bridge_init es) + (bridge_run bridge_init es).merged0 ∧
    (bridge_run bridge_init es).raised1 = (bridge_run bridge_init es).processed1 +
      pending1 (bridge_run bridge_init es) + (bridge_run bridge_init es).merged1 ∧
    (∀ e : BridgeEvent,
      (bridge_step (bridge_run bridge_init es) e).processed0 ≠
          (bridge_run bridge_init es).processed0 →
        e = BridgeEvent.poll ∧ (bridge_run bridge_init es).pc = PollPc.process0 ∧
        (bridge_step (bridge_run bridge_init es) e).processed0 =
          (bridge_run bridge_init es).processed0 + 1) ∧
    (∀ e : BridgeEvent,
      (bridge_step (bridge_run bridge_init es) e).processed1 ≠
          (bridge_run bridge_init es).processed1 →
        e = BridgeEvent.poll ∧ (bridge_run bridge_init es).pc = PollPc.process1 ∧
        (bridge_step (bridge_run bridge_init es) e).processed1 =
          (bridge_run bridge_init es).processed1 + 1) ∧
    (∀ e : BridgeEvent, (bridge_run bridge_init es).pc ≠ PollPc.process0 →
      (bridge_step (bridge_run bridge_init es) e).pc = PollPc.process0 →
        e = BridgeEvent.poll ∧ (bridge_run bridge_init es).pc = PollPc.clear0 ∧
        (bridge_run bridge_init es).buf0_ready = true ∧
        (bridge_step (bridge_run bridge_init es) e).buf0_ready = false) ∧
    (∀ e : BridgeEvent, (bridge_run bridge_init es).pc ≠ PollPc.process1 →
      (bridge_step (bridge_run bridge_init es) e).pc = PollPc.process1 →
        e = BridgeEvent.poll ∧ (bridge_run bridge_init es).pc = PollPc.clear1 ∧
        (bridge_run bridge_init es).buf1_ready = true ∧
        (bridge_step (bridge_run bridge_init es) e).buf1_ready = false) ∧
    (∀ e : BridgeEvent,
      (bridge_step (bridge_run bridge_init es) e).merged0 ≠
          (bridge_run bridge_init es).merged0 →
        e = BridgeEvent.dma ∧ (bridge_run bridge_init es).next_is_chan1 = false ∧
        (bridge_run bridge_init es).buf0_ready = true) ∧
    (∀ e : BridgeEvent,
      (bridge_step (bridge_run bridge_init es) e).merged1 ≠
          (bridge_run bridge_init es).merged1 →
        e = BridgeEvent.dma ∧ (bridge_run bridge_init es).next_is_chan1 = true ∧
        (bridge_run bridge_init es).buf1_ready = true) ∧
    (∀ n : Nat, 8 ≤ n →
      pending0 (bridge_run bridge_init (es ++ List.replicate n BridgeEvent.poll)) = 0 ∧
      pending1 (bridge_run bridge_init (es ++ List.replicate n BridgeEvent.poll)) = 0 ∧
      (bridge_run bridge_init (es ++ List.replicate n BridgeEvent.poll)).raised0 =
        (bridge_run bridge_init es).raised0 ∧
      (bridge_run bridge_init (es ++ List.replicate n BridgeEvent.poll)).raised1 =
        (bridge_run bridge_init es).raised1 ∧
      (bridge_run bridge_init (es ++ List.replicate n BridgeEvent.poll)).merged0 =
        (bridge_run bridge_init es).merged0 ∧
      (bridge_run bridge_init (es ++ List.replicate n BridgeEvent.poll)).merged1 =
        (bridge_run bridge_init es).merged1 ∧
      (bridge_run bridge_init (es ++ List.replicate n BridgeEvent.poll)).processed0 +
        (bridge_run bridge_init es).merged0 = (bridge_run bridge_init es).raised0 ∧
      (bridge_run bridge_init (es ++ List.replicate n BridgeEvent.poll)).processed1 +
        (bridge_run bridge_init es).merged1 = (bridge_run bridge_init es).raised1 ∧
      ((bridge_run bridge_init es).merged0 = 0 →
        (bridge_run bridge_init (es ++ List.replicate n BridgeEvent.poll)).processed0 =
          (bridge_run bridge_init (es ++ List.replicate n BridgeEvent.poll)).raised0) ∧
      ((bridge_run bridge_init es).merged1 = 0 →
        (bridge_run bridge_init (es ++ List.replicate n BridgeEvent.poll)).processed1 =
          (bridge_run bridge_init (es ++ List.replicate n BridgeEvent.poll)).raised1)) := by
  have hprog : ∀ n : Nat, 8 ≤ n → _ := fun n hn =>
    poll_catches_up (bridge_run bridge_init es) (bridge_init_inv.run es) n hn
  simp only [bridge_run_append]
  have hinv := bridge_init_inv.run es
  generalize bridge_run bridge_init es = b at hinv hprog
  obtain ⟨h0, h1, h2, h3⟩ := hinv
  refine ⟨by omega, by omega, h0, h1, ?_, ?_, ?_, ?_, ?_, ?_, ?_⟩
  · intro e
    obtain ⟨f0, f1, pc, nx, r0, r1, p0, p1, m0, m1⟩ := b
    cases e <;> cases pc <;> cases f0 <;> cases f1 <;> cases nx <;>
      simp [bridge_step, dma_complete, dma_handler, poll_step]
  · intro e
    obtain ⟨f0, f1, pc, nx, r0, r1, p0, p1, m0, m1⟩ := b
    cases e <;> cases pc <;> cases f0 <;> cases f1 <;> cases nx <;>
      simp [bridge_step, dma_complete, dma_handler, poll_step]
  · intro e
    clear h0 h1 h3 hprog
    obtain ⟨f0, f1, pc, nx, r0, r1, p0, p1, m0, m1⟩ := b
    simp only at h2
    cases e <;> cases pc <;> cases f0 <;> cases f1 <;> cases nx <;>
      simp [bridge_step, dma_complete, dma_handler, poll_step] at h2 ⊢
  · intro e
    clear h0 h1 h2 hprog
    obtain ⟨f0, f1, pc, nx, r0, r1, p0, p1, m0, m1⟩ := b
    simp only at h3
    cases e <;> cases pc <;> cases f0 <;> cases f1 <;> cases nx <;>
      simp [bridge_step, dma_complete, dma_handler, poll_step] at h3 ⊢
  · intro e
    clear h0 h1 h2 h3 hprog
    obtain ⟨f0, f1, pc, nx, r0, r1, p0, p1, m0, m1⟩ := b
    cases e <;> cases pc <;> cases f0 <;> cases f1 <;> cases nx <;>
      simp [bridge_step, dma_complete, dma_handler, poll_step]
  · intro e
    clear h0 h1 h2 h3 hprog
    obtain ⟨f0, f1, pc, nx, r0, r1, p0, p1, m0, m1⟩ := b
    cases e <;> cases pc <;> cases f0 <;> cases f1 <;> cases nx <;>
      simp [bridge_step, dma_complete, dma_handler, poll_step]
  · intro n hn
    obtain ⟨a0, a1, a2, a3, a4, a5, a6, a7⟩ := hprog n hn
    refine ⟨a0, a1, a2, a3, a4, a5, a6, a7, ?_, ?_⟩
    · intro hm; rw [a2]; omega
    · intro hm; rw [a3]; omega

/-- Claim C15 as stated fails: after the completions of channel 0, channel 1 and channel 0
again with no poll action in between, the second notification for buffer 0 is merged
into the flag that is already set, and no continuation of the run brings the number of
times buffer 0 was processed up to the number of notifications raised for it. -/
theorem bridge_never_catches_up :
    ¬ ∃ es : List BridgeEvent,
      (bridge_run bridge_init
        ([BridgeEvent.dma, BridgeEvent.dma, BridgeEvent.dma] ++ es)).raised0 ≤
      (bridge_run bridge_init
        ([BridgeEvent.dma, BridgeEvent.dma, BridgeEvent.dma] ++ es)).processed0 := by
  rintro ⟨es, h⟩
  rw [bridge_run_append] at h
  have hinv := (bridge_init_inv.run
    [BridgeEvent.dma, BridgeEvent.dma, BridgeEvent.dma]).run es
  have hm := merged0_mono_run
    (bridge_run bridge_init [BridgeEvent.dma, BridgeEvent.dma, BridgeEvent.dma]) es
  have h1 : (bridge_run bridge_init
      [BridgeEvent.dma, BridgeEvent.dma, BridgeEvent.dma]).merged0 = 1 := by decide
  rw [h1] at hm
  have := hinv.1
  omega

end BridgeClaims

/-! ## The tone scenario: sums of the Hann window -/

section ToneAnalysis

open Real

end ToneAnalysis

section ToneSums

open Real

end ToneSums

section ToneGain

open Real

end ToneGain

section ToneTaps

open Real

end ToneTaps

/-! ## The tone scenario through the pipeline -/

section ToneModel

open Real

end ToneModel

/-! ## The rasteriser in binary32 arithmetic -/

section Float

theorem round_half_even_cases (q : ℚ) :
    round_half_even q = ⌊q⌋ ∨ round_half_even q = ⌊q⌋ + 1 := by
  unfold round_half_even
  split_ifs <;> simp

theorem round_half_even_nonneg (q : ℚ) (h : 0 ≤ q) : 0 ≤ round_half_even q := by
  have hf : 0 ≤ ⌊q⌋ := Int.floor_nonneg.mpr h
  rcases round_half_even_cases q with h1 | h1 <;> rw [h1] <;> omega

theorem round_half_even_le (q : ℚ) (k : Int) (h : q ≤ k) : round_half_even q ≤ k := by
  have hf : ⌊q⌋ ≤ k := by
    have := Int.floor_le q
    exact_mod_cast (Int.floor_le q).trans h |> fun h' => Int.cast_le.mp h'
  rcases lt_or_eq_of_le hf with hlt | heq
  · rcases round_half_even_cases q with h1 | h1 <;> rw [h1] <;> omega
  · have hq : q - ⌊q⌋ < 1 / 2 := by
      rw [heq]; linarith
    unfold round_half_even
    rw [if_pos hq, heq]

theorem round_half_even_of_lt (q : ℚ) (f : Int) (h1 : (f : ℚ) ≤ q) (h2 : q < f + 1 / 2) :
    round_half_even q = f := by
  have hf : ⌊q⌋ = f := by
    rw [Int.floor_eq_iff]; exact ⟨h1, by linarith⟩
  unfold round_half_even
  rw [hf, if_pos (by linarith)]

theorem f32_exponent_eq (q : ℚ) (e : Int) (h1 : (2 : ℚ) ^ e ≤ |q|) (h2 : |q| < 2 ^ (e + 1))
    (h3 : -126 ≤ e) : f32_exponent q = e := by
  have hpos : 0 < |q| := lt_of_lt_of_le (by positivity) h1
  have hlog : Int.log 2 |q| = e := by
    apply le_antisymm
    · have := (Int.lt_zpow_iff_log_lt (b := 2) (by norm_num) hpos).mp (by exact_mod_cast h2)
      omega
    · exact (Int.zpow_le_iff_le_log (b := 2) (by norm_num) hpos).mp (by exact_mod_cast h1)
  unfold f32_exponent
  rw [hlog]; exact max_eq_left h3

theorem f32_exponent_le (q : ℚ) (e : Int) (h2 : |q| < 2 ^ (e + 1)) (h3 : 0 ≤ e) :
    f32_exponent q ≤ e := by
  unfold f32_exponent
  apply max_le _ (by omega)
  rcases eq_or_lt_of_le (abs_nonneg q) with h0 | hpos
  · rw [← h0]; simp; omega
  · have := (Int.lt_zpow_iff_log_lt (b := 2) (by norm_num) hpos).mp (by exact_mod_cast h2)
    omega

theorem round_f32_nonneg (q : ℚ) (h : 0 ≤ q) : 0 ≤ round_f32 q := by
  unfold round_f32
  have hu : (0 : ℚ) < 2 ^ (f32_exponent q - 23) := by positivity
  have := round_half_even_nonneg (q / 2 ^ (f32_exponent q - 23)) (div_nonneg h hu.le)
  have h' : (0 : ℚ) ≤ (round_half_even (q / 2 ^ (f32_exponent q - 23)) : ℚ) := by
    exact_mod_cast this
  exact mul_nonneg h' hu.le

/-- Rounding to binary32 does not pass a value of the grid of the operand. -/
theorem round_f32_le_grid (q c : ℚ) (k : Int) (hk : c = (k : ℚ) * 2 ^ (f32_exponent q - 23))
    (h : q ≤ c) : round_f32 q ≤ c := by
  unfold round_f32
  have hu : (0 : ℚ) < 2 ^ (f32_exponent q - 23) := by positivity
  have hq : q / 2 ^ (f32_exponent q - 23) ≤ (k : ℚ) := by
    rw [div_le_iff₀ hu, ← hk]; exact h
  have := round_half_even_le _ k hq
  have h' : (round_half_even (q / 2 ^ (f32_exponent q - 23)) : ℚ) ≤ (k : ℚ) := by
    exact_mod_cast this
  rw [hk]
  exact mul_le_mul_of_nonneg_right h' hu.le

/-- A value in `[0, 240]` rounds into `[0, 240]`. -/
theorem round_f32_le_240 (q : ℚ) (h0 : 0 ≤ q) (h : q ≤ 240) : round_f32 q ≤ 240 := by
  have he : f32_exponent q ≤ 7 := by
    apply f32_exponent_le q 7 _ (by norm_num)
    rw [abs_of_nonneg h0]
    calc q ≤ 240 := h
      _ < 2 ^ ((7 : Int) + 1) := by norm_num
  obtain ⟨n, hn⟩ : ∃ n : Nat, (n : Int) = 23 - f32_exponent q := ⟨(23 - f32_exponent q).toNat, by omega⟩
  refine round_f32_le_grid q 240 (240 * 2 ^ n) ?_ h
  have hexp : f32_exponent q - 23 = -(n : Int) := by omega
  rw [hexp, zpow_neg, zpow_natCast]
  push_cast
  have : (2 : ℚ) ^ n ≠ 0 := by positivity
  field_simp

theorem bar_height_f32_bounds (d : ℚ) : 0 ≤ bar_height_f32 d ∧ bar_height_f32 d ≤ 240 := by
  simp only [bar_height_f32, clamp_eq, FRAME_HEIGHT]
  set c : ℚ := max 0 (min 1 (round_f32 (round_f32 (d - MIN_DBM) /
    round_f32 (MAX_DBM - MIN_DBM)))) with hc
  have hc0 : 0 ≤ c := le_max_left _ _
  have hc1 : c ≤ 1 := max_le zero_le_one (min_le_left _ _)
  have hv0 : 0 ≤ c * ((240 : Nat) : ℚ) := by positivity
  have hv1 : c * ((240 : Nat) : ℚ) ≤ 240 := by push_cast; nlinarith
  have hr0 := round_f32_nonneg _ hv0
  have hr1 := round_f32_le_240 _ hv0 hv1
  simp only [truncToInt, if_pos hr0]
  refine ⟨Int.floor_nonneg.mpr hr0, ?_⟩
  have h := Int.floor_le (round_f32 (c * ((240 : Nat) : ℚ)))
  have h' : ((⌊round_f32 (c * ((240 : Nat) : ℚ))⌋ : Int) : ℚ) ≤ ((240 : Int) : ℚ) := by
    push_cast; exact le_trans h hr1
  exact_mod_cast h'

/-- The frame drawn by `draw_frame_dbm_f32`: the call succeeds on 128 input values and a
frame buffer of the declared shape, and pixel `(x, y)` is set exactly when `x` lies in
the columns of a bin and `y` is among the bottom `bar_height_f32` rows. -/
theorem draw_frame_dbm_f32_spec (dBms : List ℚ) (hlen : dBms.length = 128) (prior : FrameBuf)
    (hwf : prior.WF) :
    ∃ fb, draw_frame_dbm_f32 dBms prior = some fb ∧ fb.WF ∧
      ∀ x y : Nat, fb.pixel x y = true ↔
        (x / 2 < 128 ∧ y < 240 ∧ 240 - bar_height_f32 (dBms.getD (x / 2) 0) ≤ (y : Int)) := by
  have hbins : (SAMPLE_NUM : Int) / 2 = 128 := by decide
  have hcol : (FRAME_WIDTH : Int) / 128 = 2 := by decide
  have hn : ((128 : Int) - 0).toNat = 128 := by decide
  simp only [draw_frame_dbm_f32, hbins, hcol]
  obtain ⟨fb, hrun, hwf', hpix⟩ :=
    forUp_inv 0 128
      (fun (i : Int) (fb : FrameBuf) => do
        let d ← readAt dBms i
        let h := bar_height_f32 d
        forDown ((FRAME_HEIGHT : Int) - 1) ((FRAME_HEIGHT : Int) - h)
          (fun y fb => forUp (i * 2) ((i + 1) * 2) (fun x fb => set_pixel fb y x) fb)
          fb)
      (fun k s => s.WF ∧ ∀ x y : Nat, s.pixel x y = true ↔
        (x / 2 < k ∧ y < 240 ∧ 240 - bar_height_f32 (dBms.getD (x / 2) 0) ≤ (y : Int)))
      (memset_zero prior)
      ⟨memset_zero_WF prior hwf, fun x y => by
        rw [memset_zero_pixel prior hwf]
        constructor
        · intro h; exact absurd h (by simp)
        · rintro ⟨h, -⟩; omega⟩
      (by
        intro k hk s hs'
        obtain ⟨hswf, hspix⟩ := hs'
        rw [hn] at hk
        obtain ⟨hb0, hb1⟩ := bar_height_f32_bounds (dBms.getD k 0)
        obtain ⟨s', hs1, hs2, hs3⟩ := draw_bar_spec s hswf k hk _ hb0 hb1
        refine ⟨s', ?_, hs2, ?_⟩
        · simp only [zero_add]
          rw [readAt_of_lt dBms k 0 (by omega)]
          simpa only [Option.bind_eq_bind, Option.some_bind] using hs1
        · intro x y
          rw [hs3, hspix]
          constructor
          · rintro (h | h)
            · exact ⟨by omega, h.2⟩
            · exact ⟨by omega, h.2.1, by rw [h.1]; exact h.2.2⟩
          · rintro ⟨h1, h2, h3⟩
            by_cases hx : x / 2 = k
            · exact Or.inr ⟨hx, h2, by rw [← hx]; exact h3⟩
            · exact Or.inl ⟨by omega, h2, h3⟩)
  rw [hn] at hpix
  exact ⟨fb, hrun, hwf', hpix⟩

/-- Evaluation of `round_f32` from the exponent and the rounded significand. -/
theorem round_f32_eval (q : ℚ) (e m : Int) (h1 : (2 : ℚ) ^ e ≤ |q|) (h2 : |q| < 2 ^ (e + 1))
    (h3 : -126 ≤ e) (hm1 : (m : ℚ) ≤ q / 2 ^ (e - 23))
    (hm2 : q / 2 ^ (e - 23) < m + 1 / 2) : round_f32 q = (m : ℚ) * 2 ^ (e - 23) := by
  unfold round_f32
  rw [f32_exponent_eq q e h1 h2 h3, round_half_even_of_lt _ m hm1 hm2]

theorem round_f32_100 : round_f32 100 = 100 := by
  rw [round_f32_eval 100 6 13107200 (by norm_num) (by norm_num) (by norm_num)
    (by norm_num) (by norm_num)]
  norm_num

theorem round_f32_105_half : round_f32 (105 / 2) = 105 / 2 := by
  rw [round_f32_eval (105 / 2) 5 13762560 (by norm_num [abs_of_pos])
    (by norm_num [abs_of_pos]) (by norm_num) (by norm_num) (by norm_num)]
  norm_num

theorem round_f32_neg_95_half : round_f32 (-95 / 2) = -95 / 2 := by
  rw [round_f32_eval (-95 / 2) 5 (-12451840) (by norm_num [abs_of_neg])
    (by norm_num [abs_of_neg]) (by norm_num) (by norm_num) (by norm_num)]
  norm_num

theorem round_f32_21_40 : round_f32 (21 / 40) = 4404019 / 8388608 := by
  rw [round_f32_eval (21 / 40) (-1) 8808038 (by norm_num [abs_of_pos])
    (by norm_num [abs_of_pos]) (by norm_num) (by norm_num) (by norm_num)]
  norm_num

theorem round_f32_product : round_f32 (4404019 / 8388608 * 240) = 16515071 / 131072 := by
  rw [round_f32_eval (4404019 / 8388608 * 240) 6 16515071 (by norm_num [abs_of_pos])
    (by norm_num [abs_of_pos]) (by norm_num) (by norm_num) (by norm_num)]
  norm_num

/-- The bar height computed in binary32 for -47.5 dBm is 125. -/
theorem bar_height_f32_at_47_5 : bar_height_f32 (-95 / 2) = 125 := by
  have hsub : (-95 / 2 : ℚ) - MIN_DBM = 105 / 2 := by simp only [MIN_DBM]; norm_num
  have hrange : (MAX_DBM : ℚ) - MIN_DBM = 100 := by simp only [MIN_DBM, MAX_DBM]; norm_num
  have hdiv : (105 / 2 : ℚ) / 100 = 21 / 40 := by norm_num
  have hmul : (4404019 / 8388608 : ℚ) * ((FRAME_HEIGHT : Nat) : ℚ) = 4404019 / 8388608 * 240 := by
    simp only [FRAME_HEIGHT]; norm_num
  simp only [bar_height_f32, hsub, hrange, round_f32_100, round_f32_105_half, hdiv,
    round_f32_21_40]
  rw [if_neg (by norm_num), if_neg (by norm_num), hmul, round_f32_product]
  simp only [truncToInt]
  rw [if_pos (by norm_num), Int.floor_eq_iff]
  norm_num

/-- The exact-arithmetic bar height for -47.5 dBm is 126. -/
theorem bar_height_exact_at_47_5 :
    truncToInt (max 0 (min 1 (((-95 / 2 : ℚ) - MIN_DBM) / (MAX_DBM - MIN_DBM))) * 240) = 126 := by
  have h : ((-95 / 2 : ℚ) - MIN_DBM) / (MAX_DBM - MIN_DBM) = 21 / 40 := by
    simp only [MIN_DBM, MAX_DBM]; norm_num
  rw [h, min_eq_right (by norm_num), max_eq_right (by norm_num)]
  simp only [truncToInt]
  rw [if_pos (by norm_num), Int.floor_eq_iff]
  norm_num

end Float

section FloatError

theorem round_half_even_ge (q : ℚ) (k : Int) (h : (k : ℚ) ≤ q) : k ≤ round_half_even q := by
  have hf : k ≤ ⌊q⌋ := Int.le_floor.mpr h
  rcases round_half_even_cases q with h1 | h1 <;> rw [h1] <;> omega

theorem round_half_even_error (q : ℚ) : |(round_half_even q : ℚ) - q| ≤ 1 / 2 := by
  have h1 := Int.floor_le q
  have h2 := Int.lt_floor_add_one q
  unfold round_half_even
  split_ifs with ha hb hc
  · rw [abs_le]; constructor <;> linarith
  · push_cast; rw [abs_le]; constructor <;> linarith
  · rw [abs_le]; constructor <;> linarith
  · push_cast; rw [abs_le]; constructor <;> linarith

/-- The rounding error of a binary32 operation is at most half a unit in the last
place. -/
theorem round_f32_error (q : ℚ) :
    |round_f32 q - q| ≤ 1 / 2 * 2 ^ (f32_exponent q - 23) := by
  unfold round_f32
  have hu : (0 : ℚ) < 2 ^ (f32_exponent q - 23) := by positivity
  have h := round_half_even_error (q / 2 ^ (f32_exponent q - 23))
  have e : (round_half_even (q / 2 ^ (f32_exponent q - 23)) : ℚ) * 2 ^ (f32_exponent q - 23) - q
      = ((round_half_even (q / 2 ^ (f32_exponent q - 23)) : ℚ) -
          q / 2 ^ (f32_exponent q - 23)) * 2 ^ (f32_exponent q - 23) := by
    field_simp
  rw [e, abs_mul, abs_of_pos hu]
  exact mul_le_mul_of_nonneg_right h hu.le

theorem round_f32_error_le (q : ℚ) (e : Int) (h2 : |q| < 2 ^ (e + 1)) (h3 : 0 ≤ e) :
    |round_f32 q - q| ≤ 1 / 2 * 2 ^ (e - 23) := by
  refine le_trans (round_f32_error q) ?_
  have he := f32_exponent_le q e h2 h3
  have : (2 : ℚ) ^ (f32_exponent q - 23) ≤ 2 ^ (e - 23) :=
    zpow_le_zpow_right₀ (by norm_num) (by omega)
  linarith

theorem round_f32_nonpos (q : ℚ) (h : q ≤ 0) : round_f32 q ≤ 0 := by
  refine round_f32_le_grid q 0 0 (by simp) h

/-- Rounding to binary32 does not fall below a power of two that the operand reaches. -/
theorem round_f32_ge_two_pow (q : ℚ) (j : Int) (hj : -126 ≤ j) (h : (2 : ℚ) ^ j ≤ q) :
    (2 : ℚ) ^ j ≤ round_f32 q := by
  have hpos : 0 < q := lt_of_lt_of_le (by positivity) h
  have habs : |q| = q := abs_of_pos hpos
  have hlog : j ≤ Int.log 2 q :=
    (Int.zpow_le_iff_le_log (b := 2) (by norm_num) hpos).mp (by exact_mod_cast h)
  have he : f32_exponent q = Int.log 2 q := by
    unfold f32_exponent; rw [habs]; exact max_eq_left (by omega)
  have hle : (2 : ℚ) ^ (Int.log 2 q) ≤ q := by
    have := Int.zpow_log_le_self (b := 2) (r := q) (by norm_num) hpos
    exact_mod_cast this
  unfold round_f32
  rw [he]
  have hu : (0 : ℚ) < 2 ^ (Int.log 2 q - 23) := by positivity
  have hpow : (8388608 : ℚ) * 2 ^ (Int.log 2 q - 23) = 2 ^ (Int.log 2 q) := by
    rw [zpow_sub₀ (by norm_num)]
    norm_num
    ring
  have hq : ((8388608 : Int) : ℚ) ≤ q / 2 ^ (Int.log 2 q - 23) := by
    rw [le_div_iff₀ hu]
    push_cast
    rw [hpow]; exact hle
  have hm := round_half_even_ge _ _ hq
  have hm' : (8388608 : ℚ) ≤
      (round_half_even (q / 2 ^ (Int.log 2 q - 23)) : ℚ) := by exact_mod_cast hm
  calc (2 : ℚ) ^ j ≤ 2 ^ (Int.log 2 q) := zpow_le_zpow_right₀ (by norm_num) hlog
    _ = 8388608 * 2 ^ (Int.log 2 q - 23) := hpow.symm
    _ ≤ _ := mul_le_mul_of_nonneg_right hm' hu.le

theorem round_f32_240 : round_f32 240 = 240 := by
  rw [round_f32_eval 240 7 15728640 (by norm_num) (by norm_num) (by norm_num)
    (by norm_num) (by norm_num)]
  norm_num

theorem clamp_lipschitz (x y : ℚ) :
    |max 0 (min 1 x) - max 0 (min 1 y)| ≤ |x - y| := by
  rcases le_total x y with h | h
  · rw [abs_sub_comm, abs_sub_comm x y, abs_of_nonneg (sub_nonneg.mpr h),
      abs_of_nonneg (sub_nonneg.mpr (max_le_max le_rfl (min_le_min le_rfl h)))]
    simp only [max_def, min_def]
    split_ifs <;> linarith
  · rw [abs_of_nonneg (sub_nonneg.mpr h),
      abs_of_nonneg (sub_nonneg.mpr (max_le_max le_rfl (min_le_min le_rfl h)))]
    simp only [max_def, min_def]
    split_ifs <;> linarith

theorem floor_close (r s : ℚ) (h : |r - s| < 1) : |⌊r⌋ - ⌊s⌋| ≤ 1 := by
  have h1 := Int.floor_le r
  have h2 := Int.lt_floor_add_one r
  have h3 := Int.floor_le s
  have h4 := Int.lt_floor_add_one s
  obtain ⟨ha, hb⟩ := abs_lt.mp h
  rw [abs_le]
  constructor
  · have : ((⌊s⌋ : Int) : ℚ) < ((⌊r⌋ + 2 : Int) : ℚ) := by push_cast; linarith
    have := Int.cast_lt.mp this
    omega
  · have : ((⌊r⌋ : Int) : ℚ) < ((⌊s⌋ + 2 : Int) : ℚ) := by push_cast; linarith
    have := Int.cast_lt.mp this
    omega

theorem round_f32_zero : round_f32 0 = 0 := by
  simp [round_f32, round_half_even]

/-- The bar height computed in binary32 is the exact-arithmetic bar height or differs from
it by one row. -/
theorem bar_height_f32_close (d : ℚ) :
    |bar_height_f32 d -
      truncToInt (max 0 (min 1 ((d - MIN_DBM) / (MAX_DBM - MIN_DBM))) * 240)| ≤ 1 := by
  have hrange : (MAX_DBM : ℚ) - MIN_DBM = 100 := by simp only [MIN_DBM, MAX_DBM]; norm_num
  have hH : ((FRAME_HEIGHT : Nat) : ℚ) = 240 := by simp only [FRAME_HEIGHT]; norm_num
  simp only [bar_height_f32, clamp_eq, hrange, round_f32_100, hH]
  set x0 : ℚ := d - MIN_DBM with hx0
  set a : ℚ := round_f32 x0 with ha
  set n : ℚ := round_f32 (a / 100) with hn
  rcases le_or_lt x0 0 with hneg | hpos
  · -- both values are clamped to 0
    have ha0 : a ≤ 0 := round_f32_nonpos x0 hneg
    have hn0 : n ≤ 0 := round_f32_nonpos _ (by linarith)
    have hc : max 0 (min 1 n) = 0 := by
      rw [max_eq_left]; exact le_trans (min_le_right _ _) hn0
    have hc' : max 0 (min 1 (x0 / 100)) = 0 := by
      rw [max_eq_left]; exact le_trans (min_le_right _ _) (by linarith)
    rw [hc, hc', zero_mul, round_f32_zero]
    simp
  · rcases le_or_lt 256 x0 with hbig | hsmall
    · -- both values are clamped to 1
      have ha256 : (256 : ℚ) ≤ a := by
        have := round_f32_ge_two_pow x0 8 (by norm_num) (by norm_num; exact hbig)
        norm_num at this; exact this
      have hn2 : (2 : ℚ) ≤ n := by
        have := round_f32_ge_two_pow (a / 100) 1 (by norm_num) (by norm_num; linarith)
        norm_num at this; exact this
      have hc : max 0 (min 1 n) = 1 := by
        rw [min_eq_left (by linarith), max_eq_right zero_le_one]
      have hc' : max 0 (min 1 (x0 / 100)) = 1 := by
        rw [min_eq_left (by linarith), max_eq_right zero_le_one]
      rw [hc, hc', one_mul, round_f32_240]
      simp
    · have hea : |a - x0| ≤ 1 / 2 * 2 ^ ((7 : Int) - 23) :=
        round_f32_error_le x0 7 (by rw [abs_of_pos hpos]; norm_num; exact hsmall)
          (by norm_num)
      have hea' : |a - x0| ≤ 1 / 131072 := by norm_num at hea; exact hea
      obtain ⟨ha1, ha2⟩ := abs_le.mp hea'
      have ha0 : 0 ≤ a := round_f32_nonneg x0 hpos.le
      have hen : |n - a / 100| ≤ 1 / 2 * 2 ^ ((1 : Int) - 23) :=
        round_f32_error_le (a / 100) 1
          (by rw [abs_of_nonneg (by positivity)]; norm_num; linarith) (by norm_num)
      have hen' : |n - a / 100| ≤ 1 / 8388608 := by norm_num at hen; exact hen
      obtain ⟨hn1, hn2⟩ := abs_le.mp hen'
      have hnn : |n - x0 / 100| ≤ 1 / 4000000 := by
        rw [abs_le]; constructor <;> linarith
      have hcc := le_trans (clamp_lipschitz n (x0 / 100)) hnn
      set c : ℚ := max 0 (min 1 n) with hc
      set c' : ℚ := max 0 (min 1 (x0 / 100)) with hc'
      obtain ⟨hc1, hc2⟩ := abs_le.mp hcc
      have hc0 : 0 ≤ c := le_max_left _ _
      have hc01 : c ≤ 1 := max_le zero_le_one (min_le_left _ _)
      have hc'0 : 0 ≤ c' := le_max_left _ _
      have hp0 : 0 ≤ c * 240 := by positivity
      have her : |round_f32 (c * 240) - c * 240| ≤ 1 / 2 * 2 ^ ((7 : Int) - 23) :=
        round_f32_error_le (c * 240) 7
          (by rw [abs_of_nonneg hp0]; norm_num; linarith) (by norm_num)
      have her' : |round_f32 (c * 240) - c * 240| ≤ 1 / 131072 := by
        norm_num at her; exact her
      obtain ⟨hr1, hr2⟩ := abs_le.mp her'
      have hr0 : 0 ≤ round_f32 (c * 240) := round_f32_nonneg _ hp0
      have hp'0 : 0 ≤ c' * 240 := by positivity
      simp only [truncToInt, if_pos hr0, if_pos hp'0]
      apply floor_close
      rw [abs_lt]; constructor <;> linarith

theorem bar_height_f32_eq (d : ℚ) :
    bar_height_f32 d = truncToInt (round_f32 (max 0 (min 1
      (round_f32 (round_f32 (d - MIN_DBM) / round_f32 (MAX_DBM - MIN_DBM)))) * 240)) := by
  simp only [bar_height_f32, clamp_eq, FRAME_HEIGHT]
  norm_num

end FloatError

section FloatClaims

/-- Claim C4 as stated fails on the program, which computes the bar height in `float`
arithmetic. For `dBms[0] = -47.5`, a binary32 value, the quotient `52.5 / 100` is rounded
down to `4404019 / 8388608`, the product with 240 is rounded to `16515071 / 131072`, just
below 126, and the bar has 125 rows, while the formula of the claim in exact arithmetic
gives `trunc (0.525 * 240) = 126`: pixel `(0, 114)` is clear although `114 ≥ 240 - 126`. -/
theorem draw_frame_dbm_f32_rounding :
    ∃ fb, draw_frame_dbm_f32 ((-95 / 2 : ℚ) :: List.replicate 127 0) (framebuf_fill 0)
        = some fb ∧
      round_f32 (-95 / 2) = -95 / 2 ∧
      bar_height_f32 (-95 / 2) = 125 ∧
      truncToInt (max 0 (min 1 (((-95 / 2 : ℚ) - MIN_DBM) / (MAX_DBM - MIN_DBM))) * 240)
        = 126 ∧
      fb.pixel 0 114 = false ∧
      ¬ (fb.pixel 0 114 = true ↔
        ((0 : Nat) < 256 ∧ (240 : Int) - truncToInt (max 0 (min 1
          (((((-95 / 2 : ℚ) :: List.replicate 127 0).getD (0 / 2) 0) - MIN_DBM) /
            (MAX_DBM - MIN_DBM))) * 240) ≤ ((114 : Nat) : Int))) := by
  obtain ⟨fb, hrun, -, hpix⟩ := draw_frame_dbm_f32_spec
    ((-95 / 2 : ℚ) :: List.replicate 127 0) (by simp) (framebuf_fill 0) (framebuf_fill_WF 0)
  have hget : ((-95 / 2 : ℚ) :: List.replicate 127 0).getD (0 / 2) 0 = -95 / 2 := rfl
  have hclear : ¬ (fb.pixel 0 114 = true) := by
    rw [hpix, hget, bar_height_f32_at_47_5]
    omega
  refine ⟨fb, hrun, round_f32_neg_95_half, bar_height_f32_at_47_5, bar_height_exact_at_47_5,
    by simpa using hclear, ?_⟩
  rw [hget, bar_height_exact_at_47_5]
  intro h
  exact hclear (h.mpr ⟨by omega, by omega⟩)

/-- Claim C4, amended. For every input array `dBms` of 128 values and every prior frame
buffer content, after the drawing part of `draw_frame_dbm` the pixel `(x, y)` with
`0 ≤ x < 320`, `0 ≤ y < 240`, read as bit `7 - (x mod 8)` of `framebuf[y][x / 8]`, is set
if and only if `x < 256` and `y ≥ 240 - h (x / 2)`, where `h i` is the bar height as the
program computes it in binary32 arithmetic, each operation rounded to nearest:
`h i = trunc (fl (clamp (fl (fl (dBms[i] - MIN_DBM) / fl (MAX_DBM - MIN_DBM)), 0, 1) * 240))`;
`h i` is the value `trunc (clamp ((dBms[i] - MIN_DBM) / (MAX_DBM - MIN_DBM), 0, 1) * 240)`
of exact arithmetic or differs from it by one row. Bin `i` occupies exactly columns `2i`
and `2i + 1`, and columns `256..319` are never set. -/
theorem draw_frame_dbm_f32_pixels (dBms : List ℚ) (hlen : dBms.length = SAMPLE_NUM / 2)
    (prior : FrameBuf) (hwf : prior.WF) :
    ∃ fb, draw_frame_dbm_f32 dBms prior = some fb ∧
      (∀ x y : Nat, x < FRAME_WIDTH → y < FRAME_HEIGHT →
        (fb.pixel x y = true ↔
          (x < 256 ∧ (240 : Int) - bar_height_f32 (dBms.getD (x / 2) 0) ≤ (y : Int)))) ∧
      (∀ d : ℚ, bar_height_f32 d = truncToInt (round_f32 (max 0 (min 1
        (round_f32 (round_f32 (d - MIN_DBM) / round_f32 (MAX_DBM - MIN_DBM)))) * 240))) ∧
      (∀ d : ℚ, |bar_height_f32 d -
        truncToInt (max 0 (min 1 ((d - MIN_DBM) / (MAX_DBM - MIN_DBM))) * 240)| ≤ 1) := by
  obtain ⟨fb, hrun, -, hpix⟩ := draw_frame_dbm_f32_spec dBms
    (by simpa [SAMPLE_NUM] using hlen) prior hwf
  refine ⟨fb, hrun, ?_, bar_height_f32_eq, bar_height_f32_close⟩
  intro x y _ hy
  simp only [FRAME_HEIGHT] at hy
  rw [hpix]
  constructor
  · rintro ⟨h1, -, h3⟩; exact ⟨by omega, h3⟩
  · rintro ⟨h1, h3⟩; exact ⟨by omega, hy, h3⟩

/-- Instance of `draw_frame_dbm_f32_pixels`: 128 values of -47.5 dBm drawn over an
all-ones frame buffer. -/
theorem draw_frame_dbm_f32_pixels_witness :
    (List.replicate 128 (-95 / 2 : ℚ)).length = SAMPLE_NUM / 2 ∧
    FrameBuf.WF (framebuf_fill 255) ∧
    ∃ fb, draw_frame_dbm_f32 (List.replicate 128 (-95 / 2 : ℚ)) (framebuf_fill 255)
        = some fb ∧
      (∀ x y : Nat, x < FRAME_WIDTH → y < FRAME_HEIGHT →
        (fb.pixel x y = true ↔
          (x < 256 ∧ (240 : Int) -
            bar_height_f32 ((List.replicate 128 (-95 / 2 : ℚ)).getD (x / 2) 0)
              ≤ (y : Int)))) ∧
      (∀ d : ℚ, bar_height_f32 d = truncToInt (round_f32 (max 0 (min 1
        (round_f32 (round_f32 (d - MIN_DBM) / round_f32 (MAX_DBM - MIN_DBM)))) * 240))) ∧
      (∀ d : ℚ, |bar_height_f32 d -
        truncToInt (max 0 (min 1 ((d - MIN_DBM) / (MAX_DBM - MIN_DBM))) * 240)| ≤ 1) :=
  ⟨by simp [SAMPLE_NUM], framebuf_fill_WF 255,
    draw_frame_dbm_f32_pixels _ (by simp [SAMPLE_NUM]) _ (framebuf_fill_WF _)⟩

end FloatClaims

/-! ## The tone scenario: the bin of the tone -/

section WindowedSums

open Real

end WindowedSums

section ToneBin

open Real

end ToneBin

section ToneBinTaps

open Real

end ToneBinTaps

section ToneGeneral

open Real

end ToneGeneral

section ToneGeneralTaps

open Real

end ToneGeneralTaps

section ToneBinClaim

open Real

end ToneBinClaim

end RaspicoVNA
